import Mathlib

/-!
# Backup history resolution and presentation (`cli/command_backups.go`)

A shallow embedding of the `backups` command of the repository: the ancestor
walk `findBackups`, the command driver `runBackupsCommand`, the sort key
`manifestSorter.Less` and the display loop with its size deltas.

Go strings are modelled as lists of characters (`GoString`); the only string
operations the code performs are length tests, concatenation, equality, the
lexicographic comparison `strings.Compare` and the `path/filepath` functions
`Dir` and `Base` (Unix flavour: the separator is `/`, volume names are empty).
-/

namespace Kopia

/-- A Go string, as the list of its characters. -/
abbrev GoString := List Char

/-! ## `path/filepath` (Unix) -/

/-- The function `os.IsPathSeparator` on Unix: `c == '/'`. -/
def isPathSeparator (c : Char) : Bool := c == '/'

/-- The test `r+1 == n || os.IsPathSeparator(path[r+1])` of `filepath.Clean`,
on the unread input that follows position `r`. -/
def elementEnds : GoString → Bool
  | [] => true
  | c :: _ => isPathSeparator c

/-- The backtracking of `filepath.Clean` at a `..` element:
`out.w--; for out.w > dotdot && !os.IsPathSeparator(out.index(out.w)) { out.w-- }`.
The buffer is held last-written-first, so its head is the byte at index `w-1`. -/
def backtrack (dotdot : Nat) : List Char → List Char
  | [] => []
  | c :: buf => if dotdot < buf.length && !isPathSeparator c then backtrack dotdot buf else buf

/-- The test `rooted && out.w != 1 || !rooted && out.w != 0` of the default case
of `filepath.Clean`: a separator must be written before the next element. -/
def needsSeparator (rooted : Bool) (w : Nat) : Bool :=
  (rooted && w != 1) || (!rooted && w != 0)

/-- The main loop `for r < n` of `filepath.Clean`. The first argument is the
unread input `path[r:]`; `out` is the buffer `buf[:w]`, last-written byte first;
`copying` is true while the inner loop of the default case
(`for ; r < n && !os.IsPathSeparator(path[r]); r++`) is copying an element. The
result is the buffer when the input is exhausted. -/
def cleanLoop (rooted : Bool) : GoString → Bool → List Char → Nat → List Char
  | [], _, out, _ => out
  | c :: rest, true, out, dotdot =>
    if isPathSeparator c then
      -- the copy loop stops at the separator; the next iteration skips it (`r++`)
      cleanLoop rooted rest false out dotdot
    else
      cleanLoop rooted rest true (c :: out) dotdot
  | c :: rest, false, out, dotdot =>
    if isPathSeparator c then
      -- empty path element
      cleanLoop rooted rest false out dotdot
    else if c == '.' && elementEnds rest then
      -- . element
      cleanLoop rooted rest false out dotdot
    else
      match rest with
      | c2 :: rest2 =>
        if c == '.' && c2 == '.' && elementEnds rest2 then
          -- .. element: remove to last separator
          if dotdot < out.length then
            cleanLoop rooted rest2 false (backtrack dotdot out) dotdot
          else if !rooted then
            let out2 := '.' :: '.' :: (if 0 < out.length then '/' :: out else out)
            cleanLoop rooted rest2 false out2 out2.length
          else
            cleanLoop rooted rest2 false out dotdot
        else
          -- real path element: add slash if needed, copy the element
          cleanLoop rooted (c2 :: rest2) true
            (c :: (if needsSeparator rooted out.length then '/' :: out else out)) dotdot
      | [] =>
        cleanLoop rooted [] true
          (c :: (if needsSeparator rooted out.length then '/' :: out else out)) dotdot

/-- The function `filepath.Clean` on Unix. -/
def Clean (path : GoString) : GoString :=
  match path with
  | [] => ['.']
  | c :: rest =>
    let out :=
      if isPathSeparator c then cleanLoop true rest false ['/'] 1
      else cleanLoop false (c :: rest) false [] 0
    -- Turn empty string into "."
    if out.isEmpty then ['.'] else out.reverse

/-- The slice `path[:i+1]` of `filepath.Dir`, where `i` is the index of the last
separator of `path` (`-1` when it has none). -/
def upToLastSeparator (path : GoString) : GoString :=
  (path.reverse.dropWhile (fun c => !isPathSeparator c)).reverse

/-- The function `filepath.Dir` on Unix:
`i := len(path)-1; for i >= 0 && !os.IsPathSeparator(path[i]) { i-- }; return Clean(path[:i+1])`. -/
def Dir (path : GoString) : GoString :=
  Clean (upToLastSeparator path)

/-- The function `filepath.Base` on Unix. -/
def Base (path : GoString) : GoString :=
  if path.isEmpty then ['.']
  else
    -- Strip trailing slashes.
    let stripped := (path.reverse.dropWhile isPathSeparator).reverse
    -- Find the last element
    let last := (stripped.reverse.takeWhile (fun c => !isPathSeparator c)).reverse
    -- If empty now, it had only slashes.
    if last.isEmpty then ['/'] else last

/-! ## Data model -/

/-- The type `snapshot.SourceInfo`: host name, user name and path. -/
structure SourceInfo where
  Host : GoString
  UserName : GoString
  Path : GoString
deriving DecidableEq, Repr

/-- The zero value `snapshot.SourceInfo{}`. -/
def SourceInfo.zero : SourceInfo := ⟨[], [], []⟩

deriving instance DecidableEq for Except

/-- The outcome of one call `mgr.ListSnapshotManifests(&sourceInfo, -1)`: the
manifest ids or the error, and the state of the manager after the call. The
manager is a collaborator; `σ` is its state and `ε` its error type. -/
abbrev ListManifests (σ ε : Type) := σ → SourceInfo → Except ε (List GoString) × σ

/-- The three results `(manifestIDs, relPath, err)` of `findBackups`. -/
structure FindResult (ε : Type) where
  manifestIDs : List GoString
  relPath : GoString
  err : Option ε
deriving DecidableEq, Repr

/-! ## `findBackups` -/

/-- The loop `for len(sourceInfo.Path) > 0` of `findBackups`, run for at most
`fuel` iterations; `none` when the iterations are used up before the loop ends.
The diagnostic `log.Printf` of an unsuccessful hop is left out. -/
def findBackupsLoop {σ ε : Type} (list : ListManifests σ ε) :
    Nat → σ → SourceInfo → GoString → Option (FindResult ε × σ)
  | 0, _, _, _ => none
  | fuel + 1, st, sourceInfo, relPath =>
    if 0 < sourceInfo.Path.length then
      match list st sourceInfo with
      | (Except.error e, st1) => some (⟨[], [], some e⟩, st1)
      | (Except.ok l, st1) =>
        if 0 < l.length then some (⟨l, relPath, none⟩, st1)
        else
          let relPath1 :=
            if 0 < relPath.length then Base sourceInfo.Path ++ '/' :: relPath
            else Base sourceInfo.Path
          let parentPath := Dir sourceInfo.Path
          if parentPath = sourceInfo.Path then some (⟨[], [], none⟩, st1)
          else findBackupsLoop list fuel st1 { sourceInfo with Path := parentPath } relPath1
    else some (⟨[], [], none⟩, st)

/-- The function `findBackups`: the loop started with an empty relative path.
The loop needs at most `len(path) + 1` iterations (`findBackups_terminates`). -/
def findBackups {σ ε : Type} (list : ListManifests σ ε) (st : σ) (sourceInfo : SourceInfo) :
    Option (FindResult ε × σ) :=
  findBackupsLoop list (sourceInfo.Path.length + 1) st sourceInfo []

/-! ## Manifests, the sort key and the display loop -/

/-- The type `snapshot.Stats`, reduced to the field the command reads. -/
structure Stats where
  TotalFileSize : Int
deriving DecidableEq, Repr

/-- The type `*snapshot.Manifest`: the command holds manifests by pointer
(`[]*snapshot.Manifest`, `map[*snapshot.Manifest]string`). A value is the address
`addr` of the pointer and the fields of the manifest it points to that the
command reads; `StartTime` is held as its `UnixNano()` value. Only the map
`manifestToItemID`, keyed by pointer, reads the address. -/
structure Manifest where
  Source : SourceInfo
  StartTime : Int
  IncompleteReason : GoString
  RootObjectID : GoString
  HashCacheID : GoString
  Stats : Stats
  addr : Nat
deriving DecidableEq, Repr

/-- Modelled from the spec: the method `SourceInfo.String` of package `snapshot`
is not among the sources; the specification (section 6) says a `SourceInfo` is
rendered as `user@host:path`, which is also the format of the log line of
`findBackups`. -/
def SourceInfo.String (si : SourceInfo) : GoString :=
  si.UserName ++ '@' :: (si.Host ++ ':' :: si.Path)

/-- The function `strings.Compare`: `-1`, `0` or `+1` by lexicographic order. -/
def stringsCompare : GoString → GoString → Int
  | [], [] => 0
  | [], _ :: _ => -1
  | _ :: _, [] => 1
  | a :: as, b :: bs =>
    if a.toNat < b.toNat then -1
    else if b.toNat < a.toNat then 1
    else stringsCompare as bs

/-- The method `manifestSorter.Less`, on the two manifests `b[i]` and `b[j]`. -/
def manifestSorter.Less (bi bj : Manifest) : Bool :=
  let c := stringsCompare bi.Source.String bj.Source.String
  if c ≠ 0 then decide (c < 0)
  else decide (bi.StartTime < bj.StartTime)

/-- What `sort.Sort(manifestSorter(manifests))` guarantees of its result: it is a
permutation of the input in which no element is `Less` than an earlier one. -/
def IsSortResult (input output : List Manifest) : Prop :=
  output.Perm input ∧ output.Pairwise (fun a b => manifestSorter.Less b a = false)

instance (input output : List Manifest) : Decidable (IsSortResult input output) := by
  unfold IsSortResult
  infer_instance

/-- No manifest of source `b` comes before a manifest of source `a`: all
manifests of `a` are before all manifests of `b`. -/
def allBefore (a b : SourceInfo) (l : List Manifest) : Prop :=
  l.Pairwise (fun x y => ¬ (x.Source = b ∧ y.Source = a))

instance (a b : SourceInfo) (l : List Manifest) : Decidable (allBefore a b l) := by
  unfold allBefore
  infer_instance

/-- The manifests of the sources `a` and `b` are not interleaved: those of one
are all before those of the other. -/
def separated (a b : SourceInfo) (l : List Manifest) : Prop :=
  allBefore a b l ∨ allBefore b a l

instance (a b : SourceInfo) (l : List Manifest) : Decidable (separated a b l) := by
  unfold separated
  infer_instance

/-- The result of an `int64` operation whose mathematical result is `x`. -/
def wrapInt64 (x : Int) : Int := (x + 2 ^ 63) % 2 ^ 64 - 2 ^ 63

/-- The function `deltaBytes`; `bytesString` is `units.BytesStringBase10`, a
function of package `internal/units` that is not among the sources. -/
def deltaBytes (bytesString : Int → GoString) (b : Int) : GoString :=
  if b > 0 then ['(', '+'] ++ bytesString b ++ [')']
  else []

/-- The flags of the command that the display loop reads. -/
structure DisplayFlags where
  backupsIncludeIncomplete : Bool
  backupsShowItemID : Bool
  backupsShowHashCache : Bool
  maxResultsPerPath : Int
deriving DecidableEq, Repr

/-- One call of `fmt.Printf` of the display loop. -/
inductive Line where
  /-- The group header `"\n%v\n"` with `m.Source`. -/
  | header (source : SourceInfo)
  /-- The entry line: the manifest `m` (its `RootObjectID`, `StartTime` and
  `Stats.TotalFileSize` are printed), `relPath`, the result of `deltaBytes` and
  `maybeIncomplete`. -/
  | entry (m : Manifest) (relPath : GoString) (delta : GoString) (maybeIncomplete : GoString)
  /-- The line `"    metadata:  %v\n"`. -/
  | metadata (itemID : GoString)
  /-- The line `"    hashcache: %v\n"`. -/
  | hashcache (hashCacheID : GoString)
deriving DecidableEq, Repr

/-- The variables `lastSource`, `count` and `lastTotalFileSize` of the display
loop. `count` only grows while it is below `maxResultsPerPath`, so it never
overflows. -/
structure LoopState where
  lastSource : SourceInfo
  count : Int
  lastTotalFileSize : Int
deriving DecidableEq, Repr

/-- The state before the first iteration: `var lastSource snapshot.SourceInfo`,
`var count int`, `var lastTotalFileSize int64`. -/
def LoopState.initial : LoopState := ⟨SourceInfo.zero, 0, 0⟩

/-- The lines printed after an entry line: `metadata` under `*backupsShowItemID`
when the map has the manifest, `hashcache` under `*backupsShowHashCache`. -/
def detailLines (flags : DisplayFlags) (manifestToItemID : Manifest → Option GoString)
    (m : Manifest) : List Line :=
  (if flags.backupsShowItemID then
    match manifestToItemID m with
    | some i => [Line.metadata i]
    | none => []
  else [])
  ++ (if flags.backupsShowHashCache then [Line.hashcache m.HashCacheID] else [])

/-- One iteration of the loop `for _, m := range manifests` of
`runBackupsCommand`: the state after it and the lines it prints.
`manifestToItemID` is the map lookup `manifestToItemID[m]`. -/
def displayStep (flags : DisplayFlags) (bytesString : Int → GoString) (relPath : GoString)
    (manifestToItemID : Manifest → Option GoString) (st : LoopState) (m : Manifest) :
    LoopState × List Line :=
  if m.IncompleteReason ≠ [] ∧ flags.backupsIncludeIncomplete = false then
    -- continue
    (st, [])
  else
    let maybeIncomplete := if m.IncompleteReason ≠ [] then ' ' :: m.IncompleteReason else []
    let st1 : LoopState :=
      if m.Source ≠ st.lastSource then ⟨m.Source, 0, m.Stats.TotalFileSize⟩ else st
    let out1 : List Line := if m.Source ≠ st.lastSource then [Line.header m.Source] else []
    let st2 : LoopState :=
      if st1.count < flags.maxResultsPerPath then { st1 with count := st1.count + 1 } else st1
    let out2 : List Line :=
      if st1.count < flags.maxResultsPerPath then
        [Line.entry m relPath
          (deltaBytes bytesString (wrapInt64 (m.Stats.TotalFileSize - st1.lastTotalFileSize)))
          maybeIncomplete]
        ++ detailLines flags manifestToItemID m
      else []
    let st3 : LoopState :=
      if m.IncompleteReason = [] ∨ flags.backupsIncludeIncomplete = false then
        { st2 with lastTotalFileSize := m.Stats.TotalFileSize }
      else st2
    (st3, out1 ++ out2)

/-- The loop `for _, m := range manifests` of `runBackupsCommand`, from the loop
state `st`: the final state and all the lines printed. -/
def displayLoop (flags : DisplayFlags) (bytesString : Int → GoString) (relPath : GoString)
    (manifestToItemID : Manifest → Option GoString) :
    LoopState → List Manifest → LoopState × List Line
  | st, [] => (st, [])
  | st, m :: rest =>
    let r1 := displayStep flags bytesString relPath manifestToItemID st m
    let r2 := displayLoop flags bytesString relPath manifestToItemID r1.1 rest
    (r2.1, r1.2 ++ r2.2)

/-! ## `runBackupsCommand` -/

/-- The errors `runBackupsCommand` returns: the two made with `fmt.Errorf` and
the error of `LoadSnapshots`, returned as it is. -/
inductive CommandError (ε : Type) where
  /-- The error `fmt.Errorf("invalid directory: '%s': %s", *backupsPath, err)`. -/
  | invalidDirectory (path : GoString) (err : ε)
  /-- The error `fmt.Errorf("cannot list backups: %v", err)`. -/
  | cannotListBackups (err : ε)
  /-- The error of `mgr.LoadSnapshots`. -/
  | loadSnapshots (err : ε)
deriving DecidableEq, Repr

/-- The collaborators of `runBackupsCommand`, none of them among the sources:
`getHostName()`, `getUserName()`, `snapshot.ParseSourceInfo`,
`mgr.ListSnapshotManifests` (with a `nil` or non-`nil` source filter),
`mgr.LoadSnapshots`, `sort.Sort` on a `manifestSorter`, and
`units.BytesStringBase10`. `σ` is the state of the manager. -/
structure Collaborators (σ ε : Type) where
  hostName : GoString
  userName : GoString
  parseSourceInfo : GoString → GoString → GoString → Except ε SourceInfo
  listSnapshotManifests : σ → Option SourceInfo → Except ε (List GoString) × σ
  loadSnapshots : σ → List GoString → Except ε (List Manifest) × σ
  sort : List Manifest → List Manifest
  bytesString : Int → GoString

/-- The map `manifestToItemID` after the loop
`for i, m := range manifests { manifestToItemID[m] = previous[i] }`; a later
assignment to the same key replaces an earlier one. The Go map is keyed by
pointer: the key of a manifest is its address, whatever its fields are. -/
def manifestToItemIDMap (manifests : List Manifest) (previous : List GoString) :
    Manifest → Option GoString :=
  fun m =>
    ((manifests.zip previous).reverse.find? (fun p => p.1.addr = m.addr)).map (fun p => p.2)

/-- What a run of `runBackupsCommand` leaves behind: the error returned (`none`
for `nil`) and the lines printed. -/
structure CommandResult (ε : Type) where
  err : Option (CommandError ε)
  printed : List Line
deriving DecidableEq, Repr

/-- The function `runBackupsCommand`, with the flags `*backupsPath` and the
display flags as arguments. In the branch `*backupsPath != ""` the statement
`si, err := snapshot.ParseSourceInfo(...)` declares a new `err` in the scope of
the branch, so the assignment `previous, relPath, err = findBackups(mgr, si)`
stores the error of `findBackups` in that inner variable; the `err` tested by
`if err != nil` after the branch is the outer one, still `nil`. Opening and
closing the repository (`mustOpenRepository`, `rep.Close`) are left out. The
result is `none` only if the loop of `findBackups` were to run out of iterations, or where
Go panics on `previous[i]` because `LoadSnapshots` returned more manifests than
ids. -/
def runBackupsCommand {σ ε : Type} (c : Collaborators σ ε) (backupsPath : GoString)
    (flags : DisplayFlags) (st : σ) : Option (CommandResult ε) :=
  let listed : Option (Except (CommandError ε) (List GoString × GoString × Option ε × σ)) :=
    if backupsPath ≠ [] then
      match c.parseSourceInfo backupsPath c.hostName c.userName with
      | Except.error e => some (Except.error (CommandError.invalidDirectory backupsPath e))
      | Except.ok si =>
        match findBackups (fun s x => c.listSnapshotManifests s (some x)) st si with
        | none => none
        | some (r, st1) =>
          let relPath := if r.relPath ≠ [] then '/' :: r.relPath else r.relPath
          -- the error `r.err` went to the inner `err`; the outer one is `nil`
          some (Except.ok (r.manifestIDs, relPath, none, st1))
    else
      match c.listSnapshotManifests st none with
      | (Except.error e, st1) => some (Except.ok ([], [], some e, st1))
      | (Except.ok l, st1) => some (Except.ok (l, [], none, st1))
  match listed with
  | none => none
  | some (Except.error e) => some ⟨some e, []⟩
  | some (Except.ok (previous, relPath, err, st1)) =>
    match err with
    | some e => some ⟨some (CommandError.cannotListBackups e), []⟩
    | none =>
      match c.loadSnapshots st1 previous with
      | (Except.error e, _) => some ⟨some (CommandError.loadSnapshots e), []⟩
      | (Except.ok manifests, _) =>
        if previous.length < manifests.length then none
        else
          some ⟨none,
            (displayLoop flags c.bytesString relPath (manifestToItemIDMap manifests previous)
              LoopState.initial (c.sort manifests)).2⟩

/-! ## Reading the printed lines -/

/-- The manifests of the entry lines, in the order printed. -/
def entriesOf : List Line → List Manifest
  | [] => []
  | Line.entry m _ _ _ :: rest => m :: entriesOf rest
  | _ :: rest => entriesOf rest

/-- The deltas of the entry lines, in the order printed; the empty string is an
absent delta. -/
def deltasOf : List Line → List GoString
  | [] => []
  | Line.entry _ _ delta _ :: rest => delta :: deltasOf rest
  | _ :: rest => deltasOf rest

/-- The sources of the group headers, in the order printed. -/
def headersOf : List Line → List SourceInfo
  | [] => []
  | Line.header s :: rest => s :: headersOf rest
  | _ :: rest => headersOf rest

/-- The condition of the `continue` of the display loop: the manifest is
incomplete and incomplete manifests are not included. -/
def skipped (flags : DisplayFlags) (m : Manifest) : Bool :=
  decide (m.IncompleteReason ≠ []) && !flags.backupsIncludeIncomplete

/-- The source of the last manifest of `pre` that is not skipped, `dflt` when
there is none. -/
def lastSourceAfter (flags : DisplayFlags) (dflt : SourceInfo) (pre : List Manifest) :
    SourceInfo :=
  (((pre.filter (fun m => !skipped flags m)).getLast?).map (fun m => m.Source)).getD dflt

/-- The total file size of the last complete manifest of `g`, `dflt` when there
is none. -/
def lastCompleteSize (dflt : Int) (g : List Manifest) : Int :=
  (((g.filter (fun m => decide (m.IncompleteReason = []))).getLast?).map
    (fun m => m.Stats.TotalFileSize)).getD dflt

/-- The deltas the specification describes for sizes that follow a baseline
`prev`: for each size, `(+d)` with `d` its difference to the size before it
when that is strictly positive, absent otherwise. -/
def specDeltasFrom (bytesString : Int → GoString) (prev : Int) : List Int → List GoString
  | [] => []
  | s :: rest =>
    (if s - prev > 0 then ['(', '+'] ++ bytesString (s - prev) ++ [')'] else [])
      :: specDeltasFrom bytesString s rest

/-- The deltas the specification describes for the sizes `s1..sn` of one source:
absent for the first entry, then as in `specDeltasFrom`. -/
def specDeltas (bytesString : Int → GoString) : List Int → List GoString
  | [] => []
  | s :: rest => [] :: specDeltasFrom bytesString s rest

/-! ## Vocabulary of the walk

The sequences below name what the loop of `findBackups` goes through when every
answer so far was an empty list: the path queried at hop `i`, the state of the
manager before that query, the answer to it, and the relative path accumulated
before it. -/

/-- The path queried at hop `i`: `filepath.Dir` applied `i` times. -/
def ancestor (path : GoString) : Nat → GoString
  | 0 => path
  | i + 1 => ancestor (Dir path) i

/-- The state of the manager before the query of hop `i`, when the walk started
in state `st` at `sourceInfo`. -/
def stateAfter {σ ε : Type} (list : ListManifests σ ε) (st : σ) (sourceInfo : SourceInfo) :
    Nat → σ
  | 0 => st
  | i + 1 => stateAfter list (list st sourceInfo).2 { sourceInfo with Path := Dir sourceInfo.Path } i

/-- The answer of the manager to the query of hop `i`. -/
def responseAt {σ ε : Type} (list : ListManifests σ ε) (st : σ) (sourceInfo : SourceInfo)
    (i : Nat) : Except ε (List GoString) :=
  (list (stateAfter list st sourceInfo i) { sourceInfo with Path := ancestor sourceInfo.Path i }).1

/-- The relative path accumulated after `i` hops, starting from `relPath`. -/
def relPathAfter (relPath : GoString) (path : GoString) : Nat → GoString
  | 0 => relPath
  | i + 1 =>
    relPathAfter (if 0 < relPath.length then Base path ++ '/' :: relPath else Base path)
      (Dir path) i

/-- A manager that also records its calls: the wrapped manager `list`, with the
queried `SourceInfo` appended to a log at every call. -/
def recording {σ ε : Type} (list : ListManifests σ ε) : ListManifests (σ × List SourceInfo) ε :=
  fun s sourceInfo => ((list s.1 sourceInfo).1, ((list s.1 sourceInfo).2, s.2 ++ [sourceInfo]))

/-- The first `n` queries of the walk from `sourceInfo`, in order. -/
def callsOf (sourceInfo : SourceInfo) (n : Nat) : List SourceInfo :=
  (List.range n).map (fun i => { sourceInfo with Path := ancestor sourceInfo.Path i })

/-- A path component of a clean path: non-empty, without separator, and neither
`.` nor `..`. -/
def validComponent (c : GoString) : Prop :=
  c ≠ [] ∧ (∀ x ∈ c, isPathSeparator x = false) ∧ c ≠ ['.'] ∧ c ≠ ['.', '.']

instance (c : GoString) : Decidable (validComponent c) := by
  unfold validComponent
  infer_instance

/-- The string `/c1/c2/.../cn` (empty for no component). -/
def absPath : List GoString → GoString
  | [] => []
  | c :: cs => '/' :: c ++ absPath cs

/-- The clean absolute path with components `cs`: `/` for none, else `/c1/.../cn`. -/
def rootedPath (cs : List GoString) : GoString :=
  if cs.isEmpty then ['/'] else absPath cs

/-- The components joined with `/`: `c1/c2/.../cn`. -/
def joinPath : List GoString → GoString
  | [] => []
  | [c] => c
  | c :: cs => c ++ '/' :: joinPath cs

/-! ## Collaborators used in the examples -/

/-- A manager for the examples: manifests `["m1", "m2"]` are recorded at `/a`
only; the state is the log of the queried paths. -/
def exampleManager : ListManifests (List GoString) Unit :=
  fun log si =>
    (if si.Path = ['/', 'a'] then Except.ok [['m', '1'], ['m', '2']] else Except.ok [],
      log ++ [si.Path])

/-- A manager for the examples that has no manifest anywhere. -/
def emptyManager : ListManifests (List GoString) Unit :=
  fun log si => (Except.ok [], log ++ [si.Path])

/-- A manager for the examples that fails with error `7` at `/a` and has no
manifest elsewhere. -/
def failingManager : ListManifests (List GoString) Nat :=
  fun log si =>
    (if si.Path = ['/', 'a'] then Except.error 7 else Except.ok [], log ++ [si.Path])

/-- The rendering of byte counts used in the examples: the decimal digits. -/
def exampleBytesString : Int → GoString := fun n => (Nat.repr n.toNat).toList

/-- The source `u@h:/p` of the examples. -/
def exampleSource : SourceInfo := ⟨['h'], ['u'], ['/', 'p']⟩

/-- A manifest of `exampleSource` with the given start time, incompleteness
reason and total file size, held at the address that is its start time. -/
def exampleManifest (startTime : Int) (reason : GoString) (size : Int) : Manifest :=
  ⟨exampleSource, startTime, reason, ['r'], ['c'], ⟨size⟩, startTime.toNat⟩

/-- The source with user `a@b`, host `c` and path `/p`, rendered `a@b@c:/p`. -/
def collidingSourceA : SourceInfo := ⟨['c'], ['a', '@', 'b'], ['/', 'p']⟩

/-- The source with user `a`, host `b@c` and path `/p`, also rendered `a@b@c:/p`. -/
def collidingSourceB : SourceInfo := ⟨['b', '@', 'c'], ['a'], ['/', 'p']⟩

/-- A complete manifest of the given source and start time, of size `10`. Its
address is made of the bytes of the user name and of the start time, so that the
manifests of an example are held at different addresses. -/
def manifestOf (source : SourceInfo) (startTime : Int) : Manifest :=
  ⟨source, startTime, [], ['r'], ['c'], ⟨10⟩,
    (source.UserName.map Char.toNat).sum * 16 + startTime.toNat⟩

/-- The source `v@h:/p` of the examples. -/
def otherSource : SourceInfo := ⟨['h'], ['v'], ['/', 'p']⟩

/-- A manifest of the zero `SourceInfo` with the given start time,
incompleteness reason and total file size, held at the address that is its start
time. -/
def zeroSourceManifest (startTime : Int) (reason : GoString) (size : Int) : Manifest :=
  ⟨SourceInfo.zero, startTime, reason, ['r'], ['c'], ⟨size⟩, startTime.toNat⟩

/-- Collaborators for the examples: every call of `ListSnapshotManifests` fails
with error `7`; `LoadSnapshots` returns no manifest. The state counts the calls
of `ListSnapshotManifests`. -/
def failingCollaborators : Collaborators Nat Nat where
  hostName := ['h']
  userName := ['u']
  parseSourceInfo := fun path host user => Except.ok ⟨host, user, path⟩
  listSnapshotManifests := fun n _ => (Except.error 7, n + 1)
  loadSnapshots := fun n _ => (Except.ok [], n)
  sort := fun l => l
  bytesString := exampleBytesString

/-! ## Vocabulary of the display loop -/

/-- The value of `lastTotalFileSize` when the entry line of `m` is printed: after
the group reset of lines 108-113, before the update of lines 136-138. -/
def baselineFor (st : LoopState) (m : Manifest) : Int :=
  if m.Source ≠ st.lastSource then m.Stats.TotalFileSize else st.lastTotalFileSize

/-- The value of `count` when it is compared with the cap for `m`: after the
group reset of lines 108-113. -/
def countFor (st : LoopState) (m : Manifest) : Int :=
  if m.Source ≠ st.lastSource then 0 else st.count

/-- The sort key of a manifest: the rendered source and the start time. -/
def sortKey (m : Manifest) : GoString × Int := (m.Source.String, m.StartTime)

/-! ## `blob/storage.go`: the bounded reader -/

/-- The type `bytes.Buffer`: the bytes `buf` and the read offset `off`; the
unread content is `buf[off:]`. -/
structure Buffer where
  buf : List UInt8
  off : Nat
deriving DecidableEq, Repr

/-- The unread content `b.buf[b.off:]` of a buffer. -/
def Buffer.unread (b : Buffer) : List UInt8 := b.buf.drop b.off

/-- The method `bytes.Buffer.Len`: `len(b.buf) - b.off`, the number of unread
bytes. -/
def Buffer.Len (b : Buffer) : Nat := b.buf.length - b.off

/-- The error `io.EOF`. -/
inductive IOError where
  | EOF
deriving DecidableEq, Repr

/-- The method `bytes.Buffer.Read` with a destination `p` of `lenP` bytes: the
bytes copied to `p`, the error, and the buffer afterwards. An empty buffer is
reset and answers `io.EOF` (`nil` when `len(p) == 0`); otherwise
`n = copy(p, b.buf[b.off:])` and `b.off += n`. -/
def Buffer.Read (b : Buffer) (lenP : Nat) : (List UInt8 × Option IOError) × Buffer :=
  if b.buf.length ≤ b.off then
    if lenP = 0 then (([], none), ⟨[], 0⟩) else (([], some IOError.EOF), ⟨[], 0⟩)
  else
    (((b.buf.drop b.off).take lenP, none),
      { b with off := b.off + ((b.buf.drop b.off).take lenP).length })

/-- The type `bytesReaderWithLength`: it embeds a `*bytes.Buffer`, so its state
is the state of that buffer, and `Read` and `Len` are the methods of the buffer. -/
structure bytesReaderWithLength where
  Buffer : Buffer
deriving DecidableEq, Repr

/-- The function `NewReader`: `return &bytesReaderWithLength{b}`. -/
def NewReader (b : Buffer) : bytesReaderWithLength := ⟨b⟩

/-- The method `Len` of `ReaderWithLength`, promoted from the embedded buffer. -/
def bytesReaderWithLength.Len (bbr : bytesReaderWithLength) : Nat := bbr.Buffer.Len

/-- The method `Read` of `ReaderWithLength`, promoted from the embedded buffer. -/
def bytesReaderWithLength.Read (bbr : bytesReaderWithLength) (lenP : Nat) :
    (List UInt8 × Option IOError) × bytesReaderWithLength :=
  ((bbr.Buffer.Read lenP).1, ⟨(bbr.Buffer.Read lenP).2⟩)

/-- The method `bytesReaderWithLength.Close`: `return nil`; the reader is left
as it was. -/
def bytesReaderWithLength.Close (bbr : bytesReaderWithLength) :
    Option IOError × bytesReaderWithLength :=
  (none, bbr)

/-- Reading a reader to completion, as a consumer does: `Read` is called with a
destination of `chunk` bytes until it answers an error (`io.EOF`), at most
`fuel` times; the result is the bytes read and the reader afterwards, `none`
when the calls are used up first. -/
def readToCompletion (chunk : Nat) :
    Nat → bytesReaderWithLength → List UInt8 → Option (List UInt8 × bytesReaderWithLength)
  | 0, _, _ => none
  | fuel + 1, r, acc =>
    match (r.Read chunk).1.2 with
    | some _ => some (acc ++ (r.Read chunk).1.1, (r.Read chunk).2)
    | none => readToCompletion chunk fuel (r.Read chunk).2 (acc ++ (r.Read chunk).1.1)

/-! ## `blob/storage.go`: the block store -/

/-- Modelled from the spec: the error kinds of section 7 that the block store
operations return; the sources declare the interface `Storage` only. -/
inductive StorageError where
  | NotFound
  | AlreadyExists
  | Closed
deriving DecidableEq, Repr

/-- Modelled from the spec: the kind of a backend, by what `PutBlock` under
default options does when the id already exists; section 4.1 says it "fails or
no-ops if `id` already exists — backend-defined but must be consistent". -/
inductive ExistingPolicy where
  | fails
  | noOps
deriving DecidableEq, Repr

/-- Modelled from the spec: a backend of the interface `Storage`, none of which
is among the sources. Its state is the blocks it holds, by id, whether it has
been closed, and its fixed policy for existing ids. -/
structure SpecStorage where
  policy : ExistingPolicy
  blocks : List (GoString × List UInt8)
  closed : Bool
deriving DecidableEq, Repr

/-- Modelled from the spec: `DeleteBlock(id)` of section 4.1: "removes the block.
Calling it for a nonexistent `id` is not an error". -/
def SpecStorage.DeleteBlock (s : SpecStorage) (id : GoString) :
    Option StorageError × SpecStorage :=
  if s.closed then (some StorageError.Closed, s)
  else (none, { s with blocks := s.blocks.filter (fun p => p.1 ≠ id) })

/-- The number of path components of a path: its maximal runs of bytes other
than the separator (counted where a run ends). -/
def countComponents : GoString → Nat
  | [] => 0
  | c :: rest => (if !isPathSeparator c && elementEnds rest then 1 else 0) + countComponents rest

/-- The path ends with a separator. -/
def endsWithSeparator (path : GoString) : Bool :=
  match path.reverse with
  | [] => false
  | c :: _ => isPathSeparator c

/-- The path ends with a separator and is not the root `/`. -/
def hasTrailingSeparator (path : GoString) : Bool :=
  endsWithSeparator path && decide (path ≠ ['/'])

/-- The top of the buffer of `filepath.Clean` is in order: the buffer is empty,
or it is the root `/` of a rooted path, or its last byte is not a separator. -/
def bufferTop (rooted : Bool) (out : List Char) : Prop :=
  out = [] ∨ (rooted = true ∧ out = ['/']) ∨ elementEnds out = false

/-- The invariant of the buffer of `filepath.Clean`: its top is in order, it has
no two separators in a row, `dotdot` is within it, and the part below `dotdot`
has its top in order too. -/
def bufferInv (rooted : Bool) (out : List Char) (dotdot : Nat) : Prop :=
  bufferTop rooted out ∧
  out.Chain' (fun a b => ¬ (isPathSeparator a = true ∧ isPathSeparator b = true)) ∧
  dotdot ≤ out.length ∧
  bufferTop rooted (out.drop (out.length - dotdot))

/-- A measure of the distance of a path from the fixed points `.` and `/` of
`filepath.Dir`: zero at the fixed points, the length elsewhere. -/
def walkMeasure (path : GoString) : Nat :=
  if path = ['.'] ∨ path = ['/'] then 0 else path.length

/-! ## Path lemmas -/

@[simp] theorem isPathSeparator_slash : isPathSeparator '/' = true := rfl

theorem elementEnds_append_sep (t : GoString) : elementEnds (t ++ ['/']) = elementEnds t := by
  cases t with
  | nil => rfl
  | cons c t => rfl

theorem cleanLoop_append_sep (rooted : Bool) :
    ∀ (n : Nat) (rest : GoString), rest.length = n → ∀ (cp : Bool) (out : List Char) (dd : Nat),
      cleanLoop rooted (rest ++ ['/']) cp out dd = cleanLoop rooted rest cp out dd := by
  intro n
  induction n using Nat.strong_induction_on with
  | _ n ih =>
    intro rest hlen cp out dd
    match rest, hlen with
    | [], _ =>
      cases cp <;> simp [cleanLoop, isPathSeparator]
    | [c], _ =>
      cases cp
      · by_cases hs : isPathSeparator c = true
        · simp [cleanLoop, hs]
        · by_cases hd : c = '.'
          · simp [cleanLoop, hs, hd, isPathSeparator, elementEnds]
          · simp [cleanLoop, hs, hd, isPathSeparator, elementEnds]
      · by_cases hs : isPathSeparator c = true
        · simp [cleanLoop, hs]
        · simp [cleanLoop, hs, isPathSeparator]
    | c :: c2 :: t, hlen =>
      have h1 := ih (t.length + 1) (by subst hlen; simp) (c2 :: t) (by simp)
      have h2 := ih t.length (by subst hlen; simp; omega) t rfl
      simp only [List.cons_append] at h1 ⊢
      cases cp
      · simp only [cleanLoop, h1, h2, elementEnds_append_sep, elementEnds.eq_2]
      · simp only [cleanLoop, h1, h2]

theorem backtrack_length_le (dd : Nat) (buf : List Char) :
    (backtrack dd buf).length ≤ buf.length := by
  induction buf with
  | nil => simp [backtrack]
  | cons c buf ih =>
    unfold backtrack
    split
    · exact Nat.le_succ_of_le ih
    · simp

theorem cleanLoop_sep (rooted : Bool) (c : Char) (rest : GoString) (out : List Char) (dd : Nat)
    (hs : isPathSeparator c = true) :
    cleanLoop rooted (c :: rest) false out dd = cleanLoop rooted rest false out dd := by
  cases rest <;> simp [cleanLoop, hs]

theorem cleanLoop_dot (rooted : Bool) (c : Char) (rest : GoString) (out : List Char) (dd : Nat)
    (hs : ¬ isPathSeparator c = true) (hd : (c == '.' && elementEnds rest) = true) :
    cleanLoop rooted (c :: rest) false out dd = cleanLoop rooted rest false out dd := by
  cases rest <;> simp [cleanLoop, hs, hd]

/-- The loop of `Clean` never writes more bytes than it has read: with `r` bytes
read and `w ≤ r` written (and a separator pending whenever `w = r`), the final
length is at most `r` plus the unread input. -/
theorem cleanLoop_length_le (rooted : Bool) (rest : GoString) (cp : Bool) (out : List Char)
    (dd : Nat) :
    ∀ r : Nat, out.length ≤ r →
      (cp = false → out.length = r → needsSeparator rooted out.length = true →
        elementEnds rest = true) →
      (cleanLoop rooted rest cp out dd).length ≤ r + rest.length := by
  induction rest, cp, out, dd using cleanLoop.induct rooted with
  | case1 cp out dd =>
    intro r hr _
    simpa [cleanLoop] using hr
  | case2 c rest out dd hs ih =>
    intro r hr _
    have := ih (r + 1) (by omega) (by intro _ h; omega)
    rw [cleanLoop]
    simp only [hs, ↓reduceIte]
    exact Nat.le_trans this (by simp only [List.length_cons]; omega)
  | case3 c rest out dd hs ih =>
    intro r hr _
    have := ih (r + 1) (by simpa using hr) (by intro h; cases h)
    rw [cleanLoop]
    simp only [hs, ↓reduceIte]
    exact Nat.le_trans this (by simp only [List.length_cons]; omega)
  | case4 c rest out dd hs ih =>
    intro r hr _
    have := ih (r + 1) (by omega) (by intro _ h; omega)
    rw [cleanLoop_sep rooted c rest out dd hs]
    exact Nat.le_trans this (by simp only [List.length_cons]; omega)
  | case5 c rest out dd hs hdot ih =>
    intro r hr _
    have := ih (r + 1) (by omega) (by intro _ h; omega)
    rw [cleanLoop_dot rooted c rest out dd hs hdot]
    exact Nat.le_trans this (by simp only [List.length_cons]; omega)
  | case6 c out dd hs c2 rest2 hdd hlt hnd ih =>
    intro r hr _
    have hb := backtrack_length_le dd out
    have := ih (r + 2) (by omega) (by intro _ h; omega)
    rw [cleanLoop]
    simp only [hs, hdd, hlt, hnd, ↓reduceIte]
    exact Nat.le_trans this (by simp only [List.length_cons]; omega)
  | case7 c out dd hs c2 rest2 hdd hlt hroot out2 hnd ih =>
    intro r hr hpre
    have hends : elementEnds rest2 = true := by
      simp only [Bool.and_eq_true] at hdd
      exact hdd.2
    have hr0 : rooted = false := by simpa using hroot
    have hstrict : 0 < out.length → out.length < r := by
      intro hpos
      rcases Nat.lt_or_ge out.length r with h | h
      · exact h
      · exfalso
        have heq : out.length = r := by omega
        have hne : out.length ≠ 0 := by omega
        have hns : needsSeparator rooted out.length = true := by
          simp only [needsSeparator, hr0]
          simpa using hne
        have := hpre rfl heq hns
        simp only [elementEnds] at this
        exact hs this
    have hlen2 : out2.length ≤ r + 2 := by
      show ('.' :: '.' :: if 0 < out.length then '/' :: out else out).length ≤ r + 2
      by_cases hpos : 0 < out.length
      · have := hstrict hpos
        simp only [hpos, ↓reduceIte, List.length_cons]; omega
      · simp only [hpos, ↓reduceIte, List.length_cons]; omega
    have := ih (r + 2) hlen2 (by intro _ _ _; exact hends)
    rw [cleanLoop]
    simp only [hs, hdd, hlt, hnd, hroot, ↓reduceIte]
    exact Nat.le_trans this (by simp only [List.length_cons]; omega)
  | case8 c out dd hs c2 rest2 hdd hlt hroot hnd ih =>
    intro r hr _
    have := ih (r + 2) (by omega) (by intro _ h; omega)
    rw [cleanLoop]
    simp only [hs, hdd, hlt, hnd, hroot, ↓reduceIte]
    exact Nat.le_trans this (by simp only [List.length_cons]; omega)
  | case9 c out dd hs c2 rest2 hdd hnd ih =>
    intro r hr hpre
    have hlen2 : (c :: if needsSeparator rooted out.length = true then '/' :: out else out).length
        ≤ r + 1 := by
      by_cases hns : needsSeparator rooted out.length = true
      · rcases Nat.lt_or_ge out.length r with h | h
        · rw [if_pos hns]; simp only [List.length_cons]; omega
        · exfalso
          have := hpre rfl (by omega) hns
          simp only [elementEnds] at this
          exact hs this
      · rw [if_neg hns]; simp only [List.length_cons]; omega
    have := ih (r + 1) hlen2 (by intro h; cases h)
    rw [cleanLoop]
    simp only [hs, hdd, hnd, ↓reduceIte]
    exact Nat.le_trans this (by simp only [List.length_cons]; omega)
  | case10 c out dd hs hnd ih =>
    intro r hr hpre
    have hlen2 : (c :: if needsSeparator rooted out.length = true then '/' :: out else out).length
        ≤ r + 1 := by
      by_cases hns : needsSeparator rooted out.length = true
      · rcases Nat.lt_or_ge out.length r with h | h
        · rw [if_pos hns]; simp only [List.length_cons]; omega
        · exfalso
          have := hpre rfl (by omega) hns
          simp only [elementEnds] at this
          exact hs this
      · rw [if_neg hns]; simp only [List.length_cons]; omega
    have := ih (r + 1) hlen2 (by intro h; cases h)
    rw [cleanLoop]
    simp only [hs, hnd, ↓reduceIte]
    exact Nat.le_trans this (by simp only [List.length_cons, List.length_nil]; omega)

theorem Clean_rooted (c : Char) (rest : GoString) (hs : isPathSeparator c = true) :
    Clean (c :: rest) =
      if (cleanLoop true rest false ['/'] 1).isEmpty then ['.']
      else (cleanLoop true rest false ['/'] 1).reverse := by
  simp only [Clean, hs, ↓reduceIte]

theorem Clean_unrooted (c : Char) (rest : GoString) (hs : ¬ isPathSeparator c = true) :
    Clean (c :: rest) =
      if (cleanLoop false (c :: rest) false [] 0).isEmpty then ['.']
      else (cleanLoop false (c :: rest) false [] 0).reverse := by
  simp only [Clean, hs, Bool.false_eq_true, ↓reduceIte]

theorem Clean_length_le (path : GoString) (h : path ≠ []) :
    (Clean path).length ≤ path.length := by
  match path, h with
  | c :: rest, _ =>
    by_cases hs : isPathSeparator c = true
    · have := cleanLoop_length_le true rest false ['/'] 1 1 (by simp) (by simp [needsSeparator])
      rw [Clean_rooted c rest hs]
      split
      · simp
      · simpa [Nat.add_comm] using this
    · have := cleanLoop_length_le false (c :: rest) false [] 0 0 (by simp)
        (by simp [needsSeparator])
      rw [Clean_unrooted c rest hs]
      split
      · simp
      · simpa using this

theorem Clean_append_sep (path : GoString) (h : path ≠ []) :
    Clean (path ++ ['/']) = Clean path := by
  match path, h with
  | c :: rest, _ =>
    simp only [Clean, List.cons_append]
    rw [cleanLoop_append_sep true rest.length rest rfl]
    have := cleanLoop_append_sep false (c :: rest).length (c :: rest) rfl
    simp only [List.cons_append] at this
    rw [this]

theorem Clean_ne_nil (path : GoString) : Clean path ≠ [] := by
  match path with
  | [] => simp [Clean]
  | c :: rest =>
    by_cases hs : isPathSeparator c = true
    · rw [Clean_rooted c rest hs]
      split
      · simp
      · rename_i h
        simpa using h
    · rw [Clean_unrooted c rest hs]
      split
      · simp
      · rename_i h
        simpa using h

/-- The slice before the last separator is empty or ends with that separator,
and is then no longer than the path. -/
theorem upToLastSeparator_cases (path : GoString) :
    upToLastSeparator path = [] ∨
      ∃ x, upToLastSeparator path = x ++ ['/'] ∧ x.length < path.length := by
  unfold upToLastSeparator
  have hsuf := List.dropWhile_suffix (fun c => !isPathSeparator c) (l := path.reverse)
  cases hd : List.dropWhile (fun c => !isPathSeparator c) path.reverse with
  | nil => left; simp
  | cons a l =>
    right
    have ha : isPathSeparator a = true := by
      have := List.head_dropWhile_not (fun c => !isPathSeparator c) path.reverse
        (by rw [hd]; simp)
      simpa [hd] using this
    have ha2 : a = '/' := by simpa [isPathSeparator] using ha
    refine ⟨l.reverse, by simp [ha2], ?_⟩
    rw [hd] at hsuf
    have := hsuf.length_le
    simp only [List.length_cons, List.length_reverse] at this ⊢
    omega

/-- One step of `filepath.Dir` yields `.`, `/` or a strictly shorter path. -/
theorem Dir_cases (path : GoString) :
    Dir path = ['.'] ∨ Dir path = ['/'] ∨ (Dir path).length < path.length := by
  unfold Dir
  rcases upToLastSeparator_cases path with h | ⟨x, hx, hlen⟩
  · left; rw [h]; rfl
  · rw [hx]
    by_cases hnil : x = []
    · right; left; subst hnil; rfl
    · right; right
      rw [Clean_append_sep x hnil]
      exact Nat.lt_of_le_of_lt (Clean_length_le x hnil) hlen

theorem Dir_ne_nil (path : GoString) : Dir path ≠ [] := Clean_ne_nil _

theorem Dir_dot : Dir ['.'] = ['.'] := by decide

theorem Dir_root : Dir ['/'] = ['/'] := by decide

/-! ## Clean absolute paths -/

theorem cleanLoop_copy (rooted : Bool) (c : GoString) (hc : ∀ x ∈ c, isPathSeparator x = false) :
    ∀ (rest : GoString) (out : List Char) (dd : Nat),
      cleanLoop rooted (c ++ rest) true out dd = cleanLoop rooted rest true (c.reverse ++ out) dd := by
  induction c with
  | nil => intro rest out dd; rfl
  | cons a c ih =>
    intro rest out dd
    have ha : isPathSeparator a = false := hc a (List.mem_cons_self a c)
    rw [List.cons_append, cleanLoop]
    simp only [ha, Bool.false_eq_true, ↓reduceIte]
    rw [ih (fun x hx => hc x (List.mem_cons_of_mem a hx))]
    simp

theorem cleanLoop_element (rooted : Bool) (c : GoString) (hc : validComponent c)
    (rest : GoString) (hrest : elementEnds rest = true) (out : List Char) (dd : Nat) :
    cleanLoop rooted (c ++ rest) false out dd =
      cleanLoop rooted rest true
        (c.reverse ++ (if needsSeparator rooted out.length then '/' :: out else out)) dd := by
  obtain ⟨hne, hsep, hdot, hdotdot⟩ := hc
  match c, hne with
  | [a], _ =>
    have ha : isPathSeparator a = false := hsep a (List.mem_cons_self a _)
    have hadot : a ≠ '.' := fun h => hdot (by rw [h])
    have hnd : ∀ l : GoString, ¬ (a == '.' && elementEnds l) = true := by
      intro l h
      simp only [Bool.and_eq_true, beq_iff_eq] at h
      exact hadot h.1
    cases rest with
    | nil =>
      show cleanLoop rooted [a] false out dd = cleanLoop rooted [] true (a :: _) dd
      rw [cleanLoop.eq_4, if_neg (by simp [ha]), if_neg (hnd _)]
      rfl
    | cons t rest =>
      show cleanLoop rooted (a :: t :: rest) false out dd =
        cleanLoop rooted (t :: rest) true (a :: _) dd
      rw [cleanLoop.eq_3, if_neg (by simp [ha]), if_neg (hnd _),
        if_neg (by
          intro h
          simp only [Bool.and_eq_true, beq_iff_eq] at h
          exact hadot h.1.1)]
      rfl
  | a :: b :: c, _ =>
    have ha : isPathSeparator a = false := hsep a (List.mem_cons_self a _)
    have hb : isPathSeparator b = false :=
      hsep b (List.mem_cons_of_mem a (List.mem_cons_self b _))
    have hcopy := cleanLoop_copy rooted (b :: c)
      (fun x hx => hsep x (List.mem_cons_of_mem a hx)) rest
      (a :: (if needsSeparator rooted out.length then '/' :: out else out)) dd
    have hdd : (a == '.' && b == '.' && elementEnds (c ++ rest)) = false := by
      cases c with
      | nil =>
        have : ¬ (a = '.' ∧ b = '.') := fun h => hdotdot (by rw [h.1, h.2])
        simp only [Bool.and_eq_false_iff, beq_eq_false_iff_ne]
        by_cases h1 : a = '.'
        · by_cases h2 : b = '.'
          · exact absurd ⟨h1, h2⟩ this
          · exact Or.inl (Or.inr h2)
        · exact Or.inl (Or.inl h1)
      | cons d c =>
        have hd : isPathSeparator d = false :=
          hsep d (List.mem_cons_of_mem a (List.mem_cons_of_mem b (List.mem_cons_self d _)))
        simp [elementEnds, hd]
    simp only [List.cons_append] at hcopy ⊢
    rw [cleanLoop.eq_3, if_neg (by simp [ha]), if_neg (by simp [elementEnds, hb]),
      if_neg (by rw [hdd]; simp), hcopy]
    simp

theorem elementEnds_absPath (cs : List GoString) : elementEnds (absPath cs) = true := by
  cases cs <;> simp [absPath, elementEnds]

theorem cleanLoop_absPath (cs : List GoString) (hcs : ∀ c ∈ cs, validComponent c) :
    ∀ out : List Char, 2 ≤ out.length →
      cleanLoop true (absPath cs) true out 1 = (absPath cs).reverse ++ out := by
  induction cs with
  | nil => intro out _; simp [absPath, cleanLoop]
  | cons c cs ih =>
    intro out hout
    have hns : needsSeparator true out.length = true := by
      simp only [needsSeparator, Bool.true_and, Bool.not_true, Bool.false_and, Bool.or_false]
      simp only [bne_iff_ne, ne_eq]
      omega
    show cleanLoop true ('/' :: (c ++ absPath cs)) true out 1 = _
    rw [cleanLoop]
    simp only [isPathSeparator_slash, ↓reduceIte]
    rw [cleanLoop_element true c (hcs c (List.mem_cons_self c cs)) _ (elementEnds_absPath cs)]
    simp only [hns, ↓reduceIte]
    rw [ih (fun x hx => hcs x (List.mem_cons_of_mem c hx)) _
      (by simp only [List.length_append, List.length_cons]; omega)]
    simp [absPath]

/-- A clean absolute path is a fixed point of `filepath.Clean`. -/
theorem Clean_absPath (cs : List GoString) (hne : cs ≠ []) (hcs : ∀ c ∈ cs, validComponent c) :
    Clean (absPath cs) = absPath cs := by
  match cs, hne with
  | c :: cs, _ =>
    have hc := hcs c (List.mem_cons_self c cs)
    have hlen : 0 < c.length := List.length_pos.mpr hc.1
    show Clean ('/' :: (c ++ absPath cs)) = _
    rw [Clean_rooted _ _ isPathSeparator_slash,
      cleanLoop_element true c hc _ (elementEnds_absPath cs)]
    simp only [needsSeparator, List.length_singleton, bne_self_eq_false, Bool.and_false,
      Bool.not_true, Bool.false_and, Bool.or_false, Bool.false_eq_true, ↓reduceIte]
    rw [cleanLoop_absPath cs (fun x hx => hcs x (List.mem_cons_of_mem c hx)) _
      (by simp only [List.length_append, List.length_reverse, List.length_singleton]; omega)]
    simp [absPath]

theorem absPath_append (cs : List GoString) (c : GoString) :
    absPath (cs ++ [c]) = absPath cs ++ '/' :: c := by
  induction cs with
  | nil => simp [absPath]
  | cons d cs ih => simp [absPath, ih]

theorem dropWhile_append_stop {α : Type} (p : α → Bool) (l : List α) (a : α) (r : List α)
    (hl : ∀ x ∈ l, p x = true) (ha : p a = false) :
    (l ++ a :: r).dropWhile p = a :: r := by
  induction l with
  | nil => simp [List.dropWhile, ha]
  | cons b l ih =>
    rw [List.cons_append, List.dropWhile_cons_of_pos (hl b (List.mem_cons_self b l))]
    exact ih (fun x hx => hl x (List.mem_cons_of_mem b hx))

theorem takeWhile_append_stop {α : Type} (p : α → Bool) (l : List α) (a : α) (r : List α)
    (hl : ∀ x ∈ l, p x = true) (ha : p a = false) :
    (l ++ a :: r).takeWhile p = l := by
  induction l with
  | nil => simp [List.takeWhile, ha]
  | cons b l ih =>
    rw [List.cons_append, List.takeWhile_cons_of_pos (hl b (List.mem_cons_self b l))]
    rw [ih (fun x hx => hl x (List.mem_cons_of_mem b hx))]

theorem upToLastSeparator_append (x c : GoString) (hc : ∀ y ∈ c, isPathSeparator y = false) :
    upToLastSeparator (x ++ '/' :: c) = x ++ ['/'] := by
  unfold upToLastSeparator
  have hrev : (x ++ '/' :: c).reverse = c.reverse ++ '/' :: x.reverse := by simp
  rw [hrev, dropWhile_append_stop _ c.reverse '/' x.reverse
    (fun y hy => by simp [hc y (List.mem_reverse.mp hy)]) (by simp)]
  simp

theorem Base_append (x c : GoString) (hne : c ≠ [])
    (hc : ∀ y ∈ c, isPathSeparator y = false) :
    Base (x ++ '/' :: c) = c := by
  unfold Base
  have hrev : (x ++ '/' :: c).reverse = c.reverse ++ '/' :: x.reverse := by simp
  have hstrip : (x ++ '/' :: c).reverse.dropWhile isPathSeparator = (x ++ '/' :: c).reverse := by
    rw [hrev]
    match hcr : c.reverse with
    | [] => exact absurd (List.reverse_eq_nil_iff.mp hcr) hne
    | a :: l =>
      have ha : isPathSeparator a = false :=
        hc a (List.mem_reverse.mp (by rw [hcr]; exact List.mem_cons_self a l))
      rw [List.cons_append, List.dropWhile_cons_of_neg (by simp [ha])]
  have hnil : (x ++ '/' :: c).isEmpty = false := by
    cases x <;> rfl
  simp only [hnil, Bool.false_eq_true, ↓reduceIte, hstrip, List.reverse_reverse]
  rw [hrev, takeWhile_append_stop _ c.reverse '/' x.reverse
    (fun y hy => by simp [hc y (List.mem_reverse.mp hy)]) (by simp)]
  simp only [List.reverse_reverse]
  cases c with
  | nil => exact absurd rfl hne
  | cons a c => rfl

theorem rootedPath_append (cs : List GoString) (c : GoString) :
    rootedPath (cs ++ [c]) = absPath cs ++ '/' :: c := by
  unfold rootedPath
  rw [← absPath_append]
  cases cs <;> rfl

/-- The parent of the clean path `/c1/.../cn/c` is `/c1/.../cn` (`/` when `n = 0`). -/
theorem Dir_rootedPath (cs : List GoString) (c : GoString)
    (hcs : ∀ d ∈ cs, validComponent d) (hc : validComponent c) :
    Dir (rootedPath (cs ++ [c])) = rootedPath cs := by
  unfold Dir
  rw [rootedPath_append, upToLastSeparator_append _ _ hc.2.1]
  cases hcs0 : cs with
  | nil => rfl
  | cons d ds =>
    rw [← hcs0, Clean_append_sep _ (by rw [hcs0]; simp [absPath]),
      Clean_absPath cs (by rw [hcs0]; simp) hcs]
    rw [hcs0]
    rfl

theorem Base_rootedPath (cs : List GoString) (c : GoString) (hc : validComponent c) :
    Base (rootedPath (cs ++ [c])) = c := by
  rw [rootedPath_append]
  exact Base_append _ _ hc.1 hc.2.1

theorem rootedPath_length_lt (cs : List GoString) (c : GoString) (hc : validComponent c) :
    (rootedPath cs).length < (rootedPath (cs ++ [c])).length := by
  have hlen : 0 < c.length := List.length_pos.mpr hc.1
  rw [rootedPath_append]
  unfold rootedPath
  cases cs with
  | nil => simp [absPath]; omega
  | cons d ds => simp

/-! ## The loop of `findBackups`, one iteration at a time -/

section Loop

variable {σ ε : Type} (list : ListManifests σ ε)

theorem findBackupsLoop_nil (fuel : Nat) (st : σ) (si : SourceInfo) (rel : GoString)
    (hp : si.Path = []) :
    findBackupsLoop list (fuel + 1) st si rel = some (⟨[], [], none⟩, st) := by
  rw [findBackupsLoop]
  simp [hp]

theorem findBackupsLoop_error (fuel : Nat) (st : σ) (si : SourceInfo) (rel : GoString) (e : ε)
    (hp : si.Path ≠ []) (hr : (list st si).1 = Except.error e) :
    findBackupsLoop list (fuel + 1) st si rel = some (⟨[], [], some e⟩, (list st si).2) := by
  rw [findBackupsLoop]
  have hp2 : 0 < si.Path.length := List.length_pos.mpr hp
  rcases hl : list st si with ⟨resp, st1⟩
  rw [hl] at hr
  simp only at hr
  subst hr
  simp only [hp2, ↓reduceIte]

theorem findBackupsLoop_found (fuel : Nat) (st : σ) (si : SourceInfo) (rel : GoString)
    (l : List GoString) (hp : si.Path ≠ []) (hr : (list st si).1 = Except.ok l) (hl : l ≠ []) :
    findBackupsLoop list (fuel + 1) st si rel = some (⟨l, rel, none⟩, (list st si).2) := by
  rw [findBackupsLoop]
  have hp2 : 0 < si.Path.length := List.length_pos.mpr hp
  have hl2 : 0 < l.length := List.length_pos.mpr hl
  rcases hls : list st si with ⟨resp, st1⟩
  rw [hls] at hr
  simp only at hr
  subst hr
  simp only [hp2, hl2, ↓reduceIte]

theorem findBackupsLoop_root (fuel : Nat) (st : σ) (si : SourceInfo) (rel : GoString)
    (hp : si.Path ≠ []) (hr : (list st si).1 = Except.ok []) (hd : Dir si.Path = si.Path) :
    findBackupsLoop list (fuel + 1) st si rel = some (⟨[], [], none⟩, (list st si).2) := by
  rw [findBackupsLoop]
  have hp2 : 0 < si.Path.length := List.length_pos.mpr hp
  rcases hls : list st si with ⟨resp, st1⟩
  rw [hls] at hr
  simp only at hr
  subst hr
  simp only [hp2, hd, ↓reduceIte, List.length_nil, Nat.lt_irrefl]

theorem findBackupsLoop_hop (fuel : Nat) (st : σ) (si : SourceInfo) (rel : GoString)
    (hp : si.Path ≠ []) (hr : (list st si).1 = Except.ok []) (hd : Dir si.Path ≠ si.Path) :
    findBackupsLoop list (fuel + 1) st si rel =
      findBackupsLoop list fuel (list st si).2 { si with Path := Dir si.Path }
        (relPathAfter rel si.Path 1) := by
  rw [findBackupsLoop]
  have hp2 : 0 < si.Path.length := List.length_pos.mpr hp
  rcases hls : list st si with ⟨resp, st1⟩
  rw [hls] at hr
  simp only at hr
  subst hr
  simp only [hp2, hd, ↓reduceIte, List.length_nil, Nat.lt_irrefl, relPathAfter]

/-- More iterations do not change a result already reached. -/
theorem findBackupsLoop_mono (fuel : Nat) :
    ∀ (st : σ) (si : SourceInfo) (rel : GoString) (r : FindResult ε × σ),
      findBackupsLoop list fuel st si rel = some r →
      findBackupsLoop list (fuel + 1) st si rel = some r := by
  induction fuel with
  | zero => intro st si rel r h; simp [findBackupsLoop] at h
  | succ fuel ih =>
    intro st si rel r h
    by_cases hp : si.Path = []
    · rw [findBackupsLoop_nil list _ st si rel hp] at h ⊢
      exact h
    · cases hr : (list st si).1 with
      | error e =>
        rw [findBackupsLoop_error list _ st si rel e hp hr] at h ⊢
        exact h
      | ok l =>
        by_cases hl : l = []
        · subst hl
          by_cases hd : Dir si.Path = si.Path
          · rw [findBackupsLoop_root list _ st si rel hp hr hd] at h ⊢
            exact h
          · rw [findBackupsLoop_hop list _ st si rel hp hr hd] at h ⊢
            exact ih _ _ _ _ h
        · rw [findBackupsLoop_found list _ st si rel l hp hr hl] at h ⊢
          exact h

theorem findBackupsLoop_mono_add (fuel k : Nat) (st : σ) (si : SourceInfo) (rel : GoString)
    (r : FindResult ε × σ) (h : findBackupsLoop list fuel st si rel = some r) :
    findBackupsLoop list (fuel + k) st si rel = some r := by
  induction k with
  | zero => exact h
  | succ k ih => exact findBackupsLoop_mono list _ st si rel r ih

/-- Two runs of the loop that both end agree on the result. -/
theorem findBackupsLoop_unique (f1 f2 : Nat) (st : σ) (si : SourceInfo) (rel : GoString)
    (r1 r2 : FindResult ε × σ) (h1 : findBackupsLoop list f1 st si rel = some r1)
    (h2 : findBackupsLoop list f2 st si rel = some r2) : r1 = r2 := by
  rcases Nat.le_total f1 f2 with h | h
  · obtain ⟨k, rfl⟩ := Nat.exists_eq_add_of_le h
    have := findBackupsLoop_mono_add list f1 k st si rel r1 h1
    rw [this] at h2
    exact Option.some.inj h2
  · obtain ⟨k, rfl⟩ := Nat.exists_eq_add_of_le h
    have := findBackupsLoop_mono_add list f2 k st si rel r2 h2
    rw [this] at h1
    exact (Option.some.inj h1).symm

/-- The number of iterations that suffices from `path`: one at a fixed point of
`filepath.Dir`, `len(path) + 1` otherwise. -/
theorem findBackupsLoop_total (fuel : Nat) :
    ∀ (st : σ) (si : SourceInfo) (rel : GoString),
      (if Dir si.Path = si.Path then 1 else si.Path.length + 1) ≤ fuel →
      ∃ r, findBackupsLoop list fuel st si rel = some r := by
  induction fuel with
  | zero =>
    intro st si rel h
    split at h <;> omega
  | succ fuel ih =>
    intro st si rel h
    by_cases hp : si.Path = []
    · exact ⟨_, findBackupsLoop_nil list _ st si rel hp⟩
    · cases hr : (list st si).1 with
      | error e => exact ⟨_, findBackupsLoop_error list _ st si rel e hp hr⟩
      | ok l =>
        by_cases hl : l = []
        · subst hl
          by_cases hd : Dir si.Path = si.Path
          · exact ⟨_, findBackupsLoop_root list _ st si rel hp hr hd⟩
          · rw [findBackupsLoop_hop list _ st si rel hp hr hd]
            apply ih
            simp only [hd, ↓reduceIte] at h
            have hlen : 0 < si.Path.length := List.length_pos.mpr hp
            rcases Dir_cases si.Path with h1 | h1 | h1
            · simp only [h1, Dir_dot, ↓reduceIte]; omega
            · simp only [h1, Dir_root, ↓reduceIte]; omega
            · simp only
              split <;> omega
        · exact ⟨_, findBackupsLoop_found list _ st si rel l hp hr hl⟩

/-- The function `findBackups` always returns: `len(path) + 1` iterations are enough. -/
theorem findBackups_terminates (st : σ) (si : SourceInfo) :
    ∃ r, findBackups list st si = some r := by
  apply findBackupsLoop_total
  split <;> omega

/-- Any result the loop reaches with some number of iterations is the result of
`findBackups`. -/
theorem findBackups_eq_of_loop (fuel : Nat) (st : σ) (si : SourceInfo) (r : FindResult ε × σ)
    (h : findBackupsLoop list fuel st si [] = some r) : findBackups list st si = some r := by
  obtain ⟨r2, h2⟩ := findBackups_terminates list st si
  rw [h2]
  unfold findBackups at h2
  rw [findBackupsLoop_unique list _ _ st si [] _ _ h2 h]

theorem ancestor_succ (path : GoString) (i : Nat) :
    ancestor path (i + 1) = Dir (ancestor path i) := by
  induction i generalizing path with
  | zero => rfl
  | succ i ih =>
    show ancestor (Dir path) (i + 1) = Dir (ancestor (Dir path) i)
    exact ih (Dir path)

theorem stateAfter_succ (st : σ) (si : SourceInfo) (i : Nat) :
    stateAfter list st si (i + 1) =
      (list (stateAfter list st si i) { si with Path := ancestor si.Path i }).2 := by
  induction i generalizing st si with
  | zero => rfl
  | succ i ih =>
    show stateAfter list (list st si).2 { si with Path := Dir si.Path } (i + 1) = _
    rw [ih]
    rfl

/-- While the answers are empty and no fixed point of `filepath.Dir` is met, `j`
iterations of the loop lead to hop `j` of the walk. -/
theorem findBackupsLoop_unroll (j : Nat) :
    ∀ (fuel : Nat) (st : σ) (si : SourceInfo) (rel : GoString),
      si.Path ≠ [] →
      (∀ i < j, responseAt list st si i = Except.ok []) →
      (∀ i < j, Dir (ancestor si.Path i) ≠ ancestor si.Path i) →
      findBackupsLoop list (j + fuel) st si rel =
        findBackupsLoop list fuel (stateAfter list st si j)
          { si with Path := ancestor si.Path j } (relPathAfter rel si.Path j) := by
  induction j with
  | zero =>
    intro fuel st si rel _ _ _
    simp only [Nat.zero_add]
    rfl
  | succ j ih =>
    intro fuel st si rel hp hresp hdir
    have h0 : (list st si).1 = Except.ok [] := hresp 0 (Nat.succ_pos j)
    have hd0 : Dir si.Path ≠ si.Path := hdir 0 (Nat.succ_pos j)
    have hfuel : j + 1 + fuel = (j + fuel) + 1 := by omega
    rw [hfuel, findBackupsLoop_hop list _ st si rel hp h0 hd0]
    rw [ih fuel (list st si).2 { si with Path := Dir si.Path } (relPathAfter rel si.Path 1)
      (Dir_ne_nil _)
      (fun i hi => hresp (i + 1) (Nat.succ_lt_succ hi))
      (fun i hi => hdir (i + 1) (Nat.succ_lt_succ hi))]
    rfl

theorem ancestor_ne_nil (path : GoString) (hp : path ≠ []) (i : Nat) : ancestor path i ≠ [] := by
  cases i with
  | zero => exact hp
  | succ i => rw [ancestor_succ]; exact Dir_ne_nil _

theorem stateAfter_recording (st : σ) (log : List SourceInfo) (si : SourceInfo) (i : Nat) :
    stateAfter (recording list) (st, log) si i = (stateAfter list st si i, log ++ callsOf si i) := by
  induction i with
  | zero => simp [stateAfter, callsOf]
  | succ i ih =>
    rw [stateAfter_succ, ih, stateAfter_succ]
    simp only [recording, callsOf, List.range_succ, List.map_append, List.map_cons, List.map_nil,
      List.append_assoc]

theorem responseAt_recording (st : σ) (log : List SourceInfo) (si : SourceInfo) (i : Nat) :
    responseAt (recording list) (st, log) si i = responseAt list st si i := by
  unfold responseAt
  rw [stateAfter_recording]
  rfl

/-- The walk meets a fixed point of `filepath.Dir` after at most `len(path)` hops. -/
theorem exists_root (n : Nat) :
    ∀ path : GoString, path ≠ [] → path.length ≤ n →
      ∃ k, k ≤ path.length ∧ Dir (ancestor path k) = ancestor path k ∧
        ∀ i < k, Dir (ancestor path i) ≠ ancestor path i := by
  induction n with
  | zero =>
    intro path hp hlen
    exfalso
    exact hp (List.length_eq_zero.mp (Nat.le_zero.mp hlen))
  | succ n ih =>
    intro path hp hlen
    have hpos : 0 < path.length := List.length_pos.mpr hp
    by_cases hd : Dir path = path
    · exact ⟨0, Nat.zero_le _, hd, fun i hi => absurd hi (Nat.not_lt_zero i)⟩
    · have hstep : ∀ k, k + 1 ≤ path.length → Dir (ancestor (Dir path) k) = ancestor (Dir path) k →
          (∀ i < k, Dir (ancestor (Dir path) i) ≠ ancestor (Dir path) i) →
          ∃ k, k ≤ path.length ∧ Dir (ancestor path k) = ancestor path k ∧
            ∀ i < k, Dir (ancestor path i) ≠ ancestor path i := by
        intro k hk hfix hbefore
        refine ⟨k + 1, hk, hfix, ?_⟩
        intro i hi
        cases i with
        | zero => exact hd
        | succ i => exact hbefore i (Nat.lt_of_succ_lt_succ hi)
      rcases Dir_cases path with h1 | h1 | h1
      · exact hstep 0 hpos (by show Dir (Dir path) = Dir path; rw [h1]; exact Dir_dot)
          (fun i hi => absurd hi (Nat.not_lt_zero i))
      · exact hstep 0 hpos (by show Dir (Dir path) = Dir path; rw [h1]; exact Dir_root)
          (fun i hi => absurd hi (Nat.not_lt_zero i))
      · obtain ⟨k, hk, hfix, hbefore⟩ := ih (Dir path) (Dir_ne_nil _) (by omega)
        exact hstep k (by omega) hfix hbefore

theorem findBackups_error_at (st : σ) (si : SourceInfo) (j : Nat) (e : ε)
    (hne : si.Path ≠ [])
    (hwalk : ∀ i < j, Dir (ancestor si.Path i) ≠ ancestor si.Path i)
    (hempty : ∀ i < j, responseAt list st si i = Except.ok [])
    (herr : responseAt list st si j = Except.error e) :
    findBackups list st si = some (⟨[], [], some e⟩, stateAfter list st si (j + 1)) := by
  apply findBackups_eq_of_loop list (j + 1)
  rw [findBackupsLoop_unroll list j 1 st si [] hne hempty hwalk, stateAfter_succ]
  exact findBackupsLoop_error list 0 _ _ _ e (ancestor_ne_nil _ hne j) herr

theorem findBackups_found_at (st : σ) (si : SourceInfo) (j : Nat) (l : List GoString)
    (hne : si.Path ≠ [])
    (hwalk : ∀ i < j, Dir (ancestor si.Path i) ≠ ancestor si.Path i)
    (hempty : ∀ i < j, responseAt list st si i = Except.ok [])
    (hfound : responseAt list st si j = Except.ok l) (hl : l ≠ []) :
    findBackups list st si =
      some (⟨l, relPathAfter [] si.Path j, none⟩, stateAfter list st si (j + 1)) := by
  apply findBackups_eq_of_loop list (j + 1)
  rw [findBackupsLoop_unroll list j 1 st si [] hne hempty hwalk, stateAfter_succ]
  exact findBackupsLoop_found list 0 _ _ _ l (ancestor_ne_nil _ hne j) hfound hl

theorem findBackups_root_at (st : σ) (si : SourceInfo) (n : Nat)
    (hne : si.Path ≠ [])
    (hwalk : ∀ i < n, Dir (ancestor si.Path i) ≠ ancestor si.Path i)
    (hfix : Dir (ancestor si.Path n) = ancestor si.Path n)
    (hempty : ∀ i ≤ n, responseAt list st si i = Except.ok []) :
    findBackups list st si = some (⟨[], [], none⟩, stateAfter list st si (n + 1)) := by
  apply findBackups_eq_of_loop list (n + 1)
  rw [findBackupsLoop_unroll list n 1 st si [] hne (fun i hi => hempty i (Nat.le_of_lt hi)) hwalk,
    stateAfter_succ]
  exact findBackupsLoop_root list 0 _ _ _ (ancestor_ne_nil _ hne n) (hempty n (Nat.le_refl n)) hfix

end Loop

/-! ## The walk from a clean absolute path -/

theorem ancestor_rootedPath (cs : List GoString) (post : List GoString) :
    (∀ c ∈ cs ++ post, validComponent c) →
      ancestor (rootedPath (cs ++ post)) post.length = rootedPath cs := by
  induction post using List.reverseRecOn with
  | nil => intro _; simp [ancestor]
  | append_singleton post c ih =>
    intro hv
    have hv1 : ∀ d ∈ cs ++ post, validComponent d := fun d hd =>
      hv d (by rw [← List.append_assoc]; exact List.mem_append_left _ hd)
    have hc : validComponent c := hv c (by simp)
    rw [List.length_append, List.length_singleton, ← List.append_assoc]
    show ancestor (Dir (rootedPath (cs ++ post ++ [c]))) post.length = _
    rw [Dir_rootedPath _ _ hv1 hc]
    exact ih hv1

theorem joinPath_append (post : List GoString) (c : GoString) (hne : post ≠ []) :
    joinPath (post ++ [c]) = joinPath post ++ '/' :: c := by
  induction post with
  | nil => exact absurd rfl hne
  | cons d post ih =>
    cases post with
    | nil => simp [joinPath]
    | cons e post =>
      have := ih (by simp)
      simp only [List.cons_append] at this ⊢
      simp only [joinPath, this, List.append_assoc, List.cons_append]

theorem relPathAfter_rootedPath (cs : List GoString) (post : List GoString) :
    ∀ rel : GoString, (∀ c ∈ cs ++ post, validComponent c) →
      relPathAfter rel (rootedPath (cs ++ post)) post.length =
        if post = [] then rel else if rel = [] then joinPath post
        else joinPath post ++ '/' :: rel := by
  induction post using List.reverseRecOn with
  | nil => intro rel _; simp [relPathAfter]
  | append_singleton post c ih =>
    intro rel hv
    have hv1 : ∀ d ∈ cs ++ post, validComponent d := fun d hd =>
      hv d (by rw [← List.append_assoc]; exact List.mem_append_left _ hd)
    have hc : validComponent c := hv c (by simp)
    rw [List.length_append, List.length_singleton, ← List.append_assoc]
    show relPathAfter _ (Dir (rootedPath (cs ++ post ++ [c]))) post.length = _
    rw [Dir_rootedPath _ _ hv1 hc, Base_rootedPath _ _ hc, ih _ hv1]
    have hcne : c ≠ [] := hc.1
    by_cases hpost : post = []
    · subst hpost
      by_cases hrel : rel = []
      · subst hrel; simp [joinPath]
      · have : 0 < rel.length := List.length_pos.mpr hrel
        simp [joinPath, hrel, this]
    · rw [joinPath_append post c hpost]
      by_cases hrel : rel = []
      · subst hrel; simp [hpost, hcne]
      · have : 0 < rel.length := List.length_pos.mpr hrel
        simp [hpost, hrel, this]

theorem ancestor_rootedPath_take (pre suf : List GoString)
    (hv : ∀ c ∈ pre ++ suf, validComponent c) (i : Nat) (hi : i ≤ suf.length) :
    ancestor (rootedPath (pre ++ suf)) i = rootedPath (pre ++ suf.take (suf.length - i)) := by
  have hsplit : pre ++ suf = (pre ++ suf.take (suf.length - i)) ++ suf.drop (suf.length - i) := by
    rw [List.append_assoc, List.take_append_drop]
  have hlen : (suf.drop (suf.length - i)).length = i := by
    rw [List.length_drop]; omega
  have := ancestor_rootedPath (pre ++ suf.take (suf.length - i)) (suf.drop (suf.length - i))
    (by rw [← hsplit]; exact hv)
  rw [hlen, ← hsplit] at this
  exact this

theorem Dir_ancestor_rootedPath_ne (pre suf : List GoString)
    (hv : ∀ c ∈ pre ++ suf, validComponent c) (i : Nat) (hi : i < suf.length) :
    Dir (ancestor (rootedPath (pre ++ suf)) i) ≠ ancestor (rootedPath (pre ++ suf)) i := by
  rw [ancestor_rootedPath_take pre suf hv i (Nat.le_of_lt hi)]
  have hne : suf.take (suf.length - i) ≠ [] := by
    intro h
    have := congrArg List.length h
    rw [List.length_take] at this
    simp only [List.length_nil] at this
    omega
  have hsub : ∀ c ∈ suf.take (suf.length - i), c ∈ suf := fun c hc => List.mem_of_mem_take hc
  rw [← List.dropLast_append_getLast hne, ← List.append_assoc]
  have hc : validComponent ((suf.take (suf.length - i)).getLast hne) :=
    hv _ (List.mem_append_right _ (hsub _ (List.getLast_mem hne)))
  have hcs : ∀ d ∈ pre ++ (suf.take (suf.length - i)).dropLast, validComponent d := by
    intro d hd
    rcases List.mem_append.mp hd with h | h
    · exact hv d (List.mem_append_left _ h)
    · exact hv d (List.mem_append_right _ (hsub _ (List.mem_of_mem_dropLast h)))
  rw [Dir_rootedPath _ _ hcs hc]
  intro h
  have := rootedPath_length_lt (pre ++ (suf.take (suf.length - i)).dropLast) _ hc
  rw [h] at this
  exact Nat.lt_irrefl _ this

/-! ## The contract of `findBackups` -/

/-- Claim C1. For a clean absolute path `/c1/.../cn` (components `pre ++ suf`),
any host and user, and a manager that answers the queries at the `len(suf)`
deepest paths with empty lists and the query at `/c1/.../ck` (components `pre`,
the root `/` when there are none) with a non-empty list `L`, `findBackups`
returns `(L, relPath, nil)` where `relPath` is the components of `suf` joined
with `/` in their nesting order, and makes no call after the one that found `L`. -/
theorem findBackups_ancestor_fallback {σ ε : Type} (list : ListManifests σ ε) (st : σ)
    (host user : GoString) (pre suf : List GoString) (L : List GoString)
    (hvalid : ∀ c ∈ pre ++ suf, validComponent c)
    (hempty : ∀ i < suf.length,
      (list (stateAfter list st ⟨host, user, rootedPath (pre ++ suf)⟩ i)
        ⟨host, user, rootedPath (pre ++ suf.take (suf.length - i))⟩).1 = Except.ok [])
    (hfound : (list (stateAfter list st ⟨host, user, rootedPath (pre ++ suf)⟩ suf.length)
        ⟨host, user, rootedPath pre⟩).1 = Except.ok L)
    (hL : L ≠ []) :
    findBackups list st ⟨host, user, rootedPath (pre ++ suf)⟩ =
      some (⟨L, joinPath suf, none⟩,
        stateAfter list st ⟨host, user, rootedPath (pre ++ suf)⟩ (suf.length + 1)) := by
  have hne : (⟨host, user, rootedPath (pre ++ suf)⟩ : SourceInfo).Path ≠ [] := by
    show rootedPath (pre ++ suf) ≠ []
    unfold rootedPath
    cases pre ++ suf <;> simp [absPath]
  have h := findBackups_found_at list st ⟨host, user, rootedPath (pre ++ suf)⟩ suf.length L hne
    (fun i hi => Dir_ancestor_rootedPath_ne pre suf hvalid i hi)
    (fun i hi => by
      unfold responseAt
      rw [ancestor_rootedPath_take pre suf hvalid i (Nat.le_of_lt hi)]
      exact hempty i hi)
    (by
      unfold responseAt
      rw [ancestor_rootedPath_take pre suf hvalid suf.length (Nat.le_refl _)]
      simpa using hfound)
    hL
  rw [h]
  have hrel := relPathAfter_rootedPath pre suf [] hvalid
  simp only [if_true] at hrel
  show some (FindResult.mk L (relPathAfter [] (rootedPath (pre ++ suf)) suf.length) none, _) = _
  rw [hrel]
  by_cases hs : suf = []
  · subst hs; rfl
  · simp [hs]

/-- Claim C1, on the example of the specification: the query is `/a/b/c`,
manifests exist only at `/a`; the result is the manifests of `/a` with relative
path `b/c`, after the three queries `/a/b/c`, `/a/b`, `/a`. -/
theorem findBackups_ancestor_fallback_witness :
    findBackups exampleManager [] ⟨['h'], ['u'], ['/', 'a', '/', 'b', '/', 'c']⟩ =
      some (⟨[['m', '1'], ['m', '2']], ['b', '/', 'c'], none⟩,
        [['/', 'a', '/', 'b', '/', 'c'], ['/', 'a', '/', 'b'], ['/', 'a']]) :=
  findBackups_ancestor_fallback exampleManager [] ['h'] ['u'] [['a']] [['b'], ['c']]
    [['m', '1'], ['m', '2']] (by decide) (by decide) (by decide) (by decide)


/-- Claim C3. When `ListSnapshotManifests` answers the first `j` queries of the
walk (the path itself, then its ancestors) with empty lists and the next query
with an error `e`, `findBackups` returns `(nil, "", e)` with `e` unchanged, and
the manager is left in the state right after the failing call: the calls made
are exactly the first `j + 1` queries of the walk, none after the failing one. -/
theorem findBackups_error_abort {σ ε : Type} (list : ListManifests σ ε) (st : σ)
    (si : SourceInfo) (j : Nat) (e : ε)
    (hne : si.Path ≠ [])
    (hwalk : ∀ i < j, Dir (ancestor si.Path i) ≠ ancestor si.Path i)
    (hempty : ∀ i < j, responseAt list st si i = Except.ok [])
    (herr : responseAt list st si j = Except.error e) :
    findBackups list st si = some (⟨[], [], some e⟩, stateAfter list st si (j + 1)) ∧
    findBackups (recording list) (st, []) si =
      some (⟨[], [], some e⟩, (stateAfter list st si (j + 1), callsOf si (j + 1))) := by
  refine ⟨findBackups_error_at list st si j e hne hwalk hempty herr, ?_⟩
  have := findBackups_error_at (recording list) (st, []) si j e hne hwalk
    (fun i hi => by rw [responseAt_recording]; exact hempty i hi)
    (by rw [responseAt_recording]; exact herr)
  rw [this, stateAfter_recording]
  rfl

/-- Claim C3, on an example: from `/a/b/c` the queries at `/a/b/c` and `/a/b` are
answered with empty lists and the one at `/a` fails; the error comes back and
the root is never queried. -/
theorem findBackups_error_abort_witness :
    findBackups failingManager [] ⟨['h'], ['u'], ['/', 'a', '/', 'b', '/', 'c']⟩ =
      some (⟨[], [], some 7⟩,
        [['/', 'a', '/', 'b', '/', 'c'], ['/', 'a', '/', 'b'], ['/', 'a']]) :=
  (findBackups_error_abort failingManager [] ⟨['h'], ['u'], ['/', 'a', '/', 'b', '/', 'c']⟩ 2 7
    (by decide) (by decide) (by decide) (by decide)).1

/-- Claim C4. When `ListSnapshotManifests` answers every query of the walk with
an empty list, up to and including the one at the fixed point of `filepath.Dir`,
`findBackups` returns no manifest id, an empty relative path and no error; the
walk has `n + 1 ≤ len(path) + 1` queries and the last one is at the fixed point
(the root is queried before giving up). -/
theorem findBackups_not_found {σ ε : Type} (list : ListManifests σ ε) (st : σ)
    (si : SourceInfo) (hne : si.Path ≠ [])
    (hempty : ∀ i, (∀ k < i, Dir (ancestor si.Path k) ≠ ancestor si.Path k) →
      responseAt list st si i = Except.ok []) :
    ∃ n, n ≤ si.Path.length ∧
      Dir (ancestor si.Path n) = ancestor si.Path n ∧
      (∀ k < n, Dir (ancestor si.Path k) ≠ ancestor si.Path k) ∧
      findBackups list st si = some (⟨[], [], none⟩, stateAfter list st si (n + 1)) ∧
      findBackups (recording list) (st, []) si =
        some (⟨[], [], none⟩, (stateAfter list st si (n + 1), callsOf si (n + 1))) := by
  obtain ⟨n, hn, hfix, hbefore⟩ := exists_root si.Path.length si.Path hne (Nat.le_refl _)
  have hresp : ∀ i ≤ n, responseAt list st si i = Except.ok [] := fun i hi =>
    hempty i (fun k hk => hbefore k (Nat.lt_of_lt_of_le hk hi))
  refine ⟨n, hn, hfix, hbefore, findBackups_root_at list st si n hne hbefore hfix hresp, ?_⟩
  have := findBackups_root_at (recording list) (st, []) si n hne hbefore hfix
    (fun i hi => by rw [responseAt_recording]; exact hresp i hi)
  rw [this, stateAfter_recording]
  rfl

/-- Claim C4, on an example: with no manifest anywhere, the walk from `/a/b`
has a fixed point of `filepath.Dir` within two hops and returns nothing. -/
theorem findBackups_not_found_witness :
    ∃ n, n ≤ 4 ∧
      Dir (ancestor ['/', 'a', '/', 'b'] n) = ancestor ['/', 'a', '/', 'b'] n ∧
      (∀ k < n, Dir (ancestor ['/', 'a', '/', 'b'] k) ≠ ancestor ['/', 'a', '/', 'b'] k) ∧
      findBackups emptyManager [] ⟨['h'], ['u'], ['/', 'a', '/', 'b']⟩ =
        some (⟨[], [], none⟩,
          stateAfter emptyManager [] ⟨['h'], ['u'], ['/', 'a', '/', 'b']⟩ (n + 1)) ∧
      findBackups (recording emptyManager) ([], []) ⟨['h'], ['u'], ['/', 'a', '/', 'b']⟩ =
        some (⟨[], [], none⟩,
          (stateAfter emptyManager [] ⟨['h'], ['u'], ['/', 'a', '/', 'b']⟩ (n + 1),
            callsOf ⟨['h'], ['u'], ['/', 'a', '/', 'b']⟩ (n + 1))) :=
  findBackups_not_found emptyManager [] ⟨['h'], ['u'], ['/', 'a', '/', 'b']⟩ (by decide)
    (fun _ _ => rfl)

/-! ## The display loop, one iteration at a time -/

theorem wrapInt64_of_range (x : Int) (h1 : -(2 ^ 63) ≤ x) (h2 : x < 2 ^ 63) : wrapInt64 x = x := by
  unfold wrapInt64
  omega

theorem wrapInt64_zero : wrapInt64 0 = 0 := by decide

theorem entriesOf_append (l1 l2 : List Line) : entriesOf (l1 ++ l2) = entriesOf l1 ++ entriesOf l2 := by
  induction l1 with
  | nil => rfl
  | cons a l1 ih => cases a <;> simp [entriesOf, ih]

theorem deltasOf_append (l1 l2 : List Line) : deltasOf (l1 ++ l2) = deltasOf l1 ++ deltasOf l2 := by
  induction l1 with
  | nil => rfl
  | cons a l1 ih => cases a <;> simp [deltasOf, ih]

theorem headersOf_append (l1 l2 : List Line) : headersOf (l1 ++ l2) = headersOf l1 ++ headersOf l2 := by
  induction l1 with
  | nil => rfl
  | cons a l1 ih => cases a <;> simp [headersOf, ih]

theorem entriesOf_entry (m : Manifest) (r d i : GoString) (rest : List Line) :
    entriesOf (Line.entry m r d i :: rest) = m :: entriesOf rest := rfl

theorem entriesOf_header (src : SourceInfo) (rest : List Line) :
    entriesOf (Line.header src :: rest) = entriesOf rest := rfl

theorem deltasOf_entry (m : Manifest) (r d i : GoString) (rest : List Line) :
    deltasOf (Line.entry m r d i :: rest) = d :: deltasOf rest := rfl

theorem deltasOf_header (src : SourceInfo) (rest : List Line) :
    deltasOf (Line.header src :: rest) = deltasOf rest := rfl

theorem headersOf_entry (m : Manifest) (r d i : GoString) (rest : List Line) :
    headersOf (Line.entry m r d i :: rest) = headersOf rest := rfl

theorem headersOf_header (src : SourceInfo) (rest : List Line) :
    headersOf (Line.header src :: rest) = src :: headersOf rest := rfl

section Display

variable (flags : DisplayFlags) (bytesString : Int → GoString) (relPath : GoString)
  (manifestToItemID : Manifest → Option GoString)

theorem entriesOf_detailLines (m : Manifest) :
    entriesOf (detailLines flags manifestToItemID m) = [] := by
  unfold detailLines
  cases flags.backupsShowItemID <;> cases flags.backupsShowHashCache <;>
    cases manifestToItemID m <;> rfl

theorem deltasOf_detailLines (m : Manifest) :
    deltasOf (detailLines flags manifestToItemID m) = [] := by
  unfold detailLines
  cases flags.backupsShowItemID <;> cases flags.backupsShowHashCache <;>
    cases manifestToItemID m <;> rfl

theorem headersOf_detailLines (m : Manifest) :
    headersOf (detailLines flags manifestToItemID m) = [] := by
  unfold detailLines
  cases flags.backupsShowItemID <;> cases flags.backupsShowHashCache <;>
    cases manifestToItemID m <;> rfl

theorem displayLoop_nil (st : LoopState) :
    displayLoop flags bytesString relPath manifestToItemID st [] = (st, []) := rfl

theorem displayLoop_cons (st : LoopState) (m : Manifest) (rest : List Manifest) :
    displayLoop flags bytesString relPath manifestToItemID st (m :: rest) =
      ((displayLoop flags bytesString relPath manifestToItemID
          (displayStep flags bytesString relPath manifestToItemID st m).1 rest).1,
        (displayStep flags bytesString relPath manifestToItemID st m).2 ++
          (displayLoop flags bytesString relPath manifestToItemID
            (displayStep flags bytesString relPath manifestToItemID st m).1 rest).2) := rfl

theorem displayLoop_append (l1 l2 : List Manifest) (st : LoopState) :
    displayLoop flags bytesString relPath manifestToItemID st (l1 ++ l2) =
      ((displayLoop flags bytesString relPath manifestToItemID
          (displayLoop flags bytesString relPath manifestToItemID st l1).1 l2).1,
        (displayLoop flags bytesString relPath manifestToItemID st l1).2 ++
          (displayLoop flags bytesString relPath manifestToItemID
            (displayLoop flags bytesString relPath manifestToItemID st l1).1 l2).2) := by
  induction l1 generalizing st with
  | nil => simp [displayLoop_nil]
  | cons m l1 ih =>
    rw [List.cons_append, displayLoop_cons, displayLoop_cons, ih]
    simp

/-- A skipped manifest changes nothing and prints nothing. -/
theorem displayStep_skipped (st : LoopState) (m : Manifest) (h : skipped flags m = true) :
    displayStep flags bytesString relPath manifestToItemID st m = (st, []) := by
  unfold skipped at h
  simp only [Bool.and_eq_true, decide_eq_true_eq, Bool.not_eq_true'] at h
  unfold displayStep
  rw [if_pos h]

/-- A manifest that is not skipped and whose source differs from `lastSource`
starts a group: header, counter at zero, baseline at its own size. -/
theorem displayStep_new_group (st : LoopState) (m : Manifest) (h : skipped flags m = false)
    (hsrc : m.Source ≠ st.lastSource) :
    displayStep flags bytesString relPath manifestToItemID st m =
      (⟨m.Source, if 0 < flags.maxResultsPerPath then 1 else 0, m.Stats.TotalFileSize⟩,
        Line.header m.Source ::
          (if 0 < flags.maxResultsPerPath then
            Line.entry m relPath []
              (if m.IncompleteReason ≠ [] then ' ' :: m.IncompleteReason else [])
              :: detailLines flags manifestToItemID m
          else [])) := by
  unfold skipped at h
  have hskip : ¬ (m.IncompleteReason ≠ [] ∧ flags.backupsIncludeIncomplete = false) := by
    intro hc
    simp [hc.1, hc.2] at h
  unfold displayStep
  rw [if_neg hskip]
  simp only [if_pos hsrc, Int.sub_self, wrapInt64_zero, deltaBytes]
  by_cases hcap : 0 < flags.maxResultsPerPath
  · simp [hcap]
  · simp [hcap]

/-- A manifest that is not skipped and whose source is `lastSource` continues
the group: it is displayed while the counter is below the cap, with the delta
to `lastTotalFileSize`; the baseline moves only if the manifest is complete. -/
theorem displayStep_same_group (st : LoopState) (m : Manifest) (h : skipped flags m = false)
    (hsrc : m.Source = st.lastSource) :
    displayStep flags bytesString relPath manifestToItemID st m =
      (⟨st.lastSource, if st.count < flags.maxResultsPerPath then st.count + 1 else st.count,
          if m.IncompleteReason = [] then m.Stats.TotalFileSize else st.lastTotalFileSize⟩,
        if st.count < flags.maxResultsPerPath then
          Line.entry m relPath
            (deltaBytes bytesString (wrapInt64 (m.Stats.TotalFileSize - st.lastTotalFileSize)))
            (if m.IncompleteReason ≠ [] then ' ' :: m.IncompleteReason else [])
            :: detailLines flags manifestToItemID m
        else []) := by
  unfold skipped at h
  have hskip : ¬ (m.IncompleteReason ≠ [] ∧ flags.backupsIncludeIncomplete = false) := by
    intro hc
    simp [hc.1, hc.2] at h
  have hnot : ¬ m.Source ≠ st.lastSource := fun hc => hc hsrc
  unfold displayStep
  rw [if_neg hskip]
  simp only [if_neg hnot]
  by_cases hcap : st.count < flags.maxResultsPerPath
  · by_cases hinc : m.IncompleteReason = []
    · simp [hcap, hinc]
    · have : flags.backupsIncludeIncomplete = true := by
        cases hb : flags.backupsIncludeIncomplete
        · exact absurd ⟨hinc, hb⟩ hskip
        · rfl
      simp [hcap, hinc, this]
  · by_cases hinc : m.IncompleteReason = []
    · simp [hcap, hinc]
    · have : flags.backupsIncludeIncomplete = true := by
        cases hb : flags.backupsIncludeIncomplete
        · exact absurd ⟨hinc, hb⟩ hskip
        · rfl
      simp [hcap, hinc, this]

theorem skipped_of_complete (m : Manifest) (h : m.IncompleteReason = []) :
    skipped flags m = false := by
  simp [skipped, h]

theorem deltaBytes_of_range (a b : Int) (ha : 0 ≤ a ∧ a < 2 ^ 63) (hb : 0 ≤ b ∧ b < 2 ^ 63) :
    deltaBytes bytesString (wrapInt64 (a - b)) =
      if a - b > 0 then ['(', '+'] ++ bytesString (a - b) ++ [')'] else [] := by
  rw [wrapInt64_of_range (a - b) (by omega) (by omega)]
  rfl

/-- Complete manifests that continue a group below the cap are all displayed,
each with the delta to the size before it. -/
theorem displayLoop_complete_in_group (ms : List Manifest) :
    ∀ st : LoopState,
      (∀ m ∈ ms, m.Source = st.lastSource ∧ m.IncompleteReason = []) →
      (∀ m ∈ ms, 0 ≤ m.Stats.TotalFileSize ∧ m.Stats.TotalFileSize < 2 ^ 63) →
      (0 ≤ st.lastTotalFileSize ∧ st.lastTotalFileSize < 2 ^ 63) →
      st.count + ms.length ≤ flags.maxResultsPerPath →
      entriesOf (displayLoop flags bytesString relPath manifestToItemID st ms).2 = ms ∧
      deltasOf (displayLoop flags bytesString relPath manifestToItemID st ms).2 =
        specDeltasFrom bytesString st.lastTotalFileSize (ms.map (fun m => m.Stats.TotalFileSize)) := by
  induction ms with
  | nil => intro st _ _ _ _; exact ⟨rfl, rfl⟩
  | cons m ms ih =>
    intro st hms hsize hlast hcap
    have hm := hms m (List.mem_cons_self m ms)
    have hcount : st.count < flags.maxResultsPerPath := by
      simp only [List.length_cons, Nat.cast_add, Nat.cast_one] at hcap
      omega
    have hstep := displayStep_same_group flags bytesString relPath manifestToItemID st m
      (skipped_of_complete flags m hm.2) hm.1
    simp only [if_pos hcount, if_pos hm.2] at hstep
    have hrest := ih ⟨st.lastSource, st.count + 1, m.Stats.TotalFileSize⟩
      (fun x hx => hms x (List.mem_cons_of_mem m hx))
      (fun x hx => hsize x (List.mem_cons_of_mem m hx))
      (hsize m (List.mem_cons_self m ms))
      (by simp only [List.length_cons, Nat.cast_add, Nat.cast_one] at hcap ⊢; omega)
    rw [displayLoop_cons, hstep]
    simp only [List.cons_append, entriesOf_entry, deltasOf_entry, entriesOf_append,
      deltasOf_append, entriesOf_detailLines, deltasOf_detailLines, List.nil_append,
      List.map_cons, specDeltasFrom, hrest.1, hrest.2]
    rw [deltaBytes_of_range bytesString _ _ (hsize m (List.mem_cons_self m ms)) hlast]
    exact ⟨trivial, rfl⟩

/-- Complete manifests of one source that start a group and fit under the cap
are all displayed, with the deltas the specification describes. -/
theorem displayLoop_complete_group (src : SourceInfo) (ms : List Manifest) (st : LoopState)
    (hsrc : st.lastSource ≠ src)
    (hms : ∀ m ∈ ms, m.Source = src ∧ m.IncompleteReason = [])
    (hsize : ∀ m ∈ ms, 0 ≤ m.Stats.TotalFileSize ∧ m.Stats.TotalFileSize < 2 ^ 63)
    (hcap : (ms.length : Int) ≤ flags.maxResultsPerPath) :
    entriesOf (displayLoop flags bytesString relPath manifestToItemID st ms).2 = ms ∧
    deltasOf (displayLoop flags bytesString relPath manifestToItemID st ms).2 =
      specDeltas bytesString (ms.map (fun m => m.Stats.TotalFileSize)) := by
  cases ms with
  | nil => exact ⟨rfl, rfl⟩
  | cons m ms =>
    have hm := hms m (List.mem_cons_self m ms)
    have hpos : 0 < flags.maxResultsPerPath := by
      simp only [List.length_cons, Nat.cast_add, Nat.cast_one] at hcap
      omega
    have hstep := displayStep_new_group flags bytesString relPath manifestToItemID st m
      (skipped_of_complete flags m hm.2) (by rw [hm.1]; exact fun h => hsrc h.symm)
    simp only [if_pos hpos] at hstep
    have hrest := displayLoop_complete_in_group flags bytesString relPath manifestToItemID ms
      ⟨m.Source, 1, m.Stats.TotalFileSize⟩
      (fun x hx => ⟨by rw [(hms x (List.mem_cons_of_mem m hx)).1, hm.1],
        (hms x (List.mem_cons_of_mem m hx)).2⟩)
      (fun x hx => hsize x (List.mem_cons_of_mem m hx))
      (hsize m (List.mem_cons_self m ms))
      (by simp only [List.length_cons, Nat.cast_add, Nat.cast_one] at hcap ⊢; omega)
    rw [displayLoop_cons, hstep]
    simp only [List.cons_append, entriesOf_entry, deltasOf_entry, entriesOf_header,
      deltasOf_header, entriesOf_append, deltasOf_append, entriesOf_detailLines,
      deltasOf_detailLines, List.nil_append, List.map_cons, specDeltas, hrest.1, hrest.2]
    exact ⟨trivial, trivial⟩

/-- With incomplete manifests excluded, the loop does on a list what it does on
the list without its incomplete manifests. -/
theorem displayLoop_filter_complete (hinc : flags.backupsIncludeIncomplete = false)
    (ms : List Manifest) :
    ∀ st : LoopState,
      displayLoop flags bytesString relPath manifestToItemID st ms =
        displayLoop flags bytesString relPath manifestToItemID st
          (ms.filter (fun m => decide (m.IncompleteReason = []))) := by
  induction ms with
  | nil => intro st; rfl
  | cons m ms ih =>
    intro st
    by_cases hm : m.IncompleteReason = []
    · rw [List.filter_cons_of_pos (by simpa using hm), displayLoop_cons, displayLoop_cons, ih]
    · rw [List.filter_cons_of_neg (by simpa using hm), displayLoop_cons,
        displayStep_skipped flags bytesString relPath manifestToItemID st m
          (by simp [skipped, hm, hinc]), ih]
      simp

theorem displayStep_lastSource (st : LoopState) (m : Manifest) (h : skipped flags m = false) :
    (displayStep flags bytesString relPath manifestToItemID st m).1.lastSource = m.Source := by
  by_cases hsrc : m.Source = st.lastSource
  · rw [displayStep_same_group flags bytesString relPath manifestToItemID st m h hsrc]
    exact hsrc.symm
  · rw [displayStep_new_group flags bytesString relPath manifestToItemID st m h hsrc]

theorem displayStep_lastTotal (st : LoopState) (m : Manifest) (h : skipped flags m = false)
    (hc : m.IncompleteReason = []) :
    (displayStep flags bytesString relPath manifestToItemID st m).1.lastTotalFileSize
      = m.Stats.TotalFileSize := by
  by_cases hsrc : m.Source = st.lastSource
  · rw [displayStep_same_group flags bytesString relPath manifestToItemID st m h hsrc]
    simp [hc]
  · rw [displayStep_new_group flags bytesString relPath manifestToItemID st m h hsrc]

theorem displayLoop_snoc (l : List Manifest) (m : Manifest) (st : LoopState) :
    (displayLoop flags bytesString relPath manifestToItemID st (l ++ [m])).1 =
      (displayStep flags bytesString relPath manifestToItemID
        (displayLoop flags bytesString relPath manifestToItemID st l).1 m).1 := by
  rw [displayLoop_append]
  rfl

/-- The variable `lastSource` holds the source of the last manifest that was not
skipped. -/
theorem displayLoop_lastSource (pre : List Manifest) (st : LoopState) :
    (displayLoop flags bytesString relPath manifestToItemID st pre).1.lastSource
      = lastSourceAfter flags st.lastSource pre := by
  induction pre using List.reverseRecOn with
  | nil => rfl
  | append_singleton pre m ih =>
    rw [displayLoop_snoc]
    unfold lastSourceAfter at ih ⊢
    cases hs : skipped flags m with
    | true =>
      rw [displayStep_skipped flags bytesString relPath manifestToItemID _ m hs, ih]
      simp [List.filter_append, hs]
    | false =>
      rw [displayStep_lastSource flags bytesString relPath manifestToItemID _ m hs]
      simp [List.filter_append, hs]

/-- Within a group, the entries displayed are the first ones, as many as the cap
leaves room for; the counter grows by their number. -/
theorem displayLoop_entries_in_group (g : List Manifest) :
    ∀ st : LoopState,
      (∀ m ∈ g, skipped flags m = false ∧ m.Source = st.lastSource) →
      entriesOf (displayLoop flags bytesString relPath manifestToItemID st g).2
        = g.take (flags.maxResultsPerPath - st.count).toNat ∧
      (displayLoop flags bytesString relPath manifestToItemID st g).1.count
        = st.count + (min (flags.maxResultsPerPath - st.count).toNat g.length : Nat) := by
  induction g with
  | nil => intro st _; simp [displayLoop_nil, entriesOf]
  | cons m g ih =>
    intro st hg
    have hm := hg m (List.mem_cons_self m g)
    have hstep := displayStep_same_group flags bytesString relPath manifestToItemID st m hm.1 hm.2
    by_cases hcap : st.count < flags.maxResultsPerPath
    · simp only [if_pos hcap] at hstep
      have hrest := ih ⟨st.lastSource, st.count + 1,
          if m.IncompleteReason = [] then m.Stats.TotalFileSize else st.lastTotalFileSize⟩
        (fun x hx => hg x (List.mem_cons_of_mem m hx))
      have hnat : (flags.maxResultsPerPath - st.count).toNat
          = (flags.maxResultsPerPath - (st.count + 1)).toNat + 1 := by omega
      rw [displayLoop_cons, hstep]
      simp only [List.cons_append, entriesOf_entry, entriesOf_append, entriesOf_detailLines,
        List.nil_append, hrest.1, hrest.2, hnat, List.take_succ_cons, List.length_cons]
      refine ⟨trivial, ?_⟩
      rw [Nat.succ_min_succ]
      push_cast
      omega
    · simp only [if_neg hcap] at hstep
      have hrest := ih ⟨st.lastSource, st.count,
          if m.IncompleteReason = [] then m.Stats.TotalFileSize else st.lastTotalFileSize⟩
        (fun x hx => hg x (List.mem_cons_of_mem m hx))
      have hnat : (flags.maxResultsPerPath - st.count).toNat = 0 := by omega
      rw [displayLoop_cons, hstep]
      simp only [List.nil_append, hrest.1, hrest.2, hnat, List.take_zero, Nat.zero_min]
      exact ⟨trivial, trivial⟩

/-- Within a group, `lastTotalFileSize` ends at the size of the last complete
manifest, and stays as it was when there is none. -/
theorem displayLoop_baseline_in_group (g : List Manifest) (st : LoopState)
    (hg : ∀ m ∈ g, skipped flags m = false ∧ m.Source = st.lastSource) :
    (displayLoop flags bytesString relPath manifestToItemID st g).1.lastSource = st.lastSource ∧
    (displayLoop flags bytesString relPath manifestToItemID st g).1.lastTotalFileSize
      = lastCompleteSize st.lastTotalFileSize g := by
  induction g using List.reverseRecOn with
  | nil => exact ⟨rfl, rfl⟩
  | append_singleton g m ih =>
    have ih2 := ih (fun x hx => hg x (List.mem_append_left _ hx))
    have hm := hg m (List.mem_append_right _ (List.mem_singleton_self m))
    rw [displayLoop_snoc,
      displayStep_same_group flags bytesString relPath manifestToItemID _ m hm.1
        (by rw [ih2.1]; exact hm.2)]
    refine ⟨ih2.1, ?_⟩
    unfold lastCompleteSize at ih2 ⊢
    by_cases hc : m.IncompleteReason = []
    · simp [List.filter_append, hc]
    · simp only [if_neg hc, ih2.2]
      simp [List.filter_append, hc]

end Display

/-! ## The deltas of the display loop -/

theorem specDeltasFrom_mem (bytesString : Int → GoString) (sizes : List Int) :
    ∀ (prev : Int) (d : GoString), d ∈ specDeltasFrom bytesString prev sizes →
      d = [] ∨ ∃ n : Int, 0 < n ∧ d = ['(', '+'] ++ bytesString n ++ [')'] := by
  induction sizes with
  | nil => intro prev d hd; simp [specDeltasFrom] at hd
  | cons s sizes ih =>
    intro prev d hd
    simp only [specDeltasFrom, List.mem_cons] at hd
    rcases hd with hd | hd
    · by_cases hpos : s - prev > 0
      · right; exact ⟨s - prev, hpos, by rw [hd, if_pos hpos]⟩
      · left; rw [hd, if_neg hpos]
    · exact ih s d hd

/-- Claim C6. For one source other than the zero `SourceInfo`, with complete
manifests of sizes `s1..sn` (file sizes, `0 ≤ s < 2^63`) in the order processed
and a display cap of at least `n`, all `n` entries are displayed; the delta of
the first is absent and the delta of entry `i ≥ 2` is `(+d)` for
`d = s_i - s_(i-1)` when `d > 0` and absent otherwise, so no delta is negative. -/
theorem deltas_between_complete_snapshots (flags : DisplayFlags) (bytesString : Int → GoString)
    (relPath : GoString) (manifestToItemID : Manifest → Option GoString)
    (src : SourceInfo) (ms : List Manifest)
    (hsrc : src ≠ SourceInfo.zero)
    (hms : ∀ m ∈ ms, m.Source = src ∧ m.IncompleteReason = [])
    (hsize : ∀ m ∈ ms, 0 ≤ m.Stats.TotalFileSize ∧ m.Stats.TotalFileSize < 2 ^ 63)
    (hcap : (ms.length : Int) ≤ flags.maxResultsPerPath) :
    entriesOf (displayLoop flags bytesString relPath manifestToItemID LoopState.initial ms).2
      = ms ∧
    deltasOf (displayLoop flags bytesString relPath manifestToItemID LoopState.initial ms).2
      = specDeltas bytesString (ms.map (fun m => m.Stats.TotalFileSize)) ∧
    ∀ d ∈ deltasOf
        (displayLoop flags bytesString relPath manifestToItemID LoopState.initial ms).2,
      d = [] ∨ ∃ n : Int, 0 < n ∧ d = ['(', '+'] ++ bytesString n ++ [')'] := by
  have h := displayLoop_complete_group flags bytesString relPath manifestToItemID src ms
    LoopState.initial (fun h => hsrc h.symm) hms hsize hcap
  refine ⟨h.1, h.2, ?_⟩
  intro d hd
  rw [h.2] at hd
  cases hsz : ms.map (fun m => m.Stats.TotalFileSize) with
  | nil => rw [hsz] at hd; simp [specDeltas] at hd
  | cons s sizes =>
    rw [hsz] at hd
    simp only [specDeltas, List.mem_cons] at hd
    rcases hd with hd | hd
    · exact Or.inl hd
    · exact specDeltasFrom_mem bytesString sizes s d hd

/-- Claim C6, on the example of the specification: sizes `[100, 150, 120]` give
the deltas `[absent, (+50), absent]`. -/
theorem deltas_between_complete_snapshots_witness :
    deltasOf (displayLoop ⟨false, false, false, 100⟩ exampleBytesString [] (fun _ => none)
      LoopState.initial
      [exampleManifest 1 [] 100, exampleManifest 2 [] 150, exampleManifest 3 [] 120]).2
      = [[], ['(', '+', '5', '0', ')'], []] :=
  (deltas_between_complete_snapshots ⟨false, false, false, 100⟩ exampleBytesString []
    (fun _ => none) exampleSource
    [exampleManifest 1 [] 100, exampleManifest 2 [] 150, exampleManifest 3 [] 120]
    (by decide) (by decide) (by decide) (by decide)).2.1.trans (by decide)

/-- Claim C8. With include-incomplete disabled, the display loop started in any
state produces on a list the same lines and the same final state as on that list
with its incomplete manifests removed. In particular, for one source that starts
a group, with file sizes `0 ≤ s < 2^63` and a cap that the complete manifests
fit under, the deltas displayed are those of the complete manifests alone: each
is computed against the complete manifest before it. -/
theorem excluded_incomplete_invisible (flags : DisplayFlags) (bytesString : Int → GoString)
    (relPath : GoString) (manifestToItemID : Manifest → Option GoString)
    (hinc : flags.backupsIncludeIncomplete = false) (ms : List Manifest) (st : LoopState) :
    displayLoop flags bytesString relPath manifestToItemID st ms =
      displayLoop flags bytesString relPath manifestToItemID st
        (ms.filter (fun m => decide (m.IncompleteReason = []))) ∧
    ∀ src : SourceInfo, st.lastSource ≠ src → (∀ m ∈ ms, m.Source = src) →
      (∀ m ∈ ms, 0 ≤ m.Stats.TotalFileSize ∧ m.Stats.TotalFileSize < 2 ^ 63) →
      (((ms.filter (fun m => decide (m.IncompleteReason = []))).length : Int)
        ≤ flags.maxResultsPerPath) →
      deltasOf (displayLoop flags bytesString relPath manifestToItemID st ms).2 =
        specDeltas bytesString
          ((ms.filter (fun m => decide (m.IncompleteReason = []))).map
            (fun m => m.Stats.TotalFileSize)) := by
  have heq := displayLoop_filter_complete flags bytesString relPath manifestToItemID hinc ms st
  refine ⟨heq, ?_⟩
  intro src hsrc hms hsize hcap
  rw [heq]
  exact (displayLoop_complete_group flags bytesString relPath manifestToItemID src _ st hsrc
    (fun m hm => ⟨hms m (List.mem_of_mem_filter hm), by simpa using (List.mem_filter.mp hm).2⟩)
    (fun m hm => hsize m (List.mem_of_mem_filter hm)) hcap).2

/-- Claim C8, on the example of the specification: sizes `100, <incomplete>, 150`
of one source, incomplete manifests excluded; the lines are those of `100, 150`
and the delta of the `150` entry is `(+50)`. -/
theorem excluded_incomplete_invisible_witness :
    displayLoop ⟨false, false, false, 100⟩ exampleBytesString [] (fun _ => none)
        LoopState.initial
        [exampleManifest 1 [] 100, exampleManifest 2 ['x'] 999, exampleManifest 3 [] 150]
      = displayLoop ⟨false, false, false, 100⟩ exampleBytesString [] (fun _ => none)
        LoopState.initial [exampleManifest 1 [] 100, exampleManifest 3 [] 150] ∧
    deltasOf (displayLoop ⟨false, false, false, 100⟩ exampleBytesString [] (fun _ => none)
        LoopState.initial
        [exampleManifest 1 [] 100, exampleManifest 2 ['x'] 999, exampleManifest 3 [] 150]).2
      = [[], ['(', '+', '5', '0', ')']] :=
  ⟨(excluded_incomplete_invisible ⟨false, false, false, 100⟩ exampleBytesString []
      (fun _ => none) rfl
      [exampleManifest 1 [] 100, exampleManifest 2 ['x'] 999, exampleManifest 3 [] 150]
      LoopState.initial).1,
    by decide⟩

/-! ## Groups: first entry, cap and baseline -/

theorem stringsCompare_self (a : GoString) : stringsCompare a a = 0 := by
  induction a with
  | nil => rfl
  | cons c a ih => simp [stringsCompare, ih]

theorem lastCompleteSize_cons (d : Int) (x : Manifest) (g : List Manifest) :
    lastCompleteSize d (x :: g) =
      lastCompleteSize (if x.IncompleteReason = [] then x.Stats.TotalFileSize else d) g := by
  unfold lastCompleteSize
  by_cases hx : x.IncompleteReason = []
  · rw [List.filter_cons_of_pos (by simpa using hx), if_pos hx]
    cases hf : g.filter (fun m => decide (m.IncompleteReason = [])) with
    | nil => simp
    | cons y l =>
      have h1 : (y :: l).getLast? = some ((y :: l).getLast (List.cons_ne_nil y l)) :=
        List.getLast?_eq_getLast _ _
      simp only [List.getLast?_cons_cons, h1, Option.map_some', Option.getD_some]
  · rw [List.filter_cons_of_neg (by simpa using hx), if_neg hx]

/-- Claim C9, at a leading group of the zero `SourceInfo`: the first manifest
prints no header and is displayed with the delta `(+100)` to the initial
`lastTotalFileSize` of zero. -/
theorem first_entry_zero_source_shows_delta :
    displayLoop ⟨false, false, false, 100⟩ exampleBytesString [] (fun _ => none)
        LoopState.initial [zeroSourceManifest 1 [] 100]
      = (⟨SourceInfo.zero, 1, 100⟩,
          [Line.entry (zeroSourceManifest 1 [] 100) [] ['(', '+', '1', '0', '0', ')'] []]) := by
  decide

/-- Claim C9, amended. A manifest that is not skipped and whose source differs
from the source of the last manifest processed before it (the zero `SourceInfo`
when there is none) starts a new group: the header is printed, `lastSource` is
updated, the counter restarts at zero and `lastTotalFileSize` at the manifest's
size; when the cap is positive the manifest is displayed, with an absent delta. -/
theorem first_entry_of_group_no_delta (flags : DisplayFlags) (bytesString : Int → GoString)
    (relPath : GoString) (manifestToItemID : Manifest → Option GoString)
    (pre : List Manifest) (m : Manifest)
    (hproc : skipped flags m = false)
    (hfirst : m.Source ≠ lastSourceAfter flags SourceInfo.zero pre) :
    (displayLoop flags bytesString relPath manifestToItemID LoopState.initial pre).1.lastSource
      = lastSourceAfter flags SourceInfo.zero pre ∧
    displayStep flags bytesString relPath manifestToItemID
        (displayLoop flags bytesString relPath manifestToItemID LoopState.initial pre).1 m
      = (⟨m.Source, if 0 < flags.maxResultsPerPath then 1 else 0, m.Stats.TotalFileSize⟩,
          Line.header m.Source ::
            (if 0 < flags.maxResultsPerPath then
              Line.entry m relPath []
                (if m.IncompleteReason ≠ [] then ' ' :: m.IncompleteReason else [])
                :: detailLines flags manifestToItemID m
            else [])) := by
  have hlast := displayLoop_lastSource flags bytesString relPath manifestToItemID pre
    LoopState.initial
  refine ⟨hlast, ?_⟩
  exact displayStep_new_group flags bytesString relPath manifestToItemID _ m hproc
    (by rw [hlast]; exact hfirst)

/-- Claim C9, amended, on an example: after a manifest of the zero `SourceInfo`,
the first manifest of `u@h:/p` prints its header and shows no delta. -/
theorem first_entry_of_group_no_delta_witness :
    displayStep ⟨false, false, false, 100⟩ exampleBytesString [] (fun _ => none)
        (displayLoop ⟨false, false, false, 100⟩ exampleBytesString [] (fun _ => none)
          LoopState.initial [zeroSourceManifest 1 [] 100]).1 (exampleManifest 2 [] 150)
      = (⟨exampleSource, 1, 150⟩,
          [Line.header exampleSource, Line.entry (exampleManifest 2 [] 150) [] [] []]) :=
  (first_entry_of_group_no_delta ⟨false, false, false, 100⟩ exampleBytesString []
    (fun _ => none) [zeroSourceManifest 1 [] 100] (exampleManifest 2 [] 150)
    (by decide) (by decide)).2

/-- Claim C10. For a group `g` of `n` manifests of one source that are not
skipped, entered with a different `lastSource` (or at the very start of the
loop), and any cap `c`: the entries displayed are the first `min(max(c,0), n)`
manifests of the group; the counter ends at that number whatever it was before
the group; every complete manifest of the group, displayed or not, sets
`lastTotalFileSize` to its size; and in a sorted group no displayed manifest
starts later than a manifest beyond the cap. -/
theorem display_cap (flags : DisplayFlags) (bytesString : Int → GoString)
    (relPath : GoString) (manifestToItemID : Manifest → Option GoString)
    (st : LoopState) (s : SourceInfo) (g : List Manifest)
    (hg : ∀ m ∈ g, skipped flags m = false ∧ m.Source = s)
    (hst : st.lastSource ≠ s ∨ st = LoopState.initial) :
    entriesOf (displayLoop flags bytesString relPath manifestToItemID st g).2
      = g.take (max flags.maxResultsPerPath 0).toNat ∧
    ((entriesOf (displayLoop flags bytesString relPath manifestToItemID st g).2).length : Int)
      = min (max flags.maxResultsPerPath 0) g.length ∧
    (g ≠ [] → (displayLoop flags bytesString relPath manifestToItemID st g).1.count
      = min (max flags.maxResultsPerPath 0) g.length) ∧
    (∀ pre m post, g = pre ++ m :: post → m.IncompleteReason = [] →
      (displayLoop flags bytesString relPath manifestToItemID st (pre ++ [m])).1.lastTotalFileSize
        = m.Stats.TotalFileSize) ∧
    (g.Pairwise (fun a b => manifestSorter.Less b a = false) →
      ∀ x ∈ entriesOf (displayLoop flags bytesString relPath manifestToItemID st g).2,
        ∀ y ∈ g.drop (max flags.maxResultsPerPath 0).toNat, x.StartTime ≤ y.StartTime) := by
  have hentries : entriesOf (displayLoop flags bytesString relPath manifestToItemID st g).2
        = g.take (max flags.maxResultsPerPath 0).toNat ∧
      (g ≠ [] → (displayLoop flags bytesString relPath manifestToItemID st g).1.count
        = min (max flags.maxResultsPerPath 0) g.length) := by
    by_cases hsrc : st.lastSource = s
    · have hinit : st = LoopState.initial := by
        rcases hst with h | h
        · exact absurd hsrc h
        · exact h
      have h := displayLoop_entries_in_group flags bytesString relPath manifestToItemID g st
        (fun m hm => ⟨(hg m hm).1, by rw [hsrc]; exact (hg m hm).2⟩)
      have hc : st.count = 0 := by rw [hinit]; rfl
      rw [hc] at h
      have hn : (flags.maxResultsPerPath - 0).toNat = (max flags.maxResultsPerPath 0).toNat := by
        omega
      rw [hn] at h
      refine ⟨h.1, fun _ => ?_⟩
      rw [h.2]
      omega
    · cases g with
      | nil => exact ⟨by simp [displayLoop_nil, entriesOf], fun h => absurd rfl h⟩
      | cons m g =>
        have hm := hg m (List.mem_cons_self m g)
        have hstep := displayStep_new_group flags bytesString relPath manifestToItemID st m hm.1
          (by rw [hm.2]; exact fun h => hsrc h.symm)
        have h := displayLoop_entries_in_group flags bytesString relPath manifestToItemID g
          ⟨m.Source, if 0 < flags.maxResultsPerPath then 1 else 0, m.Stats.TotalFileSize⟩
          (fun x hx => ⟨(hg x (List.mem_cons_of_mem m hx)).1,
            by rw [(hg x (List.mem_cons_of_mem m hx)).2, hm.2]⟩)
        rw [displayLoop_cons, hstep]
        by_cases hcap : 0 < flags.maxResultsPerPath
        · simp only [if_pos hcap] at h ⊢
          have hn : (max flags.maxResultsPerPath 0).toNat
              = (flags.maxResultsPerPath - 1).toNat + 1 := by omega
          simp only [List.cons_append, entriesOf_header, entriesOf_entry, entriesOf_append,
            entriesOf_detailLines, List.nil_append, h.1, h.2, hn, List.take_succ_cons,
            List.length_cons]
          refine ⟨trivial, fun _ => ?_⟩
          push_cast
          omega
        · simp only [if_neg hcap] at h ⊢
          have hn : (max flags.maxResultsPerPath 0).toNat = 0 := by omega
          have hn2 : (flags.maxResultsPerPath - 0).toNat = 0 := by omega
          simp only [List.cons_append, entriesOf_header, List.nil_append, h.1, h.2, hn, hn2,
            List.take_zero, List.length_cons]
          refine ⟨trivial, fun _ => ?_⟩
          push_cast
          omega
  refine ⟨hentries.1, ?_, hentries.2, ?_, ?_⟩
  · rw [hentries.1, List.length_take]
    omega
  · intro pre m post hsplit hc
    rw [displayLoop_snoc]
    exact displayStep_lastTotal flags bytesString relPath manifestToItemID _ m
      (hg m (by rw [hsplit]; simp)).1 hc
  · intro hsorted x hx y hy
    rw [hentries.1] at hx
    have hpw := hsorted
    rw [← List.take_append_drop (max flags.maxResultsPerPath 0).toNat g,
      List.pairwise_append] at hpw
    have hless := hpw.2.2 x hx y hy
    have hxs := (hg x (List.mem_of_mem_take hx)).2
    have hys := (hg y (List.mem_of_mem_drop hy)).2
    simp only [manifestSorter.Less, hxs, hys, stringsCompare_self, ne_eq, not_true_eq_false,
      if_false, decide_eq_false_iff_not, Int.not_lt] at hless
    exact hless

/-- Claim C10, on the example of the specification: with a cap of `2` and five
manifests of one source, exactly the first two are displayed, and the baseline
ends at the size of the fifth. -/
theorem display_cap_witness :
    entriesOf (displayLoop ⟨false, false, false, 2⟩ exampleBytesString [] (fun _ => none)
        LoopState.initial
        [exampleManifest 1 [] 10, exampleManifest 2 [] 20, exampleManifest 3 [] 30,
          exampleManifest 4 [] 40, exampleManifest 5 [] 50]).2
      = [exampleManifest 1 [] 10, exampleManifest 2 [] 20] ∧
    (displayLoop ⟨false, false, false, 2⟩ exampleBytesString [] (fun _ => none)
        LoopState.initial
        [exampleManifest 1 [] 10, exampleManifest 2 [] 20, exampleManifest 3 [] 30,
          exampleManifest 4 [] 40, exampleManifest 5 [] 50]).1.lastTotalFileSize = 50 :=
  have h := display_cap ⟨false, false, false, 2⟩ exampleBytesString [] (fun _ => none)
    LoopState.initial exampleSource
    [exampleManifest 1 [] 10, exampleManifest 2 [] 20, exampleManifest 3 [] 30,
      exampleManifest 4 [] 40, exampleManifest 5 [] 50] (by decide) (by decide)
  ⟨h.1, h.2.2.2.1
    [exampleManifest 1 [] 10, exampleManifest 2 [] 20, exampleManifest 3 [] 30,
      exampleManifest 4 [] 40] (exampleManifest 5 [] 50) [] rfl rfl⟩

/-- Claim C7, at a group whose first manifest is incomplete: with
include-incomplete enabled, the incomplete manifest of size `100` sets
`lastTotalFileSize` to `100` when it starts the group, and the complete manifest
of size `150` after it is displayed with the delta `(+50)` to that size. -/
theorem incomplete_first_entry_is_baseline :
    (displayLoop ⟨true, false, false, 100⟩ exampleBytesString [] (fun _ => none)
        LoopState.initial [exampleManifest 1 ['x'] 100]).1.lastTotalFileSize = 100 ∧
    (displayLoop ⟨true, false, false, 100⟩ exampleBytesString [] (fun _ => none)
        LoopState.initial [exampleManifest 1 ['x'] 100, exampleManifest 2 [] 150]).2
      = [Line.header exampleSource,
          Line.entry (exampleManifest 1 ['x'] 100) [] [] [' ', 'x'],
          Line.entry (exampleManifest 2 [] 150) [] ['(', '+', '5', '0', ')'] []] := by
  decide

/-- Claim C7, amended. With include-incomplete enabled, take a group of one
source `s` that starts with `first` and goes on with `rest`, entered in any loop
state `st`. The baseline at `first` is `baselineFor st first`: the size of
`first`, complete or not, when `first` starts a new group, and the value of
`lastTotalFileSize` before it when the loop takes `first` for the group it is
already in (at the start of the display this is the leading group of the zero
`SourceInfo`, with the initial `0`). After the group `lastTotalFileSize` is the
size of its last complete manifest, or that baseline when it has none; a further
manifest `m` of the source is displayed under the cap, marked with its reason
when it is incomplete, with the delta to that value; and `m` moves the baseline
only if it is complete. -/
theorem incomplete_never_advances_baseline (flags : DisplayFlags)
    (bytesString : Int → GoString) (relPath : GoString)
    (manifestToItemID : Manifest → Option GoString)
    (st : LoopState) (s : SourceInfo) (first : Manifest) (rest : List Manifest) (m : Manifest)
    (hinc : flags.backupsIncludeIncomplete = true)
    (hsrc : ∀ x ∈ first :: rest ++ [m], x.Source = s) :
    (st.lastSource ≠ s → baselineFor st first = first.Stats.TotalFileSize) ∧
    (st.lastSource = s → baselineFor st first = st.lastTotalFileSize) ∧
    (displayLoop flags bytesString relPath manifestToItemID st (first :: rest)).1.lastSource = s ∧
    (displayLoop flags bytesString relPath manifestToItemID st (first :: rest)).1.lastTotalFileSize
      = lastCompleteSize (baselineFor st first) (first :: rest) ∧
    (displayStep flags bytesString relPath manifestToItemID
        (displayLoop flags bytesString relPath manifestToItemID st (first :: rest)).1 m).2
      = (if (displayLoop flags bytesString relPath manifestToItemID st (first :: rest)).1.count
            < flags.maxResultsPerPath then
          Line.entry m relPath
            (deltaBytes bytesString (wrapInt64 (m.Stats.TotalFileSize
              - lastCompleteSize (baselineFor st first) (first :: rest))))
            (if m.IncompleteReason ≠ [] then ' ' :: m.IncompleteReason else [])
            :: detailLines flags manifestToItemID m
        else []) ∧
    (displayStep flags bytesString relPath manifestToItemID
        (displayLoop flags bytesString relPath manifestToItemID st (first :: rest)).1
        m).1.lastTotalFileSize
      = (if m.IncompleteReason = [] then m.Stats.TotalFileSize
        else lastCompleteSize (baselineFor st first) (first :: rest)) := by
  have hskip : ∀ x : Manifest, skipped flags x = false := by
    intro x
    simp [skipped, hinc]
  have hfirst : first.Source = s := hsrc first (by simp)
  have hm : m.Source = s := hsrc m (by simp)
  have hb1 : st.lastSource ≠ s → baselineFor st first = first.Stats.TotalFileSize := by
    intro h
    unfold baselineFor
    rw [if_pos (by rw [hfirst]; exact fun h2 => h h2.symm)]
  have hb2 : st.lastSource = s → baselineFor st first = st.lastTotalFileSize := by
    intro h
    unfold baselineFor
    rw [if_neg (by rw [hfirst, h]; exact fun h2 => h2 rfl)]
  have hstate : (displayLoop flags bytesString relPath manifestToItemID st
        (first :: rest)).1.lastSource = s ∧
      (displayLoop flags bytesString relPath manifestToItemID st
        (first :: rest)).1.lastTotalFileSize
        = lastCompleteSize (baselineFor st first) (first :: rest) := by
    by_cases hst : st.lastSource = s
    · have hgrp := displayLoop_baseline_in_group flags bytesString relPath manifestToItemID
        (first :: rest) st
        (fun x hx => ⟨hskip x, by rw [hsrc x (by simp at hx ⊢; tauto), hst]⟩)
      rw [hb2 hst]
      exact ⟨by rw [hgrp.1, hst], hgrp.2⟩
    · have hstep := displayStep_new_group flags bytesString relPath manifestToItemID st first
        (hskip first) (by rw [hfirst]; exact fun h => hst h.symm)
      have hgrp := displayLoop_baseline_in_group flags bytesString relPath manifestToItemID rest
        ⟨first.Source, if 0 < flags.maxResultsPerPath then 1 else 0, first.Stats.TotalFileSize⟩
        (fun x hx => ⟨hskip x, by rw [hsrc x (by simp [hx]), hfirst]⟩)
      have hbase : lastCompleteSize first.Stats.TotalFileSize (first :: rest)
          = lastCompleteSize first.Stats.TotalFileSize rest := by
        rw [lastCompleteSize_cons]
        by_cases hc : first.IncompleteReason = []
        · rw [if_pos hc]
        · rw [if_neg hc]
      have hloop : (displayLoop flags bytesString relPath manifestToItemID st (first :: rest)).1
          = (displayLoop flags bytesString relPath manifestToItemID
              ⟨first.Source, if 0 < flags.maxResultsPerPath then 1 else 0,
                first.Stats.TotalFileSize⟩ rest).1 := by
        rw [displayLoop_cons, hstep]
      rw [hb1 hst, hloop, hbase]
      exact ⟨by rw [hgrp.1, hfirst], hgrp.2⟩
  have hsame := displayStep_same_group flags bytesString relPath manifestToItemID
    (displayLoop flags bytesString relPath manifestToItemID st (first :: rest)).1 m (hskip m)
    (by rw [hstate.1, hm])
  refine ⟨hb1, hb2, hstate.1, hstate.2, ?_, ?_⟩
  · rw [hsame, hstate.2]
  · rw [hsame, hstate.2]

/-- Claim C7, amended, on two examples. The group is an incomplete manifest of
size `100`, a complete one of size `150` and an incomplete one of size `400`; a
further manifest of size `180` gets the delta `(+30)`, computed against `150`.
In a leading group of the zero `SourceInfo` that is an incomplete manifest of
size `100`, a further manifest of size `150` gets the delta `(+150)`, computed
against the initial `0`. -/
theorem incomplete_never_advances_baseline_witness :
    (displayStep ⟨true, false, false, 100⟩ exampleBytesString [] (fun _ => none)
        (displayLoop ⟨true, false, false, 100⟩ exampleBytesString [] (fun _ => none)
          LoopState.initial
          [exampleManifest 1 ['x'] 100, exampleManifest 2 [] 150,
            exampleManifest 3 ['y'] 400]).1
        (exampleManifest 4 [] 180)).2
      = [Line.entry (exampleManifest 4 [] 180) [] ['(', '+', '3', '0', ')'] []] ∧
    (displayStep ⟨true, false, false, 100⟩ exampleBytesString [] (fun _ => none)
        (displayLoop ⟨true, false, false, 100⟩ exampleBytesString [] (fun _ => none)
          LoopState.initial [zeroSourceManifest 1 ['x'] 100]).1
        (zeroSourceManifest 2 [] 150)).2
      = [Line.entry (zeroSourceManifest 2 [] 150) [] ['(', '+', '1', '5', '0', ')'] []] :=
  ⟨(incomplete_never_advances_baseline ⟨true, false, false, 100⟩ exampleBytesString []
      (fun _ => none) LoopState.initial exampleSource (exampleManifest 1 ['x'] 100)
      [exampleManifest 2 [] 150, exampleManifest 3 ['y'] 400] (exampleManifest 4 [] 180)
      rfl (by decide)).2.2.2.2.1.trans (by decide),
    (incomplete_never_advances_baseline ⟨true, false, false, 100⟩ exampleBytesString []
      (fun _ => none) LoopState.initial SourceInfo.zero (zeroSourceManifest 1 ['x'] 100)
      [] (zeroSourceManifest 2 [] 150) rfl (by decide)).2.2.2.2.1.trans (by decide)⟩

/-! ## The sort order and the groups -/

theorem char_eq_of_toNat_eq (a b : Char) (h : a.toNat = b.toNat) : a = b := by
  rw [← Char.ofNat_toNat a, ← Char.ofNat_toNat b, h]

theorem stringsCompare_eq_zero (a : GoString) :
    ∀ b : GoString, stringsCompare a b = 0 → a = b := by
  induction a with
  | nil =>
    intro b h
    cases b with
    | nil => rfl
    | cons d b => simp [stringsCompare] at h
  | cons c a ih =>
    intro b h
    cases b with
    | nil => simp [stringsCompare] at h
    | cons d b =>
      simp only [stringsCompare] at h
      by_cases h1 : c.toNat < d.toNat
      · simp [h1] at h
      · by_cases h2 : d.toNat < c.toNat
        · simp [h1, h2] at h
        · simp only [h1, h2, if_false] at h
          rw [ih b h, char_eq_of_toNat_eq c d (by omega)]

theorem stringsCompare_antisymm (a : GoString) :
    ∀ b : GoString, stringsCompare b a = - stringsCompare a b := by
  induction a with
  | nil =>
    intro b
    cases b <;> simp [stringsCompare]
  | cons c a ih =>
    intro b
    cases b with
    | nil => simp [stringsCompare]
    | cons d b =>
      simp only [stringsCompare]
      by_cases h1 : c.toNat < d.toNat
      · have h2 : ¬ d.toNat < c.toNat := by omega
        simp [h1, h2]
      · by_cases h2 : d.toNat < c.toNat
        · simp [h1, h2]
        · simp only [h1, h2, if_false]
          exact ih b

/-- When `x` is not `Less` than `y`, the rendering of `x` does not compare below
that of `y`. -/
theorem compare_nonneg_of_not_less (x y : Manifest) (h : manifestSorter.Less x y = false) :
    0 ≤ stringsCompare x.Source.String y.Source.String := by
  unfold manifestSorter.Less at h
  by_cases hc : stringsCompare x.Source.String y.Source.String = 0
  · omega
  · simp only [ne_eq, hc, not_false_eq_true, if_true, decide_eq_false_iff_not, Int.not_lt] at h
    exact h

/-- In sorted order, a manifest between two manifests with one rendering has
that rendering too. -/
theorem rendering_between (m x y : Manifest) (h1 : manifestSorter.Less x m = false)
    (h2 : manifestSorter.Less y x = false) (heq : m.Source.String = y.Source.String) :
    x.Source.String = m.Source.String := by
  have c1 := compare_nonneg_of_not_less x m h1
  have c2 := compare_nonneg_of_not_less y x h2
  rw [← heq, stringsCompare_antisymm] at c2
  exact stringsCompare_eq_zero _ _ (by omega)

theorem allBefore_of_compare_neg (a b : SourceInfo) (l : List Manifest)
    (hl : l.Pairwise (fun x y => manifestSorter.Less y x = false))
    (hc : stringsCompare a.String b.String < 0) : allBefore a b l := by
  unfold allBefore
  refine hl.imp ?_
  intro x y hless hxy
  unfold manifestSorter.Less at hless
  rw [hxy.1, hxy.2] at hless
  have hne : stringsCompare a.String b.String ≠ 0 := by omega
  simp [hne, hc] at hless

section Groups

variable (flags : DisplayFlags) (bytesString : Int → GoString) (relPath : GoString)
  (manifestToItemID : Manifest → Option GoString)

theorem headersOf_displayStep (st : LoopState) (m : Manifest) :
    headersOf (displayStep flags bytesString relPath manifestToItemID st m).2 =
      if skipped flags m = false ∧ m.Source ≠ st.lastSource then [m.Source] else [] := by
  cases hs : skipped flags m with
  | true =>
    rw [displayStep_skipped flags bytesString relPath manifestToItemID st m hs]
    simp [headersOf]
  | false =>
    by_cases hsrc : m.Source = st.lastSource
    · rw [displayStep_same_group flags bytesString relPath manifestToItemID st m hs hsrc]
      simp only [hsrc, ne_eq, not_true_eq_false, and_false, if_false]
      split
      · rw [headersOf_entry, headersOf_detailLines]
      · rfl
    · rw [displayStep_new_group flags bytesString relPath manifestToItemID st m hs hsrc]
      simp only [ne_eq, hsrc, not_false_eq_true, and_self, if_true, headersOf_header]
      split
      · rw [headersOf_entry, headersOf_detailLines]
      · rfl

theorem displayStep_lastSource_cases (st : LoopState) (m : Manifest) :
    (displayStep flags bytesString relPath manifestToItemID st m).1.lastSource =
      if skipped flags m = false then m.Source else st.lastSource := by
  cases hs : skipped flags m with
  | true =>
    rw [displayStep_skipped flags bytesString relPath manifestToItemID st m hs]
    simp
  | false =>
    rw [displayStep_lastSource flags bytesString relPath manifestToItemID st m hs]
    simp

/-- Every header printed is the source of a manifest of the list that is not
skipped. -/
theorem headersOf_subset (l : List Manifest) :
    ∀ (st : LoopState) (s : SourceInfo),
      s ∈ headersOf (displayLoop flags bytesString relPath manifestToItemID st l).2 →
      ∃ m ∈ l, m.Source = s ∧ skipped flags m = false := by
  induction l with
  | nil => intro st s h; simp [displayLoop_nil, headersOf] at h
  | cons m l ih =>
    intro st s h
    rw [displayLoop_cons, headersOf_append, List.mem_append, headersOf_displayStep] at h
    rcases h with h | h
    · split at h
      · rename_i hc
        rw [List.mem_singleton] at h
        exact ⟨m, List.mem_cons_self m l, h.symm, hc.1⟩
      · simp at h
    · obtain ⟨x, hx, hxs⟩ := ih _ s h
      exact ⟨x, List.mem_cons_of_mem m hx, hxs⟩

/-- When `lastSource` is `s` and the manifests of `s` come first in the list, no
header of `s` is printed. -/
theorem no_header_of_prefix (s : SourceInfo) (l : List Manifest) :
    ∀ st : LoopState, st.lastSource = s →
      l.Pairwise (fun x y => y.Source = s → x.Source = s) →
      s ∉ headersOf (displayLoop flags bytesString relPath manifestToItemID st l).2 := by
  induction l with
  | nil => intro st _ _; simp [displayLoop_nil, headersOf]
  | cons m l ih =>
    intro st hst hpw
    rw [List.pairwise_cons] at hpw
    rw [displayLoop_cons, headersOf_append, List.mem_append, headersOf_displayStep]
    intro h
    rcases h with h | h
    · split at h
      · rename_i hc
        rw [List.mem_singleton] at h
        exact hc.2 (by rw [hst, h])
      · simp at h
    · cases hs : skipped flags m with
      | true =>
        rw [displayStep_skipped flags bytesString relPath manifestToItemID st m hs] at h
        exact ih st hst hpw.2 h
      | false =>
        by_cases hm : m.Source = s
        · exact ih _ (by rw [displayStep_lastSource flags bytesString relPath manifestToItemID
            st m hs, hm]) hpw.2 h
        · obtain ⟨x, hx, hxs, _⟩ := headersOf_subset flags bytesString relPath
            manifestToItemID l _ s h
          exact hm (hpw.1 x hx hxs)

/-- In a sorted list whose sources have distinct renderings, the header of a
source is printed at most once. -/
theorem header_count_le_one (s : SourceInfo) (l : List Manifest) :
    ∀ st : LoopState,
      l.Pairwise (fun a b => manifestSorter.Less b a = false) →
      (∀ x ∈ l, ∀ y ∈ l, x.Source.String = y.Source.String → x.Source = y.Source) →
      (headersOf (displayLoop flags bytesString relPath manifestToItemID st l).2).count s ≤ 1 := by
  induction l with
  | nil => intro st _ _; simp [displayLoop_nil, headersOf]
  | cons m l ih =>
    intro st hpw hinj
    have hpw2 := List.pairwise_cons.mp hpw
    have hinj2 : ∀ x ∈ l, ∀ y ∈ l, x.Source.String = y.Source.String → x.Source = y.Source :=
      fun x hx y hy => hinj x (List.mem_cons_of_mem m hx) y (List.mem_cons_of_mem m hy)
    rw [displayLoop_cons, headersOf_append, List.count_append]
    cases hs : skipped flags m with
    | true =>
      rw [displayStep_skipped flags bytesString relPath manifestToItemID st m hs]
      simp only [headersOf, List.count_nil, Nat.zero_add]
      exact ih st hpw2.2 hinj2
    | false =>
      rw [headersOf_displayStep]
      by_cases hm : m.Source = s
      · have hprefix : l.Pairwise (fun x y => y.Source = s → x.Source = s) := by
          refine hpw2.2.imp_of_mem ?_
          intro x y hx hy hless hy2
          have hr := rendering_between m x y (hpw2.1 x hx) hless (by rw [hm, hy2])
          rw [hinj x (List.mem_cons_of_mem m hx) m (List.mem_cons_self m l) hr, hm]
        have hzero : (headersOf (displayLoop flags bytesString relPath manifestToItemID
            (displayStep flags bytesString relPath manifestToItemID st m).1 l).2).count s
            = 0 := by
          rw [List.count_eq_zero]
          exact no_header_of_prefix flags bytesString relPath manifestToItemID s l _
            (by rw [displayStep_lastSource flags bytesString relPath manifestToItemID st m hs,
              hm]) hprefix
        rw [hzero, Nat.add_zero]
        split
        · rw [List.count_singleton]
          split <;> omega
        · simp
      · have hhead : (if skipped flags m = false ∧ m.Source ≠ st.lastSource then [m.Source]
            else []).count s = 0 := by
          split
          · rw [List.count_eq_zero, List.mem_singleton]
            exact fun h => hm h.symm
          · rfl
        rw [hhead, Nat.zero_add]
        exact ih _ hpw2.2 hinj2

/-- A source other than `lastSource` that has a manifest that is not skipped
gets its header printed. -/
theorem header_mem (s : SourceInfo) (l : List Manifest) :
    ∀ st : LoopState, st.lastSource ≠ s →
      (∃ m ∈ l, m.Source = s ∧ skipped flags m = false) →
      s ∈ headersOf (displayLoop flags bytesString relPath manifestToItemID st l).2 := by
  induction l with
  | nil => intro st _ h; obtain ⟨m, hm, _⟩ := h; simp at hm
  | cons m l ih =>
    intro st hst h
    rw [displayLoop_cons, headersOf_append, List.mem_append, headersOf_displayStep]
    cases hs : skipped flags m with
    | true =>
      right
      rw [displayStep_skipped flags bytesString relPath manifestToItemID st m hs]
      obtain ⟨x, hx, hxs, hxp⟩ := h
      rcases List.mem_cons.mp hx with hx | hx
      · rw [hx, hs] at hxp
        cases hxp
      · exact ih st hst ⟨x, hx, hxs, hxp⟩
    | false =>
      by_cases hm : m.Source = s
      · left
        rw [if_pos ⟨rfl, by rw [hm]; exact fun h => hst h.symm⟩, hm]
        exact List.mem_singleton_self s
      · right
        obtain ⟨x, hx, hxs, hxp⟩ := h
        rcases List.mem_cons.mp hx with hx | hx
        · rw [hx] at hxs
          exact absurd hxs hm
        · have hnext := displayStep_lastSource flags bytesString relPath manifestToItemID st m hs
          exact ih _ (by rw [hnext]; exact hm) ⟨x, hx, hxs, hxp⟩

end Groups

/-- Claim C5, at two distinct sources with one rendering: user `a@b` on host `c`
and user `a` on host `b@c` are both rendered `a@b@c:/p`, so their manifests are
ordered by start time alone. Every result of the sort puts the manifest of the
second source between the two of the first, and the display loop prints the
header of the first source twice. -/
theorem colliding_sources_interleave :
    collidingSourceA ≠ collidingSourceB ∧
    collidingSourceA.String = collidingSourceB.String ∧
    (∀ out, IsSortResult
        [manifestOf collidingSourceA 3, manifestOf collidingSourceA 1,
          manifestOf collidingSourceB 2] out →
      out = [manifestOf collidingSourceA 1, manifestOf collidingSourceB 2,
        manifestOf collidingSourceA 3]) ∧
    ¬ separated collidingSourceA collidingSourceB
      [manifestOf collidingSourceA 1, manifestOf collidingSourceB 2,
        manifestOf collidingSourceA 3] ∧
    headersOf (displayLoop ⟨false, false, false, 100⟩ exampleBytesString [] (fun _ => none)
        LoopState.initial
        [manifestOf collidingSourceA 1, manifestOf collidingSourceB 2,
          manifestOf collidingSourceA 3]).2
      = [collidingSourceA, collidingSourceB, collidingSourceA] := by
  refine ⟨by decide, by decide, ?_, by decide, by decide⟩
  intro out h
  have hmem := List.mem_permutations'.mpr h.1
  have key : ∀ l ∈ List.permutations'
      [manifestOf collidingSourceA 3, manifestOf collidingSourceA 1,
        manifestOf collidingSourceB 2],
      l.Pairwise (fun a b => manifestSorter.Less b a = false) →
      l = [manifestOf collidingSourceA 1, manifestOf collidingSourceB 2,
        manifestOf collidingSourceA 3] := by
    decide
  exact key out hmem h.2

/-- Claim C5, amended. In every result of sorting with `manifestSorter`, the
manifests of two sources whose renderings `user@host:path` differ are not
interleaved: those of one are all before those of the other. When sources of the
collection with one rendering are the same source, the display loop prints the
header of each source at most once, and exactly once for a source other than the
zero `SourceInfo` that has a manifest that is not skipped. -/
theorem sorted_sources_not_interleaved (ms out : List Manifest)
    (hsort : IsSortResult ms out) :
    (∀ a b : SourceInfo, a.String ≠ b.String → separated a b out) ∧
    ((∀ x ∈ ms, ∀ y ∈ ms, x.Source.String = y.Source.String → x.Source = y.Source) →
      ∀ (flags : DisplayFlags) (bytesString : Int → GoString) (relPath : GoString)
        (manifestToItemID : Manifest → Option GoString) (s : SourceInfo),
        (headersOf (displayLoop flags bytesString relPath manifestToItemID
          LoopState.initial out).2).count s ≤ 1 ∧
        (s ≠ SourceInfo.zero → (∃ m ∈ ms, m.Source = s ∧ skipped flags m = false) →
          (headersOf (displayLoop flags bytesString relPath manifestToItemID
            LoopState.initial out).2).count s = 1)) := by
  constructor
  · intro a b hab
    have hne : stringsCompare a.String b.String ≠ 0 :=
      fun h => hab (stringsCompare_eq_zero _ _ h)
    rcases Int.lt_or_gt_of_ne hne with hlt | hgt
    · exact Or.inl (allBefore_of_compare_neg a b out hsort.2 hlt)
    · refine Or.inr (allBefore_of_compare_neg b a out hsort.2 ?_)
      rw [stringsCompare_antisymm]
      omega
  · intro hinj flags bytesString relPath manifestToItemID s
    have hinj2 : ∀ x ∈ out, ∀ y ∈ out, x.Source.String = y.Source.String →
        x.Source = y.Source :=
      fun x hx y hy => hinj x (hsort.1.subset hx) y (hsort.1.subset hy)
    have hle := header_count_le_one flags bytesString relPath manifestToItemID s out
      LoopState.initial hsort.2 hinj2
    refine ⟨hle, ?_⟩
    intro hs hex
    obtain ⟨m, hm, hms⟩ := hex
    have hmem := header_mem flags bytesString relPath manifestToItemID s out LoopState.initial
      (fun h => hs h.symm) ⟨m, hsort.1.symm.subset hm, hms⟩
    have hpos := List.count_pos_iff.mpr hmem
    omega

/-- Claim C5, amended, on an example: the manifests of `u@h:/p` and `v@h:/p`,
sorted, are not interleaved. -/
theorem sorted_sources_not_interleaved_witness :
    separated exampleSource otherSource
      [manifestOf exampleSource 1, manifestOf exampleSource 2, manifestOf otherSource 1] :=
  (sorted_sources_not_interleaved
    [manifestOf otherSource 1, manifestOf exampleSource 2, manifestOf exampleSource 1]
    [manifestOf exampleSource 1, manifestOf exampleSource 2, manifestOf otherSource 1]
    (by decide)).1 exampleSource otherSource (by decide)

/-! ## `runBackupsCommand` and collaborator errors -/

/-- Claim C2, at the failing input: with the source argument `/a` the error of
`ListSnapshotManifests` met by the walk of `findBackups` is lost and the command
returns `nil`; without a source argument the same error is returned, wrapped in
`cannot list backups`. -/
theorem runBackupsCommand_walk_error_swallowed :
    runBackupsCommand failingCollaborators ['/', 'a'] ⟨false, false, false, 100⟩ 0
      = some ⟨none, []⟩ ∧
    findBackups (fun s x => failingCollaborators.listSnapshotManifests s (some x)) 0
        ⟨['h'], ['u'], ['/', 'a']⟩
      = some (⟨[], [], some 7⟩, 1) ∧
    runBackupsCommand failingCollaborators [] ⟨false, false, false, 100⟩ 0
      = some ⟨some (CommandError.cannotListBackups 7), []⟩ := by
  decide

/-! ## The outcome of the walk -/

section Outcome

variable {σ ε : Type} (list : ListManifests σ ε)

theorem Base_ne_nil (path : GoString) : Base path ≠ [] := by
  unfold Base
  split
  · simp
  · simp only
    split
    · simp
    · rename_i h
      intro h2
      apply h
      rw [h2]
      rfl

theorem relPathAfter_ne_nil_of_ne_nil (i : Nat) :
    ∀ (rel path : GoString), rel ≠ [] → relPathAfter rel path i ≠ [] := by
  induction i with
  | zero => intro rel path h; exact h
  | succ i ih =>
    intro rel path h
    show relPathAfter _ (Dir path) i ≠ []
    apply ih
    rw [if_pos (List.length_pos.mpr h)]
    simp

/-- After at least one hop the accumulated relative path is not empty. -/
theorem relPathAfter_succ_ne_nil (rel path : GoString) (i : Nat) :
    relPathAfter rel path (i + 1) ≠ [] := by
  show relPathAfter _ (Dir path) i ≠ []
  apply relPathAfter_ne_nil_of_ne_nil
  split
  · simp
  · exact Base_ne_nil path

/-- Every walk from a non-empty path ends in one of three ways, at a hop
`j ≤ len(path)` reached through empty answers: an error, a non-empty list, or an
empty answer at a fixed point of `filepath.Dir`. -/
theorem findBackups_outcome (st : σ) (si : SourceInfo) (hne : si.Path ≠ []) :
    ∃ j, j ≤ si.Path.length ∧
      (∀ i < j, Dir (ancestor si.Path i) ≠ ancestor si.Path i) ∧
      (∀ i < j, responseAt list st si i = Except.ok []) ∧
      ((∃ e, responseAt list st si j = Except.error e ∧
          findBackups list st si = some (⟨[], [], some e⟩, stateAfter list st si (j + 1))) ∨
        (∃ l, l ≠ [] ∧ responseAt list st si j = Except.ok l ∧
          findBackups list st si =
            some (⟨l, relPathAfter [] si.Path j, none⟩, stateAfter list st si (j + 1))) ∨
        (responseAt list st si j = Except.ok [] ∧
          Dir (ancestor si.Path j) = ancestor si.Path j ∧
          findBackups list st si = some (⟨[], [], none⟩, stateAfter list st si (j + 1)))) := by
  obtain ⟨n, hn, hfix, hbefore⟩ := exists_root si.Path.length si.Path hne (Nat.le_refl _)
  have hscan : ∀ k, k ≤ n + 1 →
      (∃ j, j < k ∧ (∀ i < j, responseAt list st si i = Except.ok []) ∧
        ((∃ e, responseAt list st si j = Except.error e) ∨
          (∃ l, l ≠ [] ∧ responseAt list st si j = Except.ok l))) ∨
      (∀ i < k, responseAt list st si i = Except.ok []) := by
    intro k
    induction k with
    | zero => intro _; exact Or.inr (fun i hi => absurd hi (Nat.not_lt_zero i))
    | succ k ih =>
      intro hk
      rcases ih (by omega) with ⟨j, hj, hrest⟩ | hall
      · exact Or.inl ⟨j, by omega, hrest⟩
      · cases hr : responseAt list st si k with
        | error e => exact Or.inl ⟨k, by omega, hall, Or.inl ⟨e, hr⟩⟩
        | ok l =>
          by_cases hl : l = []
          · right
            intro i hi
            rcases Nat.lt_succ_iff_lt_or_eq.mp hi with h | h
            · exact hall i h
            · rw [h, hr, hl]
          · exact Or.inl ⟨k, by omega, hall, Or.inr ⟨l, hl, hr⟩⟩
  rcases hscan (n + 1) (Nat.le_refl _) with ⟨j, hj, hempty, hcase⟩ | hall
  · have hwalk : ∀ i < j, Dir (ancestor si.Path i) ≠ ancestor si.Path i :=
      fun i hi => hbefore i (by omega)
    refine ⟨j, by omega, hwalk, hempty, ?_⟩
    rcases hcase with ⟨e, he⟩ | ⟨l, hl, hr⟩
    · exact Or.inl ⟨e, he, findBackups_error_at list st si j e hne hwalk hempty he⟩
    · exact Or.inr (Or.inl ⟨l, hl, hr, findBackups_found_at list st si j l hne hwalk hempty hr hl⟩)
  · refine ⟨n, hn, hbefore, fun i hi => hall i (by omega), Or.inr (Or.inr ⟨hall n (by omega), hfix, ?_⟩)⟩
    exact findBackups_root_at list st si n hne hbefore hfix (fun i hi => hall i (by omega))

end Outcome

/-- For a non-empty path, the relative path `findBackups` returns is not empty
exactly when a non-empty manifest list was found at a query after the first (at
hop `j ≥ 1` of the walk, reached through empty answers); it is empty when the
first query found manifests, when no manifest id is returned, and when an error
is returned. -/
theorem relPath_nonempty_iff_found_after_first_query {σ ε : Type} (list : ListManifests σ ε) (st : σ)
    (si : SourceInfo) (hne : si.Path ≠ []) :
    ∃ r st1, findBackups list st si = some (r, st1) ∧
      (r.relPath ≠ [] ↔
        ∃ j l, 0 < j ∧ l ≠ [] ∧
          (∀ i < j, Dir (ancestor si.Path i) ≠ ancestor si.Path i) ∧
          (∀ i < j, responseAt list st si i = Except.ok []) ∧
          responseAt list st si j = Except.ok l) ∧
      (∀ l, l ≠ [] → responseAt list st si 0 = Except.ok l → r.relPath = []) ∧
      (r.manifestIDs = [] → r.relPath = []) ∧
      (r.err ≠ none → r.relPath = []) := by
  obtain ⟨j, _, hwalk, hempty, hcase⟩ := findBackups_outcome list st si hne
  rcases hcase with ⟨e, he, hres⟩ | ⟨l, hl, hr, hres⟩ | ⟨hr, hfix, hres⟩
  · refine ⟨_, _, hres, ⟨fun h => absurd rfl h, ?_⟩, fun _ _ _ => rfl, fun _ => rfl, fun _ => rfl⟩
    rintro ⟨j2, l2, _, hl2, _, hempty2, hr2⟩
    exfalso
    rcases Nat.lt_trichotomy j2 j with h | h | h
    · rw [hempty j2 h] at hr2
      exact hl2 (Except.ok.inj hr2).symm
    · rw [h, he] at hr2
      cases hr2
    · rw [hempty2 j h] at he
      cases he
  · cases j with
    | zero =>
      refine ⟨_, _, hres, ⟨fun h => absurd rfl h, ?_⟩, fun _ _ _ => rfl,
        fun h => absurd h hl, fun h => absurd rfl h⟩
      rintro ⟨j2, l2, hj2, _, _, hempty2, _⟩
      exfalso
      rw [hempty2 0 hj2] at hr
      exact hl (Except.ok.inj hr).symm
    | succ j =>
      refine ⟨_, _, hres, ⟨fun _ => ⟨j + 1, l, Nat.succ_pos j, hl, hwalk, hempty, hr⟩, ?_⟩,
        ?_, fun h => absurd h hl, fun h => absurd rfl h⟩
      · intro _
        exact relPathAfter_succ_ne_nil [] si.Path j
      · intro l2 hl2 hr2
        exfalso
        rw [hempty 0 (Nat.succ_pos j)] at hr2
        exact hl2 (Except.ok.inj hr2).symm
  · refine ⟨_, _, hres, ⟨fun h => absurd rfl h, ?_⟩, fun _ _ _ => rfl, fun _ => rfl, fun _ => rfl⟩
    rintro ⟨j2, l2, _, hl2, hwalk2, hempty2, hr2⟩
    exfalso
    rcases Nat.lt_trichotomy j2 j with h | h | h
    · rw [hempty j2 h] at hr2
      exact hl2 (Except.ok.inj hr2).symm
    · rw [h, hr] at hr2
      exact hl2 (Except.ok.inj hr2).symm
    · exact hwalk2 j h hfix

/-- Claim C15, at the failing input: the query is `/a/b/` and manifests exist
only at `/a`. The walk queries `/a/b/`, `/a/b` and `/a`, adding `b` to the
relative path at each of the first two, and returns `b/b`; joined to `/a` that
is `/a/b/b`, while the cleaned form of the query is `/a/b`. -/
theorem relPath_wrong_for_trailing_separator :
    findBackups exampleManager [] ⟨['h'], ['u'], ['/', 'a', '/', 'b', '/']⟩ =
      some (⟨[['m', '1'], ['m', '2']], ['b', '/', 'b'], none⟩,
        [['/', 'a', '/', 'b', '/'], ['/', 'a', '/', 'b'], ['/', 'a']]) ∧
    Clean (['/', 'a'] ++ '/' :: ['b', '/', 'b']) = ['/', 'a', '/', 'b', '/', 'b'] ∧
    Clean ['/', 'a', '/', 'b', '/'] = ['/', 'a', '/', 'b'] := by
  decide

/-! ## The order of `manifestSorter.Less` -/

theorem stringsCompare_trans (a : GoString) :
    ∀ b c : GoString, stringsCompare a b < 0 → stringsCompare b c < 0 →
      stringsCompare a c < 0 := by
  induction a with
  | nil =>
    intro b c h1 h2
    cases b with
    | nil => simp [stringsCompare] at h1
    | cons y b =>
      cases c with
      | nil => simp [stringsCompare] at h2
      | cons z c => simp [stringsCompare]
  | cons x a ih =>
    intro b c h1 h2
    cases b with
    | nil => simp [stringsCompare] at h1
    | cons y b =>
      cases c with
      | nil => simp [stringsCompare] at h2
      | cons z c =>
        simp only [stringsCompare] at h1 h2 ⊢
        by_cases hxy : x.toNat < y.toNat
        · by_cases hyz : y.toNat < z.toNat
          · rw [if_pos (by omega)]; omega
          · rw [if_neg hyz] at h2
            by_cases hzy : z.toNat < y.toNat
            · rw [if_pos hzy] at h2; omega
            · rw [if_pos (by omega)]; omega
        · rw [if_neg hxy] at h1
          by_cases hyx : y.toNat < x.toNat
          · rw [if_pos hyx] at h1; omega
          · rw [if_neg hyx] at h1
            by_cases hyz : y.toNat < z.toNat
            · rw [if_pos (by omega)]; omega
            · rw [if_neg hyz] at h2
              by_cases hzy : z.toNat < y.toNat
              · rw [if_pos hzy] at h2; omega
              · rw [if_neg hzy] at h2
                rw [if_neg (by omega), if_neg (by omega)]
                exact ih b c h1 h2

/-- The method `Less` is the lexicographic order on the pair of the rendered
source and the start time. -/
theorem less_iff (a b : Manifest) :
    manifestSorter.Less a b = true ↔
      stringsCompare a.Source.String b.Source.String < 0 ∨
        (stringsCompare a.Source.String b.Source.String = 0 ∧ a.StartTime < b.StartTime) := by
  unfold manifestSorter.Less
  by_cases hc : stringsCompare a.Source.String b.Source.String = 0
  · simp [hc]
  · simp only [ne_eq, hc, not_false_eq_true, if_true, decide_eq_true_eq, false_and, or_false]

theorem less_false_iff (a b : Manifest) :
    manifestSorter.Less a b = false ↔
      ¬ (stringsCompare a.Source.String b.Source.String < 0 ∨
        (stringsCompare a.Source.String b.Source.String = 0 ∧ a.StartTime < b.StartTime)) := by
  rw [← less_iff]
  simp

theorem less_asymm (a b : Manifest) (h : manifestSorter.Less a b = true) :
    manifestSorter.Less b a = false := by
  rw [less_iff] at h
  rw [less_false_iff, stringsCompare_antisymm a.Source.String b.Source.String]
  omega

theorem less_trans (a b c : Manifest) (h1 : manifestSorter.Less a b = true)
    (h2 : manifestSorter.Less b c = true) : manifestSorter.Less a c = true := by
  rw [less_iff] at h1 h2 ⊢
  rcases h1 with h1 | ⟨h1, t1⟩
  · rcases h2 with h2 | ⟨h2, _⟩
    · exact Or.inl (stringsCompare_trans _ _ _ h1 h2)
    · rw [← stringsCompare_eq_zero _ _ h2]
      exact Or.inl h1
  · rw [stringsCompare_eq_zero _ _ h1]
    rcases h2 with h2 | ⟨h2, t2⟩
    · exact Or.inl h2
    · exact Or.inr ⟨h2, by omega⟩

/-- Two manifests are incomparable exactly when they have one rendered source
and one start time. -/
theorem incomparable_iff (a b : Manifest) :
    (manifestSorter.Less a b = false ∧ manifestSorter.Less b a = false) ↔
      (a.Source.String = b.Source.String ∧ a.StartTime = b.StartTime) := by
  rw [less_false_iff, less_false_iff, stringsCompare_antisymm a.Source.String b.Source.String]
  constructor
  · intro h
    have hz : stringsCompare a.Source.String b.Source.String = 0 := by omega
    exact ⟨stringsCompare_eq_zero _ _ hz, by omega⟩
  · intro h
    rw [h.1, stringsCompare_self]
    omega

/-- Manifests whose keys differ are ordered one way or the other. -/
theorem less_total_of_key_ne (a b : Manifest)
    (h : (a.Source.String, a.StartTime) ≠ (b.Source.String, b.StartTime)) :
    manifestSorter.Less a b = true ∨ manifestSorter.Less b a = true := by
  by_contra hcon
  have h1 : manifestSorter.Less a b = false := by
    cases hx : manifestSorter.Less a b
    · rfl
    · exact absurd (Or.inl hx) hcon
  have h2 : manifestSorter.Less b a = false := by
    cases hx : manifestSorter.Less b a
    · rfl
    · exact absurd (Or.inr hx) hcon
  have := (incomparable_iff a b).mp ⟨h1, h2⟩
  exact h (by rw [this.1, this.2])

/-- Claim C17. The method `manifestSorter.Less` compares the rendered sources
lexicographically and then the start times; it is irreflexive, asymmetric and
transitive, incomparability under it is transitive, and of two manifests whose
keys (rendered source, start time) differ exactly one is `Less` than the other. -/
theorem manifestSorter_less_strict_weak_order :
    (∀ a b : Manifest, manifestSorter.Less a b = true ↔
      stringsCompare a.Source.String b.Source.String < 0 ∨
        (stringsCompare a.Source.String b.Source.String = 0 ∧ a.StartTime < b.StartTime)) ∧
    (∀ a : Manifest, manifestSorter.Less a a = false) ∧
    (∀ a b : Manifest, manifestSorter.Less a b = true → manifestSorter.Less b a = false) ∧
    (∀ a b c : Manifest, manifestSorter.Less a b = true → manifestSorter.Less b c = true →
      manifestSorter.Less a c = true) ∧
    (∀ a b c : Manifest,
      (manifestSorter.Less a b = false ∧ manifestSorter.Less b a = false) →
      (manifestSorter.Less b c = false ∧ manifestSorter.Less c b = false) →
      (manifestSorter.Less a c = false ∧ manifestSorter.Less c a = false)) ∧
    (∀ a b : Manifest, (a.Source.String, a.StartTime) ≠ (b.Source.String, b.StartTime) →
      (manifestSorter.Less a b = true ∧ manifestSorter.Less b a = false) ∨
      (manifestSorter.Less a b = false ∧ manifestSorter.Less b a = true)) := by
  refine ⟨less_iff, ?_, less_asymm, less_trans, ?_, ?_⟩
  · intro a
    exact ((incomparable_iff a a).mpr ⟨rfl, rfl⟩).1
  · intro a b c hab hbc
    have h1 := (incomparable_iff a b).mp hab
    have h2 := (incomparable_iff b c).mp hbc
    exact (incomparable_iff a c).mpr ⟨h1.1.trans h2.1, h1.2.trans h2.2⟩
  · intro a b h
    rcases less_total_of_key_ne a b h with h1 | h1
    · exact Or.inl ⟨h1, less_asymm a b h1⟩
    · exact Or.inr ⟨less_asymm b a h1, h1⟩

/-! ## What an iteration of the display loop depends on -/

/-- The state after an iteration and the headers, entries and deltas it prints,
in terms of the include-incomplete setting (through `skipped`) and the cap only. -/
theorem displayStep_summary (flags : DisplayFlags) (bytesString : Int → GoString)
    (relPath : GoString) (manifestToItemID : Manifest → Option GoString)
    (st : LoopState) (m : Manifest) :
    (displayStep flags bytesString relPath manifestToItemID st m).1 =
      (if skipped flags m = true then st
        else ⟨m.Source,
          if countFor st m < flags.maxResultsPerPath then countFor st m + 1 else countFor st m,
          if m.IncompleteReason = [] then m.Stats.TotalFileSize else baselineFor st m⟩) ∧
    headersOf (displayStep flags bytesString relPath manifestToItemID st m).2 =
      (if skipped flags m = false ∧ m.Source ≠ st.lastSource then [m.Source] else []) ∧
    entriesOf (displayStep flags bytesString relPath manifestToItemID st m).2 =
      (if skipped flags m = false ∧ countFor st m < flags.maxResultsPerPath then [m] else []) ∧
    deltasOf (displayStep flags bytesString relPath manifestToItemID st m).2 =
      (if skipped flags m = false ∧ countFor st m < flags.maxResultsPerPath then
        [deltaBytes bytesString (wrapInt64 (m.Stats.TotalFileSize - baselineFor st m))]
      else []) := by
  refine ⟨?_, headersOf_displayStep flags bytesString relPath manifestToItemID st m, ?_, ?_⟩
  · cases hs : skipped flags m with
    | true =>
      rw [displayStep_skipped flags bytesString relPath manifestToItemID st m hs]
      simp
    | false =>
      by_cases hsrc : m.Source = st.lastSource
      · rw [displayStep_same_group flags bytesString relPath manifestToItemID st m hs hsrc]
        simp [countFor, baselineFor, hsrc]
      · rw [displayStep_new_group flags bytesString relPath manifestToItemID st m hs hsrc]
        simp [countFor, baselineFor, hsrc]
  · cases hs : skipped flags m with
    | true =>
      rw [displayStep_skipped flags bytesString relPath manifestToItemID st m hs]
      simp [entriesOf]
    | false =>
      by_cases hsrc : m.Source = st.lastSource
      · rw [displayStep_same_group flags bytesString relPath manifestToItemID st m hs hsrc]
        simp only [countFor, hsrc, ne_eq, not_true_eq_false, if_false, true_and]
        split
        · rw [entriesOf_entry, entriesOf_detailLines]
        · rfl
      · rw [displayStep_new_group flags bytesString relPath manifestToItemID st m hs hsrc]
        simp only [countFor, hsrc, ne_eq, not_false_eq_true, if_true, true_and, entriesOf_header]
        split
        · rw [entriesOf_entry, entriesOf_detailLines]
        · rfl
  · cases hs : skipped flags m with
    | true =>
      rw [displayStep_skipped flags bytesString relPath manifestToItemID st m hs]
      simp [deltasOf]
    | false =>
      by_cases hsrc : m.Source = st.lastSource
      · rw [displayStep_same_group flags bytesString relPath manifestToItemID st m hs hsrc]
        simp only [countFor, baselineFor, hsrc, ne_eq, not_true_eq_false, if_false, true_and]
        split
        · rw [deltasOf_entry, deltasOf_detailLines]
        · rfl
      · rw [displayStep_new_group flags bytesString relPath manifestToItemID st m hs hsrc]
        simp only [countFor, baselineFor, hsrc, ne_eq, not_false_eq_true, if_true, true_and,
          deltasOf_header, Int.sub_self, wrapInt64_zero]
        split
        · rw [deltasOf_entry, deltasOf_detailLines]
          rfl
        · rfl

theorem skipped_congr (f1 f2 : DisplayFlags)
    (hinc : f1.backupsIncludeIncomplete = f2.backupsIncludeIncomplete) (m : Manifest) :
    skipped f1 m = skipped f2 m := by
  unfold skipped
  rw [hinc]

/-- The state of the loop and the headers, entries and deltas printed depend on
the flags only through the include-incomplete setting and the cap, and not on
the relative path or the map of item ids. -/
theorem displayLoop_congr (f1 f2 : DisplayFlags)
    (hinc : f1.backupsIncludeIncomplete = f2.backupsIncludeIncomplete)
    (hcap : f1.maxResultsPerPath = f2.maxResultsPerPath)
    (bytesString : Int → GoString) (r1 r2 : GoString)
    (map1 map2 : Manifest → Option GoString) (l : List Manifest) :
    ∀ st : LoopState,
      (displayLoop f1 bytesString r1 map1 st l).1 = (displayLoop f2 bytesString r2 map2 st l).1 ∧
      headersOf (displayLoop f1 bytesString r1 map1 st l).2
        = headersOf (displayLoop f2 bytesString r2 map2 st l).2 ∧
      entriesOf (displayLoop f1 bytesString r1 map1 st l).2
        = entriesOf (displayLoop f2 bytesString r2 map2 st l).2 ∧
      deltasOf (displayLoop f1 bytesString r1 map1 st l).2
        = deltasOf (displayLoop f2 bytesString r2 map2 st l).2 := by
  induction l with
  | nil => intro st; exact ⟨rfl, rfl, rfl, rfl⟩
  | cons m l ih =>
    intro st
    have s1 := displayStep_summary f1 bytesString r1 map1 st m
    have s2 := displayStep_summary f2 bytesString r2 map2 st m
    rw [skipped_congr f1 f2 hinc m, hcap] at s1
    have hstate : (displayStep f1 bytesString r1 map1 st m).1
        = (displayStep f2 bytesString r2 map2 st m).1 := by rw [s1.1, s2.1]
    have hrest := ih (displayStep f2 bytesString r2 map2 st m).1
    rw [displayLoop_cons, displayLoop_cons, hstate]
    refine ⟨hrest.1, ?_, ?_, ?_⟩
    · rw [headersOf_append, headersOf_append, s1.2.1, s2.2.1, hrest.2.1]
    · rw [entriesOf_append, entriesOf_append, s1.2.2.1, s2.2.2.1, hrest.2.2.1]
    · rw [deltasOf_append, deltasOf_append, s1.2.2.2, s2.2.2.2, hrest.2.2.2]

/-- The entries displayed are manifests of the list, in the order of the list. -/
theorem entriesOf_sublist (flags : DisplayFlags) (bytesString : Int → GoString)
    (relPath : GoString) (manifestToItemID : Manifest → Option GoString) (l : List Manifest) :
    ∀ st : LoopState,
      (entriesOf (displayLoop flags bytesString relPath manifestToItemID st l).2).Sublist l := by
  induction l with
  | nil => intro st; exact List.Sublist.slnil
  | cons m l ih =>
    intro st
    rw [displayLoop_cons, entriesOf_append,
      (displayStep_summary flags bytesString relPath manifestToItemID st m).2.2.1]
    split
    · exact (ih _).cons₂ m
    · exact (ih _).cons m

/-- In sorted order, manifests with one rendered source are in non-decreasing
order of start time. -/
theorem sorted_same_source_chronological (l : List Manifest)
    (h : l.Pairwise (fun a b => manifestSorter.Less b a = false)) :
    l.Pairwise (fun a b => a.Source.String = b.Source.String → a.StartTime ≤ b.StartTime) := by
  refine h.imp ?_
  intro a b hless heq
  rw [less_false_iff, heq, stringsCompare_self] at hless
  omega

/-- Claim C12. Every result of sorting with `manifestSorter` is a permutation of
the input in which two manifests with one rendered source are in non-decreasing
order of start time; the entries the display loop prints are a subsequence of
it, so the displayed entries of a source are in non-decreasing order of start
time too. -/
theorem chronological_within_source (ms out : List Manifest) (hsort : IsSortResult ms out) :
    out.Perm ms ∧
    out.Pairwise (fun a b => a.Source.String = b.Source.String → a.StartTime ≤ b.StartTime) ∧
    ∀ (flags : DisplayFlags) (bytesString : Int → GoString) (relPath : GoString)
      (manifestToItemID : Manifest → Option GoString),
      (entriesOf (displayLoop flags bytesString relPath manifestToItemID
        LoopState.initial out).2).Sublist out ∧
      (entriesOf (displayLoop flags bytesString relPath manifestToItemID
        LoopState.initial out).2).Pairwise
          (fun a b => a.Source.String = b.Source.String → a.StartTime ≤ b.StartTime) := by
  have hchron := sorted_same_source_chronological out hsort.2
  refine ⟨hsort.1, hchron, ?_⟩
  intro flags bytesString relPath manifestToItemID
  have hsub := entriesOf_sublist flags bytesString relPath manifestToItemID out LoopState.initial
  exact ⟨hsub, hchron.sublist hsub⟩

/-- Claim C12, on an example: three manifests of two sources, sorted; those of
`u@h:/p` are in the order of their start times. -/
theorem chronological_within_source_witness :
    [manifestOf exampleSource 1, manifestOf exampleSource 2, manifestOf otherSource 1].Pairwise
      (fun a b => a.Source.String = b.Source.String → a.StartTime ≤ b.StartTime) :=
  (chronological_within_source
    [manifestOf otherSource 1, manifestOf exampleSource 2, manifestOf exampleSource 1]
    [manifestOf exampleSource 1, manifestOf exampleSource 2, manifestOf otherSource 1]
    (by decide)).2.1

/-- Two sorted arrangements of manifests with pairwise distinct keys are equal. -/
theorem sorted_unique (l1 : List Manifest) :
    ∀ l2 : List Manifest, l1.Perm l2 →
      l1.Pairwise (fun a b => manifestSorter.Less b a = false) →
      l2.Pairwise (fun a b => manifestSorter.Less b a = false) →
      l1.Pairwise (fun a b => sortKey a ≠ sortKey b) → l1 = l2 := by
  induction l1 with
  | nil => intro l2 hp _ _ _; exact hp.nil_eq
  | cons a t1 ih =>
    intro l2 hp h1 h2 hk
    cases l2 with
    | nil => exact absurd hp.symm.nil_eq.symm (List.cons_ne_nil a t1)
    | cons b t2 =>
      have h1c := List.pairwise_cons.mp h1
      have h2c := List.pairwise_cons.mp h2
      have hkc := List.pairwise_cons.mp hk
      have hab : a = b := by
        by_contra hne
        have ha2 : a ∈ t2 := by
          rcases List.mem_cons.mp (hp.subset (List.mem_cons_self a t1)) with h | h
          · exact absurd h hne
          · exact h
        have hb1 : b ∈ t1 := by
          rcases List.mem_cons.mp (hp.symm.subset (List.mem_cons_self b t2)) with h | h
          · exact absurd h.symm hne
          · exact h
        rcases less_total_of_key_ne a b (hkc.1 b hb1) with h | h
        · rw [h2c.1 a ha2] at h
          cases h
        · rw [h1c.1 b hb1] at h
          cases h
      subst hab
      rw [ih t2 (List.Perm.cons_inv hp) h1c.2 h2c.2 hkc.2]

/-- Claim C18. For manifests whose keys (rendered source, start time) are
pairwise distinct, the results of sorting any two arrangements of the collection
are one list, and the display loop run on them with one cap and one
include-incomplete setting prints the same headers, entries and deltas. -/
theorem display_order_independent (ms1 ms2 out1 out2 : List Manifest)
    (hperm : ms1.Perm ms2)
    (hkeys : ms1.Pairwise (fun a b => sortKey a ≠ sortKey b))
    (h1 : IsSortResult ms1 out1) (h2 : IsSortResult ms2 out2) :
    out1 = out2 ∧
    ∀ (f1 f2 : DisplayFlags), f1.backupsIncludeIncomplete = f2.backupsIncludeIncomplete →
      f1.maxResultsPerPath = f2.maxResultsPerPath →
      ∀ (bytesString : Int → GoString) (r1 r2 : GoString)
        (map1 map2 : Manifest → Option GoString),
        headersOf (displayLoop f1 bytesString r1 map1 LoopState.initial out1).2
          = headersOf (displayLoop f2 bytesString r2 map2 LoopState.initial out2).2 ∧
        entriesOf (displayLoop f1 bytesString r1 map1 LoopState.initial out1).2
          = entriesOf (displayLoop f2 bytesString r2 map2 LoopState.initial out2).2 ∧
        deltasOf (displayLoop f1 bytesString r1 map1 LoopState.initial out1).2
          = deltasOf (displayLoop f2 bytesString r2 map2 LoopState.initial out2).2 := by
  have hp : out1.Perm out2 := h1.1.trans (hperm.trans h2.1.symm)
  have hk : out1.Pairwise (fun a b => sortKey a ≠ sortKey b) :=
    hkeys.perm h1.1.symm (fun hab hba => hab hba.symm)
  have heq : out1 = out2 := sorted_unique out1 out2 hp h1.2 h2.2 hk
  refine ⟨heq, ?_⟩
  intro f1 f2 hinc hcap bytesString r1 r2 map1 map2
  rw [heq]
  exact (displayLoop_congr f1 f2 hinc hcap bytesString r1 r2 map1 map2 out2
    LoopState.initial).2

/-- Claim C18, on an example: two arrangements of three manifests have one
sorted result. -/
theorem display_order_independent_witness :
    [manifestOf exampleSource 1, manifestOf exampleSource 2, manifestOf otherSource 1]
      = [manifestOf exampleSource 1, manifestOf exampleSource 2, manifestOf otherSource 1] ∧
    headersOf (displayLoop ⟨false, false, false, 100⟩ exampleBytesString [] (fun _ => none)
        LoopState.initial
        [manifestOf exampleSource 1, manifestOf exampleSource 2, manifestOf otherSource 1]).2
      = headersOf (displayLoop ⟨false, true, true, 100⟩ exampleBytesString ['/', 'x']
        (fun _ => some ['i']) LoopState.initial
        [manifestOf exampleSource 1, manifestOf exampleSource 2, manifestOf otherSource 1]).2 :=
  have h := display_order_independent
    [manifestOf otherSource 1, manifestOf exampleSource 2, manifestOf exampleSource 1]
    [manifestOf exampleSource 2, manifestOf otherSource 1, manifestOf exampleSource 1]
    [manifestOf exampleSource 1, manifestOf exampleSource 2, manifestOf otherSource 1]
    [manifestOf exampleSource 1, manifestOf exampleSource 2, manifestOf otherSource 1]
    (by decide) (by decide) (by decide) (by decide)
  ⟨h.1, (h.2 ⟨false, false, false, 100⟩ ⟨false, true, true, 100⟩ rfl rfl exampleBytesString []
    ['/', 'x'] (fun _ => none) (fun _ => some ['i'])).1⟩

/-! ## The `int64` subtraction of the display loop -/

theorem baselineFor_range (st : LoopState) (m : Manifest)
    (hst : 0 ≤ st.lastTotalFileSize ∧ st.lastTotalFileSize < 2 ^ 63)
    (hm : 0 ≤ m.Stats.TotalFileSize ∧ m.Stats.TotalFileSize < 2 ^ 63) :
    0 ≤ baselineFor st m ∧ baselineFor st m < 2 ^ 63 := by
  unfold baselineFor
  split
  · exact hm
  · exact hst

/-- While the sizes are file sizes, `lastTotalFileSize` is one too. -/
theorem displayLoop_lastTotal_range (flags : DisplayFlags) (bytesString : Int → GoString)
    (relPath : GoString) (manifestToItemID : Manifest → Option GoString) (l : List Manifest) :
    ∀ st : LoopState,
      (0 ≤ st.lastTotalFileSize ∧ st.lastTotalFileSize < 2 ^ 63) →
      (∀ m ∈ l, 0 ≤ m.Stats.TotalFileSize ∧ m.Stats.TotalFileSize < 2 ^ 63) →
      0 ≤ (displayLoop flags bytesString relPath manifestToItemID st l).1.lastTotalFileSize ∧
      (displayLoop flags bytesString relPath manifestToItemID st l).1.lastTotalFileSize
        < 2 ^ 63 := by
  induction l with
  | nil => intro st hst _; exact hst
  | cons m l ih =>
    intro st hst hl
    rw [displayLoop_cons]
    apply ih _ _ (fun x hx => hl x (List.mem_cons_of_mem m hx))
    have hm := hl m (List.mem_cons_self m l)
    rw [(displayStep_summary flags bytesString relPath manifestToItemID st m).1]
    split
    · exact hst
    · show 0 ≤ (if m.IncompleteReason = [] then m.Stats.TotalFileSize else baselineFor st m) ∧
        (if m.IncompleteReason = [] then m.Stats.TotalFileSize else baselineFor st m) < 2 ^ 63
      split
      · exact hm
      · exact baselineFor_range st m hst hm

/-- Claim C19. When all total file sizes are in `0 .. 2^63-1`, the baseline
`lastTotalFileSize` that the display loop subtracts from the size of a manifest
`m` is in that range too, the `int64` subtraction gives the mathematical
difference, and `deltaBytes` of it is a non-empty string exactly when the size
of `m` is strictly greater than the baseline, and the empty string otherwise;
that string is the delta printed for `m`. -/
theorem delta_arithmetic_does_not_wrap (flags : DisplayFlags) (bytesString : Int → GoString)
    (relPath : GoString) (manifestToItemID : Manifest → Option GoString)
    (pre : List Manifest) (m : Manifest)
    (hsize : ∀ x ∈ pre ++ [m], 0 ≤ x.Stats.TotalFileSize ∧ x.Stats.TotalFileSize < 2 ^ 63) :
    (0 ≤ baselineFor (displayLoop flags bytesString relPath manifestToItemID
        LoopState.initial pre).1 m ∧
      baselineFor (displayLoop flags bytesString relPath manifestToItemID
        LoopState.initial pre).1 m < 2 ^ 63) ∧
    wrapInt64 (m.Stats.TotalFileSize - baselineFor (displayLoop flags bytesString relPath
        manifestToItemID LoopState.initial pre).1 m)
      = m.Stats.TotalFileSize - baselineFor (displayLoop flags bytesString relPath
        manifestToItemID LoopState.initial pre).1 m ∧
    (deltaBytes bytesString (wrapInt64 (m.Stats.TotalFileSize - baselineFor
        (displayLoop flags bytesString relPath manifestToItemID LoopState.initial pre).1 m))
        ≠ [] ↔
      baselineFor (displayLoop flags bytesString relPath manifestToItemID
        LoopState.initial pre).1 m < m.Stats.TotalFileSize) ∧
    (∀ d ∈ deltasOf (displayStep flags bytesString relPath manifestToItemID
        (displayLoop flags bytesString relPath manifestToItemID LoopState.initial pre).1 m).2,
      d = deltaBytes bytesString (wrapInt64 (m.Stats.TotalFileSize - baselineFor
        (displayLoop flags bytesString relPath manifestToItemID LoopState.initial pre).1 m))) := by
  have hm := hsize m (by simp)
  have hst := displayLoop_lastTotal_range flags bytesString relPath manifestToItemID pre
    LoopState.initial (by decide) (fun x hx => hsize x (List.mem_append_left _ hx))
  have hbase := baselineFor_range _ m hst hm
  have hwrap := wrapInt64_of_range (m.Stats.TotalFileSize - baselineFor (displayLoop flags
    bytesString relPath manifestToItemID LoopState.initial pre).1 m) (by omega) (by omega)
  refine ⟨hbase, hwrap, ?_, ?_⟩
  · rw [hwrap]
    unfold deltaBytes
    constructor
    · intro h
      by_contra hcon
      rw [if_neg (by omega)] at h
      exact h rfl
    · intro h
      rw [if_pos (by omega)]
      simp
  · intro d hd
    rw [(displayStep_summary flags bytesString relPath manifestToItemID _ m).2.2.2] at hd
    split at hd
    · exact List.mem_singleton.mp hd
    · simp at hd

/-- Claim C19, on an example: after a manifest of size `100`, the manifest of
size `150` of the same source has the baseline `100`, and `150 - 100` does not
wrap. -/
theorem delta_arithmetic_does_not_wrap_witness :
    wrapInt64 ((exampleManifest 2 [] 150).Stats.TotalFileSize
        - baselineFor (displayLoop ⟨false, false, false, 100⟩ exampleBytesString []
          (fun _ => none) LoopState.initial [exampleManifest 1 [] 100]).1
          (exampleManifest 2 [] 150))
      = (exampleManifest 2 [] 150).Stats.TotalFileSize
        - baselineFor (displayLoop ⟨false, false, false, 100⟩ exampleBytesString []
          (fun _ => none) LoopState.initial [exampleManifest 1 [] 100]).1
          (exampleManifest 2 [] 150) :=
  (delta_arithmetic_does_not_wrap ⟨false, false, false, 100⟩ exampleBytesString []
    (fun _ => none) [exampleManifest 1 [] 100] (exampleManifest 2 [] 150) (by decide)).2.1

/-! ## The bounded reader -/

theorem Buffer.unread_length (b : Buffer) : b.unread.length = b.Len := by
  unfold Buffer.unread Buffer.Len
  exact List.length_drop _ _

theorem Buffer.Read_empty (b : Buffer) (k : Nat) (h : b.buf.length ≤ b.off) (hk : 0 < k) :
    b.Read k = (([], some IOError.EOF), ⟨[], 0⟩) := by
  unfold Buffer.Read
  rw [if_pos h, if_neg (by omega)]

theorem Buffer.Read_nonempty (b : Buffer) (k : Nat) (h : b.off < b.buf.length) :
    b.Read k = ((b.unread.take k, none),
      ⟨b.buf, b.off + (b.unread.take k).length⟩) := by
  unfold Buffer.Read Buffer.unread
  rw [if_neg (by omega)]

/-- A `Read` returns the next unread bytes, as many as the destination holds,
and leaves the rest unread. -/
theorem Buffer.Read_spec (b : Buffer) (k : Nat) :
    (b.Read k).1.1 = b.unread.take k ∧ (b.Read k).2.unread = b.unread.drop k := by
  by_cases h : b.buf.length ≤ b.off
  · have hu : b.unread = [] := by
      unfold Buffer.unread
      exact List.drop_eq_nil_of_le h
    unfold Buffer.Read
    rw [if_pos h, hu]
    split <;> simp [Buffer.unread]
  · rw [Buffer.Read_nonempty b k (by omega)]
    refine ⟨rfl, ?_⟩
    show List.drop (b.off + (b.unread.take k).length) b.buf = List.drop k (List.drop b.off b.buf)
    rw [List.drop_drop, List.length_take]
    rcases Nat.le_total k b.unread.length with hle | hle
    · rw [Nat.min_eq_left hle]
    · rw [Nat.min_eq_right hle, Buffer.unread_length]
      have h1 : b.buf.length ≤ b.off + b.Len := by unfold Buffer.Len; omega
      have h2 : b.buf.length ≤ b.off + k := by
        rw [Buffer.unread_length] at hle
        unfold Buffer.Len at hle
        omega
      rw [List.drop_eq_nil_of_le h1, List.drop_eq_nil_of_le h2]

/-- Reading to completion with a destination of at least one byte returns the
unread content and leaves nothing unread. -/
theorem readToCompletion_spec (chunk : Nat) (hchunk : 0 < chunk) (n : Nat) :
    ∀ (r : bytesReaderWithLength) (acc : List UInt8), r.Buffer.unread.length ≤ n →
      ∃ r1, readToCompletion chunk (n + 1) r acc = some (acc ++ r.Buffer.unread, r1) ∧
        r1.Len = 0 := by
  induction n with
  | zero =>
    intro r acc hn
    have hlen : r.Buffer.buf.length ≤ r.Buffer.off := by
      rw [Buffer.unread_length] at hn
      unfold Buffer.Len at hn
      omega
    have hu : r.Buffer.unread = [] := List.length_eq_zero.mp (Nat.le_zero.mp hn)
    refine ⟨⟨⟨[], 0⟩⟩, ?_, rfl⟩
    unfold readToCompletion bytesReaderWithLength.Read
    rw [Buffer.Read_empty r.Buffer chunk hlen hchunk, hu]
  | succ n ih =>
    intro r acc hn
    by_cases hlen : r.Buffer.buf.length ≤ r.Buffer.off
    · have hu : r.Buffer.unread = [] := by
        unfold Buffer.unread
        exact List.drop_eq_nil_of_le hlen
      refine ⟨⟨⟨[], 0⟩⟩, ?_, rfl⟩
      unfold readToCompletion bytesReaderWithLength.Read
      rw [Buffer.Read_empty r.Buffer chunk hlen hchunk, hu]
    · have hspec := Buffer.Read_spec r.Buffer chunk
      have hread := Buffer.Read_nonempty r.Buffer chunk (by omega)
      have hpos : 0 < r.Buffer.unread.length := by
        rw [Buffer.unread_length]
        unfold Buffer.Len
        omega
      have hrest : ((r.Read chunk).2).Buffer.unread.length ≤ n := by
        show ((r.Buffer.Read chunk).2).unread.length ≤ n
        rw [hspec.2, List.length_drop]
        omega
      obtain ⟨r1, hr1, hlen1⟩ := ih (r.Read chunk).2 (acc ++ (r.Read chunk).1.1) hrest
      refine ⟨r1, ?_, hlen1⟩
      have hnone : (r.Read chunk).1.2 = none := by
        show (r.Buffer.Read chunk).1.2 = none
        rw [hread]
      rw [readToCompletion, hnone]
      simp only
      rw [hr1]
      have h1 : (r.Read chunk).1.1 = r.Buffer.unread.take chunk := hspec.1
      have h2 : (r.Read chunk).2.Buffer.unread = r.Buffer.unread.drop chunk := hspec.2
      rw [h1, h2, List.append_assoc, List.take_append_drop]

/-- Claim C13, at a buffer of three unread bytes: `Len()` is `3` at first and `2`
after one byte has been read. -/
theorem reader_len_changes_after_read :
    (NewReader ⟨[1, 2, 3], 0⟩).Len = 3 ∧
    ((NewReader ⟨[1, 2, 3], 0⟩).Read 1).1 = ([1], none) ∧
    ((NewReader ⟨[1, 2, 3], 0⟩).Read 1).2.Len = 2 := by
  decide

/-- Claim C13, amended. For a buffer holding `n` unread bytes, the reader made
by `NewReader` reports `Len() = n`; a `Read` returns the next unread bytes, as
many as the destination holds, and `Len()` is then smaller by their number;
reading to completion produces exactly the `n` unread bytes, after which `Len()`
is `0`. -/
theorem reader_len_is_unread_count (b : Buffer) :
    (NewReader b).Len = b.unread.length ∧
    (∀ k : Nat, ((NewReader b).Read k).1.1 = b.unread.take k ∧
      ((NewReader b).Read k).2.Len = b.unread.length - (b.unread.take k).length) ∧
    (∀ chunk : Nat, 0 < chunk →
      ∃ r, readToCompletion chunk (b.unread.length + 1) (NewReader b) [] = some (b.unread, r) ∧
        r.Len = 0) := by
  refine ⟨(Buffer.unread_length b).symm, ?_, ?_⟩
  · intro k
    have hspec := Buffer.Read_spec b k
    refine ⟨hspec.1, ?_⟩
    show ((b.Read k).2).Len = _
    rw [← Buffer.unread_length, hspec.2, List.length_drop, List.length_take]
    omega
  · intro chunk hchunk
    obtain ⟨r, hr, hlen⟩ := readToCompletion_spec chunk hchunk b.unread.length (NewReader b) []
      (Nat.le_refl _)
    exact ⟨r, by rw [hr]; rfl, hlen⟩

/-- Claim C13, amended, on an example: three unread bytes, read to completion two
at a time. -/
theorem reader_len_is_unread_count_witness :
    ∃ r, readToCompletion 2 4 (NewReader ⟨[9, 1, 2, 3], 1⟩) [] = some ([1, 2, 3], r) ∧
      r.Len = 0 :=
  (reader_len_is_unread_count ⟨[9, 1, 2, 3], 1⟩).2.2 2 (by decide)

/-- Claim C20. For every reader made by `NewReader`, `Close` returns `nil` on the
first call and on every later one, and any number of calls leaves the reader,
the unread content of its buffer and `Len()` as they were. -/
theorem close_idempotent (b : Buffer) (k : Nat) :
    Nat.iterate (fun r => (bytesReaderWithLength.Close r).2) k (NewReader b) = NewReader b ∧
    (bytesReaderWithLength.Close
      (Nat.iterate (fun r => (bytesReaderWithLength.Close r).2) k (NewReader b))).1 = none ∧
    (Nat.iterate (fun r => (bytesReaderWithLength.Close r).2) k (NewReader b)).Buffer.unread
      = b.unread ∧
    (Nat.iterate (fun r => (bytesReaderWithLength.Close r).2) k (NewReader b)).Len
      = (NewReader b).Len := by
  have h : Nat.iterate (fun r => (bytesReaderWithLength.Close r).2) k (NewReader b)
      = NewReader b := by
    induction k with
    | zero => rfl
    | succ k ih =>
      rw [Function.iterate_succ_apply']
      rw [ih]
      rfl
  rw [h]
  exact ⟨rfl, rfl, rfl, rfl⟩

/-! ## The block store -/

theorem countComponents_cons (c : Char) (l : GoString) :
    countComponents (c :: l)
      = (if !isPathSeparator c && elementEnds l then 1 else 0) + countComponents l := rfl

theorem countComponents_cons_le (c : Char) (l : GoString) :
    countComponents l ≤ countComponents (c :: l) ∧
    countComponents (c :: l) ≤ countComponents l + 1 := by
  rw [countComponents_cons]
  split <;> omega

theorem countComponents_sep_cons (c : Char) (l : GoString) (hc : isPathSeparator c = true) :
    countComponents (c :: l) = countComponents l := by
  simp [countComponents_cons, hc]

theorem countComponents_cons_of_top (c : Char) (l : GoString) (hl : elementEnds l = false) :
    countComponents (c :: l) = countComponents l := by
  simp [countComponents_cons, hl]

/-- A byte other than the separator starts a component that ends where the run
of such bytes ends. -/
theorem countComponents_run (l : GoString) :
    ∀ c : Char, isPathSeparator c = false →
      countComponents (c :: l)
        = 1 + countComponents (l.dropWhile (fun x => !isPathSeparator x)) := by
  induction l with
  | nil => intro c hc; simp [countComponents_cons, countComponents, hc, elementEnds]
  | cons d l ih =>
    intro c hc
    by_cases hd : isPathSeparator d = true
    · rw [List.dropWhile_cons_of_neg (by simp [hd]), countComponents_cons c]
      simp [hc, elementEnds, hd]
    · have hd2 : isPathSeparator d = false := by simpa using hd
      rw [List.dropWhile_cons_of_pos (by simp [hd2]), ← ih d hd2, countComponents_cons c]
      simp [elementEnds, hd2]

theorem countComponents_snoc (l : GoString) (c : Char) :
    countComponents (l ++ [c])
      = countComponents l + (if !isPathSeparator c && elementEnds l.reverse then 1 else 0) := by
  induction l with
  | nil => simp [countComponents_cons, countComponents, elementEnds]
  | cons d l ih =>
    rw [List.cons_append, countComponents_cons, ih, countComponents_cons d l]
    cases l with
    | nil =>
      by_cases hd : isPathSeparator d = true <;> by_cases hc : isPathSeparator c = true <;>
        simp [countComponents, elementEnds, hd, hc]
    | cons e l =>
      have h1 : elementEnds (e :: l ++ [c]) = elementEnds (e :: l) := rfl
      have h2 : elementEnds (d :: e :: l).reverse = elementEnds (e :: l).reverse := by
        rw [List.reverse_cons (a := d)]
        cases hr : (e :: l).reverse with
        | nil => simp at hr
        | cons x r => rfl
      rw [h1, h2]
      omega

/-- Counting components from either end gives one number. -/
theorem countComponents_reverse (l : GoString) :
    countComponents l.reverse = countComponents l := by
  induction l with
  | nil => rfl
  | cons c l ih =>
    rw [List.reverse_cons, countComponents_snoc, ih, List.reverse_reverse,
      countComponents_cons c l]
    omega

theorem backtrack_countComponents_le (dd : Nat) (buf : List Char) :
    countComponents (backtrack dd buf) ≤ countComponents buf := by
  induction buf with
  | nil => simp [backtrack]
  | cons c buf ih =>
    have := (countComponents_cons_le c buf).1
    rw [backtrack]
    split
    · omega
    · exact this

/-- The loop of `Clean` writes no more components than it reads: the result has
at most the components of the buffer plus those of the unread input (without the
element being copied, which is in the buffer already). -/
theorem cleanLoop_countComponents (rooted : Bool) (rest : GoString) (cp : Bool)
    (out : List Char) (dd : Nat) :
    (cp = true → elementEnds out = false) →
    countComponents (cleanLoop rooted rest cp out dd) ≤
      countComponents out +
        (if cp = true then countComponents (rest.dropWhile (fun x => !isPathSeparator x))
          else countComponents rest) := by
  induction rest, cp, out, dd using cleanLoop.induct rooted with
  | case1 cp out dd =>
    intro _
    rw [cleanLoop]
    omega
  | case2 c rest out dd hs ih =>
    intro _
    have := ih (by intro h; cases h)
    rw [cleanLoop]
    simp only [hs, ↓reduceIte] at this ⊢
    rw [List.dropWhile_cons_of_neg (by simp [hs]), countComponents_sep_cons c rest hs]
    simpa using this
  | case3 c rest out dd hs ih =>
    intro hpre
    have hs2 : isPathSeparator c = false := by simpa using hs
    have := ih (by intro _; simp [elementEnds, hs2])
    rw [cleanLoop]
    simp only [hs, ↓reduceIte] at this ⊢
    rw [List.dropWhile_cons_of_pos (by simp [hs2])]
    rw [countComponents_cons_of_top c out (hpre rfl)] at this
    exact this
  | case4 c rest out dd hs ih =>
    intro _
    have := ih (by intro h; cases h)
    rw [cleanLoop_sep rooted c rest out dd hs]
    simp only [Bool.false_eq_true, ↓reduceIte] at this ⊢
    rw [countComponents_sep_cons c rest hs]
    exact this
  | case5 c rest out dd hs hdot ih =>
    intro _
    have := ih (by intro h; cases h)
    rw [cleanLoop_dot rooted c rest out dd hs hdot]
    simp only [Bool.false_eq_true, ↓reduceIte] at this ⊢
    have := (countComponents_cons_le c rest).1
    omega
  | case6 c out dd hs c2 rest2 hdd hlt hnd ih =>
    intro _
    have := ih (by intro h; cases h)
    have hb := backtrack_countComponents_le dd out
    rw [cleanLoop]
    simp only [hs, hdd, hlt, hnd, Bool.false_eq_true, ↓reduceIte] at this ⊢
    have h1 := (countComponents_cons_le c2 rest2).1
    have h2 := (countComponents_cons_le c (c2 :: rest2)).1
    omega
  | case7 c out dd hs c2 rest2 hdd hlt hroot out2 hnd ih =>
    intro _
    have := ih (by intro h; cases h)
    have hc : c = '.' ∧ c2 = '.' ∧ elementEnds rest2 = true := by
      simp only [Bool.and_eq_true, beq_iff_eq] at hdd
      exact ⟨hdd.1.1, hdd.1.2, hdd.2⟩
    have hout2 : countComponents out2 ≤ countComponents out + 1 := by
      show countComponents ('.' :: '.' :: if 0 < out.length then '/' :: out else out)
        ≤ countComponents out + 1
      have h1 : countComponents (if 0 < out.length then '/' :: out else out)
          = countComponents out := by
        split
        · exact countComponents_sep_cons '/' out rfl
        · rfl
      have h2 := (countComponents_cons_le '.' (if 0 < out.length then '/' :: out else out)).2
      have h3 : countComponents ('.' :: '.' :: if 0 < out.length then '/' :: out else out)
          = countComponents ('.' :: if 0 < out.length then '/' :: out else out) :=
        countComponents_cons_of_top '.' _ rfl
      omega
    have hrest : countComponents (c :: c2 :: rest2) = 1 + countComponents rest2 := by
      have e1 : elementEnds ('.' :: rest2) = false := rfl
      rw [hc.1, hc.2.1, countComponents_cons, countComponents_cons, e1, hc.2.2]
      simp [isPathSeparator]
    rw [cleanLoop]
    simp only [hs, hdd, hlt, hnd, hroot, Bool.false_eq_true, ↓reduceIte] at this ⊢
    rw [hrest]
    exact Nat.le_trans this (by omega)
  | case8 c out dd hs c2 rest2 hdd hlt hroot hnd ih =>
    intro _
    have := ih (by intro h; cases h)
    rw [cleanLoop]
    simp only [hs, hdd, hlt, hnd, hroot, Bool.false_eq_true, ↓reduceIte] at this ⊢
    have h1 := (countComponents_cons_le c2 rest2).1
    have h2 := (countComponents_cons_le c (c2 :: rest2)).1
    omega
  | case9 c out dd hs c2 rest2 hdd hnd ih =>
    intro _
    have hs2 : isPathSeparator c = false := by simpa using hs
    have := ih (by intro _; simp [elementEnds, hs2])
    have hpush : countComponents
        (c :: if needsSeparator rooted out.length = true then '/' :: out else out)
        ≤ countComponents out + 1 := by
      have h1 : countComponents
          (if needsSeparator rooted out.length = true then '/' :: out else out)
          = countComponents out := by
        split
        · exact countComponents_sep_cons '/' out rfl
        · rfl
      have h2 := (countComponents_cons_le c
        (if needsSeparator rooted out.length = true then '/' :: out else out)).2
      omega
    have hrun := countComponents_run (c2 :: rest2) c hs2
    rw [cleanLoop]
    simp only [hs, hdd, hnd, Bool.false_eq_true, ↓reduceIte] at this ⊢
    omega
  | case10 c out dd hs hnd ih =>
    intro _
    have hs2 : isPathSeparator c = false := by simpa using hs
    have := ih (by intro _; simp [elementEnds, hs2])
    have hpush : countComponents
        (c :: if needsSeparator rooted out.length = true then '/' :: out else out)
        ≤ countComponents out + 1 := by
      have h1 : countComponents
          (if needsSeparator rooted out.length = true then '/' :: out else out)
          = countComponents out := by
        split
        · exact countComponents_sep_cons '/' out rfl
        · rfl
      have h2 := (countComponents_cons_le c
        (if needsSeparator rooted out.length = true then '/' :: out else out)).2
      omega
    have hrun := countComponents_run [] c hs2
    rw [cleanLoop]
    simp only [hs, hnd, Bool.false_eq_true, ↓reduceIte] at this ⊢
    simp only [List.dropWhile_nil] at this hrun
    omega

/-! ## The shape of the result of `filepath.Clean` -/

theorem drop_bottom_cons (c : Char) (out : List Char) (dd : Nat) (h : dd ≤ out.length) :
    (c :: out).drop ((c :: out).length - dd) = out.drop (out.length - dd) := by
  have : (c :: out).length - dd = (out.length - dd) + 1 := by
    simp only [List.length_cons]
    omega
  rw [this, List.drop_succ_cons]

theorem bufferInv_push (rooted : Bool) (c : Char) (out : List Char) (dd : Nat)
    (hc : isPathSeparator c = false) (h : bufferInv rooted out dd) :
    bufferInv rooted (c :: out) dd := by
  obtain ⟨_, hchain, hdd, hbot⟩ := h
  refine ⟨Or.inr (Or.inr hc), ?_, ?_, ?_⟩
  · cases out with
    | nil => exact List.chain'_singleton c
    | cons d t => exact List.chain'_cons.mpr ⟨by simp [hc], hchain⟩
  · simp only [List.length_cons]
    omega
  · rw [drop_bottom_cons c out dd hdd]
    exact hbot

theorem bufferInv_push_sep (rooted : Bool) (out : List Char) (dd : Nat)
    (htop : out = [] ∨ elementEnds out = false) (h : bufferInv rooted out dd) :
    ('/' :: out).Chain' (fun a b => ¬ (isPathSeparator a = true ∧ isPathSeparator b = true)) ∧
    dd ≤ ('/' :: out).length ∧
    bufferTop rooted (('/' :: out).drop (('/' :: out).length - dd)) := by
  obtain ⟨_, hchain, hdd, hbot⟩ := h
  refine ⟨?_, ?_, ?_⟩
  · cases out with
    | nil => exact List.chain'_singleton '/'
    | cons d t =>
      rcases htop with h | h
      · cases h
      · exact List.chain'_cons.mpr ⟨by
          simp only [elementEnds] at h
          simp [h], hchain⟩
  · simp only [List.length_cons]
    omega
  · rw [drop_bottom_cons '/' out dd hdd]
    exact hbot

/-- Pushing a separator and then another byte keeps the invariant. -/
theorem bufferInv_push_element (rooted : Bool) (c : Char) (out : List Char) (dd : Nat)
    (hc : isPathSeparator c = false) (htop : out = [] ∨ elementEnds out = false)
    (h : bufferInv rooted out dd) :
    bufferInv rooted (c :: '/' :: out) dd := by
  obtain ⟨hchain, hdd, hbot⟩ := bufferInv_push_sep rooted out dd htop h
  refine ⟨Or.inr (Or.inr hc), List.chain'_cons.mpr ⟨by simp [hc], hchain⟩, ?_, ?_⟩
  · simp only [List.length_cons] at hdd ⊢
    omega
  · rw [drop_bottom_cons c ('/' :: out) dd hdd]
    exact hbot

theorem backtrack_bufferInv (rooted : Bool) (dd : Nat) (out : List Char) :
    out.Chain' (fun a b => ¬ (isPathSeparator a = true ∧ isPathSeparator b = true)) →
    dd < out.length →
    bufferTop rooted (out.drop (out.length - dd)) →
    bufferInv rooted (backtrack dd out) dd := by
  induction out with
  | nil => intro _ h _; simp at h
  | cons c buf ih =>
    intro hchain hlt hbot
    have hle : dd ≤ buf.length := by
      simp only [List.length_cons] at hlt
      omega
    rw [drop_bottom_cons c buf dd hle] at hbot
    have hchain2 : buf.Chain'
        (fun a b => ¬ (isPathSeparator a = true ∧ isPathSeparator b = true)) := hchain.tail
    rw [backtrack]
    by_cases hcond : (decide (dd < buf.length) && !isPathSeparator c) = true
    · rw [if_pos hcond]
      simp only [Bool.and_eq_true, decide_eq_true_eq] at hcond
      exact ih hchain2 hcond.1 hbot
    · rw [if_neg hcond]
      refine ⟨?_, hchain2, hle, hbot⟩
      by_cases hlt2 : dd < buf.length
      · have hsep : isPathSeparator c = true := by
          cases hc : isPathSeparator c
          · exact absurd (by simp [hlt2, hc]) hcond
          · rfl
        cases buf with
        | nil => exact Or.inl rfl
        | cons d t =>
          have := (List.chain'_cons.mp hchain).1
          right; right
          simp only [elementEnds]
          cases hd : isPathSeparator d
          · rfl
          · exact absurd ⟨hsep, hd⟩ this
      · have heq : buf.length - dd = 0 := by omega
        rw [heq, List.drop_zero] at hbot
        exact hbot

/-- The loop of `Clean` keeps the top of its buffer in order, and never cuts the
buffer below `dotdot`. -/
theorem cleanLoop_shape (rooted : Bool) (rest : GoString) (cp : Bool) (out : List Char)
    (dd : Nat) :
    bufferInv rooted out dd →
    bufferTop rooted (cleanLoop rooted rest cp out dd) ∧
      dd ≤ (cleanLoop rooted rest cp out dd).length := by
  induction rest, cp, out, dd using cleanLoop.induct rooted with
  | case1 cp out dd =>
    intro h
    rw [cleanLoop]
    exact ⟨h.1, h.2.2.1⟩
  | case2 c rest out dd hs ih =>
    intro h
    rw [cleanLoop]
    simp only [hs, ↓reduceIte]
    exact ih h
  | case3 c rest out dd hs ih =>
    intro h
    have hs2 : isPathSeparator c = false := by simpa using hs
    rw [cleanLoop]
    simp only [hs, Bool.false_eq_true, ↓reduceIte]
    exact ih (bufferInv_push rooted c out dd hs2 h)
  | case4 c rest out dd hs ih =>
    intro h
    rw [cleanLoop_sep rooted c rest out dd hs]
    exact ih h
  | case5 c rest out dd hs hdot ih =>
    intro h
    rw [cleanLoop_dot rooted c rest out dd hs hdot]
    exact ih h
  | case6 c out dd hs c2 rest2 hdd hlt hnd ih =>
    intro h
    rw [cleanLoop]
    simp only [hs, hdd, hlt, hnd, Bool.false_eq_true, ↓reduceIte]
    exact ih (backtrack_bufferInv rooted dd out h.2.1 hlt h.2.2.2)
  | case7 c out dd hs c2 rest2 hdd hlt hroot out2 hnd ih =>
    intro h
    have hr0 : rooted = false := by simpa using hroot
    have htop : out = [] ∨ elementEnds out = false := by
      rcases h.1 with h1 | h1 | h1
      · exact Or.inl h1
      · rw [hr0] at h1
        cases h1.1
      · exact Or.inr h1
    have hinv2 : bufferInv rooted out2 out2.length := by
      show bufferInv rooted ('.' :: '.' :: if 0 < out.length then '/' :: out else out)
        ('.' :: '.' :: if 0 < out.length then '/' :: out else out).length
      refine ⟨Or.inr (Or.inr rfl), ?_, Nat.le_refl _, ?_⟩
      · refine List.chain'_cons.mpr ⟨by decide, ?_⟩
        split
        · exact List.chain'_cons.mpr ⟨by decide, (bufferInv_push_sep rooted out dd htop h).1⟩
        · cases out with
          | nil => exact List.chain'_singleton '.'
          | cons d t => exact List.chain'_cons.mpr ⟨by simp [isPathSeparator], h.2.1⟩
      · rw [Nat.sub_self, List.drop_zero]
        exact Or.inr (Or.inr rfl)
    have hres := ih hinv2
    rw [cleanLoop]
    simp only [hs, hdd, hlt, hnd, hroot, Bool.false_eq_true, ↓reduceIte]
    refine ⟨hres.1, Nat.le_trans ?_ hres.2⟩
    show dd ≤ ('.' :: '.' :: if 0 < out.length then '/' :: out else out).length
    have := h.2.2.1
    split <;> simp only [List.length_cons] <;> omega
  | case8 c out dd hs c2 rest2 hdd hlt hroot hnd ih =>
    intro h
    rw [cleanLoop]
    simp only [hs, hdd, hlt, hnd, hroot, Bool.false_eq_true, ↓reduceIte]
    exact ih h
  | case9 c out dd hs c2 rest2 hdd hnd ih =>
    intro h
    have hs2 : isPathSeparator c = false := by simpa using hs
    have hinv2 : bufferInv rooted
        (c :: if needsSeparator rooted out.length = true then '/' :: out else out) dd := by
      by_cases hns : needsSeparator rooted out.length = true
      · rw [if_pos hns]
        refine bufferInv_push_element rooted c out dd hs2 ?_ h
        rcases h.1 with h1 | h1 | h1
        · exact Or.inl h1
        · exfalso
          rw [h1.1, h1.2] at hns
          simp [needsSeparator] at hns
        · exact Or.inr h1
      · rw [if_neg hns]
        exact bufferInv_push rooted c out dd hs2 h
    rw [cleanLoop]
    simp only [hs, hdd, hnd, Bool.false_eq_true, ↓reduceIte]
    exact ih hinv2
  | case10 c out dd hs hnd ih =>
    intro h
    have hs2 : isPathSeparator c = false := by simpa using hs
    have hinv2 : bufferInv rooted
        (c :: if needsSeparator rooted out.length = true then '/' :: out else out) dd := by
      by_cases hns : needsSeparator rooted out.length = true
      · rw [if_pos hns]
        refine bufferInv_push_element rooted c out dd hs2 ?_ h
        rcases h.1 with h1 | h1 | h1
        · exact Or.inl h1
        · exfalso
          rw [h1.1, h1.2] at hns
          simp [needsSeparator] at hns
        · exact Or.inr h1
      · rw [if_neg hns]
        exact bufferInv_push rooted c out dd hs2 h
    rw [cleanLoop]
    simp only [hs, hnd, Bool.false_eq_true, ↓reduceIte]
    exact ih hinv2

theorem bufferInv_root : bufferInv true ['/'] 1 :=
  ⟨Or.inr (Or.inl ⟨rfl, rfl⟩), List.chain'_singleton _, Nat.le_refl _,
    Or.inr (Or.inl ⟨rfl, rfl⟩)⟩

theorem bufferInv_empty : bufferInv false [] 0 :=
  ⟨Or.inl rfl, List.chain'_nil, Nat.le_refl _, Or.inl rfl⟩

theorem cleanLoop_rooted_not_empty (rest : GoString) :
    (cleanLoop true rest false ['/'] 1).isEmpty = false := by
  have hshape := (cleanLoop_shape true rest false ['/'] 1 bufferInv_root).2
  cases hx : cleanLoop true rest false ['/'] 1 with
  | nil => rw [hx] at hshape; simp at hshape
  | cons _ _ => rfl

/-- Cleaning a path does not add components. -/
theorem Clean_countComponents_le (path : GoString) (h : path ≠ []) :
    countComponents (Clean path) ≤ countComponents path := by
  match path, h with
  | c :: rest, _ =>
    by_cases hs : isPathSeparator c = true
    · rw [Clean_rooted c rest hs, cleanLoop_rooted_not_empty rest]
      have hcount := cleanLoop_countComponents true rest false ['/'] 1 (by simp)
      have h0 : countComponents ['/'] = 0 := by decide
      simp only [Bool.false_eq_true, ↓reduceIte, h0, Nat.zero_add] at hcount ⊢
      rw [countComponents_reverse, countComponents_sep_cons c rest hs]
      exact hcount
    · have hs2 : isPathSeparator c = false := by simpa using hs
      rw [Clean_unrooted c rest hs]
      have hcount := cleanLoop_countComponents false (c :: rest) false [] 0 (by simp)
      have h0 : countComponents ([] : GoString) = 0 := rfl
      simp only [Bool.false_eq_true, ↓reduceIte, h0, Nat.zero_add] at hcount
      split
      · have h1 : countComponents ['.'] = 1 := by decide
        rw [h1, countComponents_run rest c hs2]
        omega
      · rw [countComponents_reverse]
        exact hcount

theorem bufferTop_no_trailing (rooted : Bool) (out : List Char) (h : bufferTop rooted out) :
    hasTrailingSeparator (if out.isEmpty then ['.'] else out.reverse) = false := by
  rcases h with h | h | h
  · subst h; decide
  · rw [h.2]; decide
  · cases out with
    | nil => decide
    | cons d t =>
      simp only [elementEnds] at h
      simp [hasTrailingSeparator, endsWithSeparator, h]

/-- The result of `Clean` ends in a separator only if it is the root `/`. -/
theorem Clean_no_trailing (path : GoString) : hasTrailingSeparator (Clean path) = false := by
  match path with
  | [] => decide
  | c :: rest =>
    by_cases hs : isPathSeparator c = true
    · rw [Clean_rooted c rest hs]
      exact bufferTop_no_trailing true _ (cleanLoop_shape true rest false ['/'] 1 bufferInv_root).1
    · rw [Clean_unrooted c rest hs]
      exact bufferTop_no_trailing false _
        (cleanLoop_shape false (c :: rest) false [] 0 bufferInv_empty).1

theorem Dir_no_trailing (path : GoString) : hasTrailingSeparator (Dir path) = false :=
  Clean_no_trailing _

/-! ## The number of hops of the walk -/

theorem upToLastSeparator_of_trailing (path : GoString) (h : endsWithSeparator path = true) :
    upToLastSeparator path = path := by
  unfold endsWithSeparator at h
  unfold upToLastSeparator
  cases hr : path.reverse with
  | nil => rw [hr] at h; simp at h
  | cons c l =>
    rw [hr] at h
    simp only at h
    rw [List.dropWhile_cons_of_neg (by simp [h]), ← hr, List.reverse_reverse]

/-- When the path ends in a byte other than the separator, `filepath.Dir` cuts
its last component off before cleaning. -/
theorem countComponents_upToLastSeparator (path : GoString) (hp : path ≠ [])
    (h : endsWithSeparator path = false) :
    countComponents (upToLastSeparator path) + 1 = countComponents path := by
  unfold endsWithSeparator at h
  unfold upToLastSeparator
  cases hr : path.reverse with
  | nil => exact absurd (List.reverse_eq_nil_iff.mp hr) hp
  | cons c l =>
    rw [hr] at h
    simp only at h
    rw [List.dropWhile_cons_of_pos (by simp [h]), countComponents_reverse,
      ← countComponents_reverse path, hr, countComponents_run l c h]
    omega

theorem fixed_point_within_components (n : Nat) :
    ∀ path : GoString, path ≠ [] → path.length ≤ n → hasTrailingSeparator path = false →
      ∃ m, m ≤ countComponents path ∧ Dir (ancestor path m) = ancestor path m := by
  induction n with
  | zero =>
    intro path hp hlen
    exfalso
    exact hp (List.length_eq_zero.mp (Nat.le_zero.mp hlen))
  | succ n ih =>
    intro path hp hlen ht
    by_cases hd : Dir path = path
    · exact ⟨0, Nat.zero_le _, hd⟩
    · have hends : endsWithSeparator path = false := by
        cases he : endsWithSeparator path
        · rfl
        · exfalso
          have hroot : path = ['/'] := by
            simpa [hasTrailingSeparator, he] using ht
          exact hd (by rw [hroot]; exact Dir_root)
      have hc := countComponents_upToLastSeparator path hp hends
      by_cases hu : upToLastSeparator path = []
      · have hdot : Dir path = ['.'] := by
          unfold Dir
          rw [hu]
          rfl
        refine ⟨1, by omega, ?_⟩
        show Dir (Dir path) = Dir path
        rw [hdot]
        exact Dir_dot
      · have hle : countComponents (Dir path) ≤ countComponents (upToLastSeparator path) :=
          Clean_countComponents_le _ hu
        rcases Dir_cases path with h1 | h1 | h1
        · refine ⟨1, by omega, ?_⟩
          show Dir (Dir path) = Dir path
          rw [h1]
          exact Dir_dot
        · refine ⟨1, by omega, ?_⟩
          show Dir (Dir path) = Dir path
          rw [h1]
          exact Dir_root
        · obtain ⟨m, hm, hfix⟩ := ih (Dir path) (Dir_ne_nil _) (by omega) (Dir_no_trailing path)
          exact ⟨m + 1, by omega, hfix⟩

/-- A fixed point of `filepath.Dir` is reached within as many hops as the path
has components, and one more when the path ends in a separator without being
the root. -/
theorem fixed_point_within_bound (path : GoString) (hp : path ≠ []) :
    ∃ m, m ≤ countComponents path + (if hasTrailingSeparator path = true then 1 else 0) ∧
      Dir (ancestor path m) = ancestor path m := by
  by_cases ht : hasTrailingSeparator path = true
  · have hends : endsWithSeparator path = true := by
      simp only [hasTrailingSeparator, Bool.and_eq_true] at ht
      exact ht.1
    have hDir : Dir path = Clean path := by
      unfold Dir
      rw [upToLastSeparator_of_trailing path hends]
    obtain ⟨m, hm, hfix⟩ := fixed_point_within_components (Clean path).length (Clean path)
      (Clean_ne_nil path) (Nat.le_refl _) (Clean_no_trailing path)
    have hle := Clean_countComponents_le path hp
    refine ⟨m + 1, ?_, ?_⟩
    · rw [if_pos ht]
      omega
    · show Dir (ancestor (Dir path) m) = ancestor (Dir path) m
      rw [hDir]
      exact hfix
  · rw [if_neg ht]
    exact fixed_point_within_components path.length path hp (Nat.le_refl _) (by simpa using ht)

theorem walkMeasure_Dir_lt (path : GoString) (hp : path ≠ []) (hd : Dir path ≠ path) :
    walkMeasure (Dir path) < walkMeasure path := by
  have hp1 : path ≠ ['.'] := fun h => hd (by rw [h]; exact Dir_dot)
  have hp2 : path ≠ ['/'] := fun h => hd (by rw [h]; exact Dir_root)
  have hm : walkMeasure path = path.length := by simp [walkMeasure, hp1, hp2]
  have hpos : 0 < path.length := List.length_pos.mpr hp
  have h0 : walkMeasure ['.'] = 0 := by decide
  have h1 : walkMeasure ['/'] = 0 := by decide
  rcases Dir_cases path with h | h | h
  · rw [h, hm, h0]
    exact hpos
  · rw [h, hm, h1]
    exact hpos
  · have : walkMeasure (Dir path) ≤ (Dir path).length := by
      unfold walkMeasure
      split <;> omega
    omega

/-- Before the walk reaches a fixed point of `filepath.Dir`, every hop brings
the path strictly closer to one. -/
theorem walkMeasure_ancestor_lt (path : GoString) (hp : path ≠ []) (n : Nat)
    (hwalk : ∀ i < n, Dir (ancestor path i) ≠ ancestor path i) :
    ∀ j, j ≤ n → ∀ i, i < j → walkMeasure (ancestor path j) < walkMeasure (ancestor path i) := by
  intro j
  induction j with
  | zero => intro _ i hi; exact absurd hi (Nat.not_lt_zero i)
  | succ j ih =>
    intro hj i hi
    have hstep : walkMeasure (ancestor path (j + 1)) < walkMeasure (ancestor path j) := by
      rw [ancestor_succ]
      exact walkMeasure_Dir_lt _ (ancestor_ne_nil path hp j) (hwalk j (by omega))
    by_cases hij : i = j
    · rw [hij]
      exact hstep
    · exact Nat.lt_trans hstep (ih (by omega) i (by omega))

/-- The paths queried up to the first fixed point of `filepath.Dir` are pairwise
different. -/
theorem callsOf_nodup (si : SourceInfo) (hp : si.Path ≠ []) (n : Nat)
    (hwalk : ∀ i < n, Dir (ancestor si.Path i) ≠ ancestor si.Path i) :
    (callsOf si (n + 1)).Nodup := by
  unfold callsOf
  refine List.Nodup.map_on ?_ (List.nodup_range _)
  intro x hx y hy hxy
  have hx2 : x ≤ n := by
    have := List.mem_range.mp hx
    omega
  have hy2 : y ≤ n := by
    have := List.mem_range.mp hy
    omega
  have heq : ancestor si.Path x = ancestor si.Path y := congrArg SourceInfo.Path hxy
  rcases Nat.lt_trichotomy x y with h | h | h
  · have := walkMeasure_ancestor_lt si.Path hp n hwalk y hy2 x h
    rw [heq] at this
    exact absurd this (Nat.lt_irrefl _)
  · exact h
  · have := walkMeasure_ancestor_lt si.Path hp n hwalk x hx2 y h
    rw [heq] at this
    exact absurd this (Nat.lt_irrefl _)

/-! ## Claim C16: the walk terminates, and the number of its calls -/

/-- Claim C16, counterexample to the bound of (number of path components + 1)
calls: the path `/a/b/` has the two components `a` and `b`, and with a manager
that has no manifest anywhere the walk makes four calls, for `/a/b/`, `/a/b`,
`/a` and `/`. -/
theorem trailing_separator_costs_extra_call :
    (findBackups (recording emptyManager) ([], [])
        ⟨['h'], ['u'], ['/', 'a', '/', 'b', '/']⟩).map
      (fun r => (r.1, r.2.2.map SourceInfo.Path)) =
      some (⟨[], [], none⟩,
        [['/', 'a', '/', 'b', '/'], ['/', 'a', '/', 'b'], ['/', 'a'], ['/']]) ∧
    countComponents ['/', 'a', '/', 'b', '/'] = 2 ∧
    hasTrailingSeparator ['/', 'a', '/', 'b', '/'] = true := by
  decide

/-- Claim C16, amended: for every path and every manager, `findBackups` returns.
Its calls are the first `n` queries of the walk, one per hop, in order, each for
`filepath.Dir` of the path before it; the queried paths are pairwise different
strings and none before the last is a fixed point of `filepath.Dir`. The number
`n` of calls is at most the number of path components plus one, plus one more
when the path ends in a separator without being the root `/`. For the empty path
there is no call and the result is `(nil, "", nil)`. -/
theorem walk_terminates_within_component_bound {σ ε : Type} (list : ListManifests σ ε)
    (st : σ) (si : SourceInfo) :
    ∃ r n, findBackups (recording list) (st, []) si
        = some (r, (stateAfter list st si n, callsOf si n)) ∧
      (∀ i, ancestor si.Path (i + 1) = Dir (ancestor si.Path i)) ∧
      (callsOf si n).Nodup ∧
      (∀ i, i + 1 < n → Dir (ancestor si.Path i) ≠ ancestor si.Path i) ∧
      n ≤ countComponents si.Path + 1 +
        (if hasTrailingSeparator si.Path = true then 1 else 0) ∧
      (si.Path = [] → n = 0 ∧ r = ⟨[], [], none⟩) := by
  by_cases hp : si.Path = []
  · refine ⟨⟨[], [], none⟩, 0, ?_, ancestor_succ si.Path, List.nodup_nil,
      fun i hi => absurd hi (Nat.not_lt_zero _), Nat.zero_le _, fun _ => ⟨rfl, rfl⟩⟩
    exact findBackupsLoop_nil (recording list) _ (st, []) si [] hp
  · obtain ⟨j, _, hwalk, _, hcase⟩ := findBackups_outcome (recording list) (st, []) si hp
    obtain ⟨m, hm, hfix⟩ := fixed_point_within_bound si.Path hp
    have hjm : j ≤ m := by
      by_contra h
      exact hwalk m (by omega) hfix
    have hstate : stateAfter (recording list) (st, []) si (j + 1)
        = (stateAfter list st si (j + 1), callsOf si (j + 1)) := by
      rw [stateAfter_recording]
      simp
    have hbound : j + 1 ≤ countComponents si.Path + 1 +
        (if hasTrailingSeparator si.Path = true then 1 else 0) := by
      omega
    rcases hcase with ⟨e, _, h⟩ | ⟨l, _, _, h⟩ | ⟨_, _, h⟩
    · exact ⟨_, j + 1, by rw [h, hstate], ancestor_succ si.Path, callsOf_nodup si hp j hwalk,
        fun i hi => hwalk i (by omega), hbound, fun h0 => absurd h0 hp⟩
    · exact ⟨_, j + 1, by rw [h, hstate], ancestor_succ si.Path, callsOf_nodup si hp j hwalk,
        fun i hi => hwalk i (by omega), hbound, fun h0 => absurd h0 hp⟩
    · exact ⟨_, j + 1, by rw [h, hstate], ancestor_succ si.Path, callsOf_nodup si hp j hwalk,
        fun i hi => hwalk i (by omega), hbound, fun h0 => absurd h0 hp⟩

/-- Claim C16, amended, at the path `/a/b/` with manifests at `/a` only. -/
theorem walk_terminates_within_component_bound_witness :
    ∃ r n, findBackups (recording exampleManager) ([], [])
          ⟨['h'], ['u'], ['/', 'a', '/', 'b', '/']⟩
        = some (r, (stateAfter exampleManager []
            ⟨['h'], ['u'], ['/', 'a', '/', 'b', '/']⟩ n,
          callsOf ⟨['h'], ['u'], ['/', 'a', '/', 'b', '/']⟩ n)) ∧
      (∀ i, ancestor ['/', 'a', '/', 'b', '/'] (i + 1)
        = Dir (ancestor ['/', 'a', '/', 'b', '/'] i)) ∧
      (callsOf ⟨['h'], ['u'], ['/', 'a', '/', 'b', '/']⟩ n).Nodup ∧
      (∀ i, i + 1 < n → Dir (ancestor ['/', 'a', '/', 'b', '/'] i)
        ≠ ancestor ['/', 'a', '/', 'b', '/'] i) ∧
      n ≤ countComponents ['/', 'a', '/', 'b', '/'] + 1 +
        (if hasTrailingSeparator ['/', 'a', '/', 'b', '/'] = true then 1 else 0) ∧
      ((['/', 'a', '/', 'b', '/'] : GoString) = [] → n = 0 ∧ r = ⟨[], [], none⟩) :=
  walk_terminates_within_component_bound exampleManager []
    ⟨['h'], ['u'], ['/', 'a', '/', 'b', '/']⟩

end Kopia
